import Mathlib

/-!
# DXSLAM `KeyFrameDatabase`: inverted index and candidate searches

A shallow embedding of `src/KeyFrameDatabase.cc`.

Modelling conventions.

* A `KeyFrame*` is a pointer identity; it is a natural number here.  The fields of a keyframe
  that the database only reads (`mnId`, `mBowVec`, the covisibility queries, the global
  descriptor, the scoring function of the bag-of-words type) live in `World`; the fields it
  writes (`mnLoopQuery`, `mnLoopWords`, `mLoopScore`, `mnRelocQuery`, `mnRelocWords`,
  `mRelocScore`, `glbDistance`) live in `Scratch`, one record per keyframe.
* `mBowVec` is a `std::map` from word id to weight: a list of pairs whose keys increase
  strictly, visited in that order.
* `mvInvertedFile` is a `std::map<int, std::list<KeyFrame*>>`.  Only `find`, `insert`,
  `operator[]` and `clear` are used, never its iteration order, so it is a function from a
  word id to an optional bucket (`none`: no bucket for that word).
* `float` values are rationals.  Where the rounding of a `float` operation decides what a
  search keeps, the operation is followed by `toFloat`, the rounding to binary32 (nearest
  value, ties to even, gradual underflow; overflow, infinities and NaN are outside the
  model): the product `maxCommonWords*0.8f` of both score-based searches, and in
  `DetectRelocalizationCandidates` the sums `accScore+=...` and the product
  `0.75f*bestAccScore`.  In `DetectLoopCandidates` those sums and that product are taken
  without rounding, and so are the descriptor distances of `DetectRelocalizationByglb`.
  `0.75f` is `3/4`; `0.8f` is `13421773/16777216`, the binary32 value nearest to `4/5`.
* `int` counters are integers without overflow; the conversion of a `float` to `int` drops
  the fractional part.
* `GetConnectedKeyFrames` returns a `std::set` of which only `count` is used: a list, used
  through membership.  `GetBestCovisibilityKeyFrames` and the scoring function are taken as
  they come.
* Every operation runs alone.  What `add`, `erase` and `clear` do with `mMutex` is recorded
  separately, as the sequence of their lock, access and unlock events.
-/

namespace DXSLAM

/-- Word identifier of the vocabulary. -/
abbrev WordId := Nat

/-- Identity of a `KeyFrame*`. -/
abbrev KeyFrame := Nat

/-- Bag-of-words vector: a `std::map` from word id to weight, keys strictly increasing. -/
structure BowVector where
  entries : List (WordId × ℚ)
  sorted : (entries.map Prod.fst).Pairwise (fun a b => a < b)

/-- Word ids of a bag-of-words vector in iteration order (`vit->first`). -/
def BowVector.words (v : BowVector) : List WordId := v.entries.map Prod.fst

/-- Fields of a keyframe written by the database. -/
structure Scratch where
  mnLoopQuery : Nat
  mnLoopWords : Int
  mLoopScore : ℚ
  mnRelocQuery : Nat
  mnRelocWords : Int
  mRelocScore : ℚ
  glbDistance : ℚ
deriving DecidableEq

/-- Everything the database reads from keyframes and from the bag-of-words type. -/
structure World where
  mnId : KeyFrame → Nat
  mBowVec : KeyFrame → BowVector
  GetConnectedKeyFrames : KeyFrame → List KeyFrame
  GetBestCovisibilityKeyFrames : KeyFrame → Nat → List KeyFrame
  score : BowVector → BowVector → ℚ
  globaldescriptors : KeyFrame → List ℚ

/-- Query frame of the relocalization searches. -/
structure Frame where
  mnId : Nat
  mBowVec : BowVector
  globaldescriptors : List ℚ

/-- The inverted file: word id to bucket. -/
abbrev InvertedFile := WordId → Option (List KeyFrame)

/-- Scratch record of every keyframe. -/
abbrev KFState := KeyFrame → Scratch

/-- Contents of the bucket of a word, an absent bucket read as an empty one. -/
def bucket (inv : InvertedFile) (w : WordId) : List KeyFrame := (inv w).getD []

/-- Lookup `mvInvertedFile[w]`: the bucket of `w` is created empty when absent. -/
def touch (inv : InvertedFile) (w : WordId) : InvertedFile :=
  match inv w with
  | some _ => inv
  | none => Function.update inv w (some [])

/-- Body of the loop of `add` for one word: `find`, `insert` of an empty list when absent,
then `push_back`. -/
def addWord (pKF : KeyFrame) (inv : InvertedFile) (w : WordId) : InvertedFile :=
  let inv1 := match inv w with
    | some _ => inv
    | none => Function.update inv w (some [])
  let inv2 := touch inv1 w
  Function.update inv2 w (some (bucket inv2 w ++ [pKF]))

/-- The method `KeyFrameDatabase::add`. -/
def add (W : World) (inv : InvertedFile) (pKF : KeyFrame) : InvertedFile :=
  (W.mBowVec pKF).words.foldl (addWord pKF) inv

/-- Inner loop of `erase`: scan the list, erase the first element equal to `pKF`, stop. -/
def eraseFirst (pKF : KeyFrame) : List KeyFrame → List KeyFrame
  | [] => []
  | x :: rest => if pKF = x then rest else x :: eraseFirst pKF rest

/-- Body of the loop of `erase` for one word. -/
def eraseWord (pKF : KeyFrame) (inv : InvertedFile) (w : WordId) : InvertedFile :=
  let inv1 := touch inv w
  Function.update inv1 w (some (eraseFirst pKF (bucket inv1 w)))

/-- The method `KeyFrameDatabase::erase`. -/
def erase (W : World) (inv : InvertedFile) (pKF : KeyFrame) : InvertedFile :=
  (W.mBowVec pKF).words.foldl (eraseWord pKF) inv

/-- The method `KeyFrameDatabase::clear`. -/
def clear (_inv : InvertedFile) : InvertedFile := fun _ => none

/-- What a search leaves behind: the returned vector, the inverted file (`operator[]` may have
created empty buckets) and the scratch records. -/
structure SearchResult where
  result : List KeyFrame
  inv : InvertedFile
  kf : KFState

/-- State of a gather phase: scratch records and `lKFsSharingWords`. -/
structure Gather where
  kf : KFState
  lKFsSharingWords : List KeyFrame

/-- State of a scoring loop: scratch records and `lScoreAndMatch`. -/
structure Scored where
  kf : KFState
  lScoreAndMatch : List (ℚ × KeyFrame)

/-- Locals of the inner covisibility loop. -/
structure Group where
  bestScore : ℚ
  accScore : ℚ
  pBestKF : KeyFrame

/-- State of the accumulation loop: `lAccScoreAndMatch` and `bestAccScore`. -/
structure Accumulated where
  lAccScoreAndMatch : List (ℚ × KeyFrame)
  bestAccScore : ℚ

/-- State of the final loop: `spAlreadyAddedKF` and the returned vector. -/
structure Retained where
  spAlreadyAddedKF : List KeyFrame
  vpCandidates : List KeyFrame

/-! ### Single-precision arithmetic -/

/-- The power `2^k` for an integer exponent. -/
def pow2 (k : Int) : ℚ :=
  if 0 ≤ k then ((2 ^ k.toNat : Nat) : ℚ) else 1 / ((2 ^ (-k).toNat : Nat) : ℚ)

/-- Halving `n` until it is below 2, at most `fuel` times: the number of halvings. -/
def log2Fuel : Nat → Nat → Nat
  | 0, _ => 0
  | fuel + 1, n => if 2 ≤ n then log2Fuel fuel (n / 2) + 1 else 0

/-- Position of the leading binary digit of a natural number. -/
def natLog2 (n : Nat) : Nat := log2Fuel n n

/-- Exponent of the leading binary digit of a positive rational: the `e` with
`2^e ≤ x < 2^(e+1)`. -/
def ilog2 (x : ℚ) : Int :=
  let e0 : Int := (natLog2 x.num.natAbs : Int) - (natLog2 x.den : Int)
  if pow2 e0 ≤ x then e0 else e0 - 1

/-- Rounding of a rational to the nearest integer, ties to the even one. -/
def roundHalfEven (x : ℚ) : Int :=
  let f := ⌊x⌋
  if x - f < 1 / 2 then f
  else if 1 / 2 < x - f then f + 1
  else if f % 2 = 0 then f else f + 1

/-- Rounding of a rational to a `float` (binary32): 24 significant bits, nearest value, ties
to even, gradual underflow below `2^-126`; overflow to infinity, from `2^128` on, is not
modelled. -/
def toFloat (x : ℚ) : ℚ :=
  if x = 0 then 0
  else
    let e := ilog2 |x|
    let u := pow2 (max e (-126) - 23)
    (roundHalfEven (x / u) : ℚ) * u

/-- Conversion of a `float` to `int`: the fractional part is discarded. -/
def truncToInt (x : ℚ) : Int := if 0 ≤ x then ⌊x⌋ else ⌈x⌉

/-- The constant `0.8f`: the `float` nearest to 4/5. -/
def f08 : ℚ := 13421773 / 16777216

/-- The statement `int minCommonWords = maxCommonWords*0.8f;`: the counter is converted to
`float`, multiplied by `0.8f` in `float`, and the product is truncated to `int`. -/
def minCommonWordsOf (maxCommonWords : Int) : Int :=
  truncToInt (toFloat (toFloat (maxCommonWords : ℚ) * f08))

/-- Final loop of both score-based searches, one element of `lAccScoreAndMatch`. -/
def retainStep (minScoreToRetain : ℚ) (r : Retained) (it : ℚ × KeyFrame) : Retained :=
  if it.1 > minScoreToRetain then
    if it.2 ∉ r.spAlreadyAddedKF then
      ⟨r.spAlreadyAddedKF ++ [it.2], r.vpCandidates ++ [it.2]⟩
    else r
  else r

/-! ### `DetectLoopCandidates` -/

/-- Body of the bucket scan of `DetectLoopCandidates` for one entry `pKFi`. -/
def loopVisit (spConnectedKeyFrames : List KeyFrame) (qId : Nat) (g : Gather)
    (pKFi : KeyFrame) : Gather :=
  let g1 : Gather :=
    if (g.kf pKFi).mnLoopQuery ≠ qId then
      let kf1 := Function.update g.kf pKFi { g.kf pKFi with mnLoopWords := 0 }
      if pKFi ∉ spConnectedKeyFrames then
        ⟨Function.update kf1 pKFi { kf1 pKFi with mnLoopQuery := qId },
          g.lKFsSharingWords ++ [pKFi]⟩
      else ⟨kf1, g.lKFsSharingWords⟩
    else g
  ⟨Function.update g1.kf pKFi { g1.kf pKFi with mnLoopWords := (g1.kf pKFi).mnLoopWords + 1 },
    g1.lKFsSharingWords⟩

/-- Body of the word loop of the gather phase of `DetectLoopCandidates`. -/
def loopGatherWord (spConnectedKeyFrames : List KeyFrame) (qId : Nat)
    (st : InvertedFile × Gather) (w : WordId) : InvertedFile × Gather :=
  let inv1 := touch st.1 w
  (inv1, (bucket inv1 w).foldl (loopVisit spConnectedKeyFrames qId) st.2)

/-- Gather phase of `DetectLoopCandidates` (the locked block). -/
def loopGather (W : World) (inv : InvertedFile) (kf : KFState) (pKF : KeyFrame) :
    InvertedFile × Gather :=
  (W.mBowVec pKF).words.foldl
    (loopGatherWord (W.GetConnectedKeyFrames pKF) (W.mnId pKF)) (inv, ⟨kf, []⟩)

/-- Value of `maxCommonWords` in `DetectLoopCandidates`. -/
def loopMaxCommonWords (kf : KFState) (l : List KeyFrame) : Int :=
  l.foldl (fun m k => if (kf k).mnLoopWords > m then (kf k).mnLoopWords else m) 0

/-- Body of the scoring loop of `DetectLoopCandidates`. -/
def loopScoreStep (W : World) (pKF : KeyFrame) (minScore : ℚ) (minCommonWords : Int)
    (st : Scored) (pKFi : KeyFrame) : Scored :=
  if (st.kf pKFi).mnLoopWords > minCommonWords then
    let si := W.score (W.mBowVec pKF) (W.mBowVec pKFi)
    let kf1 := Function.update st.kf pKFi { st.kf pKFi with mLoopScore := si }
    if si ≥ minScore then ⟨kf1, st.lScoreAndMatch ++ [(si, pKFi)]⟩ else ⟨kf1, st.lScoreAndMatch⟩
  else st

/-- Scoring loop of `DetectLoopCandidates`. -/
def loopScore (W : World) (pKF : KeyFrame) (minScore : ℚ) (minCommonWords : Int)
    (kf : KFState) (l : List KeyFrame) : Scored :=
  l.foldl (loopScoreStep W pKF minScore minCommonWords) ⟨kf, []⟩

/-- Body of the neighbour loop of `DetectLoopCandidates`. -/
def loopNeighStep (kf : KFState) (qId : Nat) (minCommonWords : Int) (a : Group)
    (pKF2 : KeyFrame) : Group :=
  if (kf pKF2).mnLoopQuery = qId ∧ (kf pKF2).mnLoopWords > minCommonWords then
    let accScore := a.accScore + (kf pKF2).mLoopScore
    if (kf pKF2).mLoopScore > a.bestScore then ⟨(kf pKF2).mLoopScore, accScore, pKF2⟩
    else ⟨a.bestScore, accScore, a.pBestKF⟩
  else a

/-- Group of one element of `lScoreAndMatch`: accumulated score and best keyframe. -/
def loopGroup (W : World) (kf : KFState) (qId : Nat) (minCommonWords : Int)
    (it : ℚ × KeyFrame) : ℚ × KeyFrame :=
  let a := (W.GetBestCovisibilityKeyFrames it.2 10).foldl
    (loopNeighStep kf qId minCommonWords) ⟨it.1, it.1, it.2⟩
  (a.accScore, a.pBestKF)

/-- Body of the accumulation loop of `DetectLoopCandidates`. -/
def loopAccStep (W : World) (kf : KFState) (qId : Nat) (minCommonWords : Int)
    (st : Accumulated) (it : ℚ × KeyFrame) : Accumulated :=
  let g := loopGroup W kf qId minCommonWords it
  ⟨st.lAccScoreAndMatch ++ [g], if g.1 > st.bestAccScore then g.1 else st.bestAccScore⟩

/-- The method `KeyFrameDatabase::DetectLoopCandidates`. -/
def DetectLoopCandidates (W : World) (inv : InvertedFile) (kf : KFState) (pKF : KeyFrame)
    (minScore : ℚ) : SearchResult :=
  let g := loopGather W inv kf pKF
  if g.2.lKFsSharingWords.isEmpty then ⟨[], g.1, g.2.kf⟩
  else
    let maxCommonWords := loopMaxCommonWords g.2.kf g.2.lKFsSharingWords
    let minCommonWords := minCommonWordsOf maxCommonWords
    let sc := loopScore W pKF minScore minCommonWords g.2.kf g.2.lKFsSharingWords
    if sc.lScoreAndMatch.isEmpty then ⟨[], g.1, sc.kf⟩
    else
      let ac := sc.lScoreAndMatch.foldl (loopAccStep W sc.kf (W.mnId pKF) minCommonWords)
        ⟨[], minScore⟩
      let minScoreToRetain := (3 / 4 : ℚ) * ac.bestAccScore
      let r := ac.lAccScoreAndMatch.foldl (retainStep minScoreToRetain) ⟨[], []⟩
      ⟨r.vpCandidates, g.1, sc.kf⟩

/-! ### `DetectRelocalizationCandidates` -/

/-- Body of the bucket scan of both relocalization searches for one entry `pKFi`. -/
def relocVisit (fId : Nat) (g : Gather) (pKFi : KeyFrame) : Gather :=
  let g1 : Gather :=
    if (g.kf pKFi).mnRelocQuery ≠ fId then
      let kf1 := Function.update g.kf pKFi { g.kf pKFi with mnRelocWords := 0 }
      ⟨Function.update kf1 pKFi { kf1 pKFi with mnRelocQuery := fId },
        g.lKFsSharingWords ++ [pKFi]⟩
    else g
  ⟨Function.update g1.kf pKFi
      { g1.kf pKFi with mnRelocWords := (g1.kf pKFi).mnRelocWords + 1 },
    g1.lKFsSharingWords⟩

/-- Body of the word loop of the gather phase of both relocalization searches. -/
def relocGatherWord (fId : Nat) (st : InvertedFile × Gather) (w : WordId) :
    InvertedFile × Gather :=
  let inv1 := touch st.1 w
  (inv1, (bucket inv1 w).foldl (relocVisit fId) st.2)

/-- Gather phase of both relocalization searches. -/
def relocGather (inv : InvertedFile) (kf : KFState) (F : Frame) : InvertedFile × Gather :=
  F.mBowVec.words.foldl (relocGatherWord F.mnId) (inv, ⟨kf, []⟩)

/-- Value of `maxCommonWords` in `DetectRelocalizationCandidates`. -/
def relocMaxCommonWords (kf : KFState) (l : List KeyFrame) : Int :=
  l.foldl (fun m k => if (kf k).mnRelocWords > m then (kf k).mnRelocWords else m) 0

/-- Body of the scoring loop of `DetectRelocalizationCandidates`. -/
def relocScoreStep (W : World) (F : Frame) (minCommonWords : Int) (st : Scored)
    (pKFi : KeyFrame) : Scored :=
  if (st.kf pKFi).mnRelocWords > minCommonWords then
    let si := W.score F.mBowVec (W.mBowVec pKFi)
    ⟨Function.update st.kf pKFi { st.kf pKFi with mRelocScore := si },
      st.lScoreAndMatch ++ [(si, pKFi)]⟩
  else st

/-- Scoring loop of `DetectRelocalizationCandidates`. -/
def relocScore (W : World) (F : Frame) (minCommonWords : Int) (kf : KFState)
    (l : List KeyFrame) : Scored :=
  l.foldl (relocScoreStep W F minCommonWords) ⟨kf, []⟩

/-- Body of the neighbour loop of `DetectRelocalizationCandidates`. -/
def relocNeighStep (kf : KFState) (fId : Nat) (a : Group) (pKF2 : KeyFrame) : Group :=
  if (kf pKF2).mnRelocQuery ≠ fId then a
  else
    let accScore := toFloat (a.accScore + (kf pKF2).mRelocScore)
    if (kf pKF2).mRelocScore > a.bestScore then ⟨(kf pKF2).mRelocScore, accScore, pKF2⟩
    else ⟨a.bestScore, accScore, a.pBestKF⟩

/-- Group of one element of `lScoreAndMatch`: accumulated score and best keyframe. -/
def relocGroup (W : World) (kf : KFState) (fId : Nat) (it : ℚ × KeyFrame) : ℚ × KeyFrame :=
  let a := (W.GetBestCovisibilityKeyFrames it.2 10).foldl (relocNeighStep kf fId)
    ⟨it.1, it.1, it.2⟩
  (a.accScore, a.pBestKF)

/-- Body of the accumulation loop of `DetectRelocalizationCandidates`. -/
def relocAccStep (W : World) (kf : KFState) (fId : Nat) (st : Accumulated)
    (it : ℚ × KeyFrame) : Accumulated :=
  let g := relocGroup W kf fId it
  ⟨st.lAccScoreAndMatch ++ [g], if g.1 > st.bestAccScore then g.1 else st.bestAccScore⟩

/-- The method `KeyFrameDatabase::DetectRelocalizationCandidates`. -/
def DetectRelocalizationCandidates (W : World) (inv : InvertedFile) (kf : KFState)
    (F : Frame) : SearchResult :=
  let g := relocGather inv kf F
  if g.2.lKFsSharingWords.isEmpty then ⟨[], g.1, g.2.kf⟩
  else
    let maxCommonWords := relocMaxCommonWords g.2.kf g.2.lKFsSharingWords
    let minCommonWords := minCommonWordsOf maxCommonWords
    let sc := relocScore W F minCommonWords g.2.kf g.2.lKFsSharingWords
    if sc.lScoreAndMatch.isEmpty then ⟨[], g.1, sc.kf⟩
    else
      let ac := sc.lScoreAndMatch.foldl (relocAccStep W sc.kf F.mnId) ⟨[], 0⟩
      let minScoreToRetain := toFloat ((3 / 4 : ℚ) * ac.bestAccScore)
      let r := ac.lAccScoreAndMatch.foldl (retainStep minScoreToRetain) ⟨[], []⟩
      ⟨r.vpCandidates, g.1, sc.kf⟩

/-! ### `DetectRelocalizationByglb` -/

/-- Value of `aaa.dot(aaa)` for `aaa = a - b`: the squared Euclidean distance of two
descriptors. -/
def sqDist (a b : List ℚ) : ℚ :=
  ((List.zipWith (fun x y => x - y) a b).map (fun d => d * d)).sum

/-- The loop storing `glbDistance` on every gathered keyframe. -/
def glbStore (W : World) (F : Frame) (kf : KFState) (l : List KeyFrame) : KFState :=
  l.foldl (fun st k => Function.update st k
    { st k with glbDistance := sqDist F.globaldescriptors (W.globaldescriptors k) }) kf

/-- The comparator `cmpByglb`. -/
def cmpByglb (kf : KFState) (a b : KeyFrame) : Bool :=
  if (kf a).glbDistance < (kf b).glbDistance then true else false

/-- Insertion of one element into a list ordered by `cmp`, after the elements that compare
less than it. -/
def sortInsert (cmp : KeyFrame → KeyFrame → Bool) (x : KeyFrame) : List KeyFrame → List KeyFrame
  | [] => [x]
  | y :: ys => if cmp y x then y :: sortInsert cmp x ys else x :: y :: ys

/-- The call of `std::sort` with a comparator, as an insertion sort that keeps elements
comparing equivalent in their order.  The C++ library leaves that order unspecified; no
theorem below depends on it. -/
def sort (cmp : KeyFrame → KeyFrame → Bool) : List KeyFrame → List KeyFrame
  | [] => []
  | x :: xs => sortInsert cmp x (sort cmp xs)

/-- The method `KeyFrameDatabase::DetectRelocalizationByglb`. -/
def DetectRelocalizationByglb (W : World) (inv : InvertedFile) (kf : KFState) (F : Frame) :
    SearchResult :=
  let g := relocGather inv kf F
  if g.2.lKFsSharingWords.isEmpty then ⟨[], g.1, g.2.kf⟩
  else
    let kf1 := glbStore W F g.2.kf g.2.lKFsSharingWords
    let glbKeyFrame := sort (cmpByglb kf1) g.2.lKFsSharingWords
    let KKK := 4
    if glbKeyFrame.length < KKK then ⟨glbKeyFrame, g.1, kf1⟩
    else ⟨glbKeyFrame.take KKK, g.1, kf1⟩

/-! ### Use of the mutex by `add`, `erase` and `clear` -/

/-- What a member function does with `mMutex` and `mvInvertedFile`, in program order. -/
inductive Event where
  | lock
  | unlock
  | access
deriving DecidableEq

/-- Events of `add`: the `unique_lock` is constructed first, the buckets of the words of the
vector are accessed one word after the other (`find`, `insert`, `operator[]`), and the lock
is released when the function returns. -/
def addEvents (W : World) (pKF : KeyFrame) : List Event :=
  [Event.lock] ++ (W.mBowVec pKF).words.map (fun _ => Event.access) ++ [Event.unlock]

/-- Events of `erase`: the `unique_lock` is constructed first, the buckets of the words of
the vector are accessed one word after the other, and the lock is released when the function
returns. -/
def eraseEvents (W : World) (pKF : KeyFrame) : List Event :=
  [Event.lock] ++ (W.mBowVec pKF).words.map (fun _ => Event.access) ++ [Event.unlock]

/-- Events of `clear`: the body is the single statement `mvInvertedFile.clear();`. -/
def clearEvents : List Event := [Event.access]

/-- The mutex is acquired before the first access and held until the function returns: the
events are a `lock`, then accesses only, then the `unlock` of the return. -/
def lockedThroughout : List Event → Bool
  | Event.lock :: rest =>
    decide (rest.getLast? = some Event.unlock) && rest.dropLast.all (fun e => e = Event.access)
  | _ => false

/-! ## Scan order and locals of the searches, as functions of the input -/

/-- The bucket entries scanned by a gather phase over the words `ws`, in scan order. -/
def visited (inv : InvertedFile) (ws : List WordId) : List KeyFrame :=
  (ws.map (bucket inv)).flatten

/-- The list `lKFsSharingWords` and the scratch records at the end of the gather phase of
`DetectLoopCandidates`. -/
def loopGathered (W : World) (inv : InvertedFile) (kf : KFState) (pKF : KeyFrame) : Gather :=
  (loopGather W inv kf pKF).2

/-- Value of `minCommonWords` in `DetectLoopCandidates`. -/
def loopMinCommonWords (W : World) (inv : InvertedFile) (kf : KFState) (pKF : KeyFrame) : Int :=
  minCommonWordsOf (loopMaxCommonWords (loopGathered W inv kf pKF).kf
    (loopGathered W inv kf pKF).lKFsSharingWords)

/-- The list `lScoreAndMatch` and the scratch records at the end of the scoring loop of
`DetectLoopCandidates`. -/
def loopScored (W : World) (inv : InvertedFile) (kf : KFState) (pKF : KeyFrame)
    (minScore : ℚ) : Scored :=
  loopScore W pKF minScore (loopMinCommonWords W inv kf pKF) (loopGathered W inv kf pKF).kf
    (loopGathered W inv kf pKF).lKFsSharingWords

/-- The list `lAccScoreAndMatch` and `bestAccScore` at the end of the accumulation loop of
`DetectLoopCandidates`. -/
def loopAccumulated (W : World) (inv : InvertedFile) (kf : KFState) (pKF : KeyFrame)
    (minScore : ℚ) : Accumulated :=
  (loopScored W inv kf pKF minScore).lScoreAndMatch.foldl
    (loopAccStep W (loopScored W inv kf pKF minScore).kf (W.mnId pKF)
      (loopMinCommonWords W inv kf pKF)) ⟨[], minScore⟩

/-- The list `lKFsSharingWords` and the scratch records at the end of the gather phase of the
relocalization searches. -/
def relocGathered (inv : InvertedFile) (kf : KFState) (F : Frame) : Gather :=
  (relocGather inv kf F).2

/-- Value of `minCommonWords` in `DetectRelocalizationCandidates`. -/
def relocMinCommonWords (inv : InvertedFile) (kf : KFState) (F : Frame) : Int :=
  minCommonWordsOf (relocMaxCommonWords (relocGathered inv kf F).kf
    (relocGathered inv kf F).lKFsSharingWords)

/-- The list `lScoreAndMatch` and the scratch records at the end of the scoring loop of
`DetectRelocalizationCandidates`. -/
def relocScored (W : World) (inv : InvertedFile) (kf : KFState) (F : Frame) : Scored :=
  relocScore W F (relocMinCommonWords inv kf F) (relocGathered inv kf F).kf
    (relocGathered inv kf F).lKFsSharingWords

/-- The list `lAccScoreAndMatch` and `bestAccScore` at the end of the accumulation loop of
`DetectRelocalizationCandidates`. -/
def relocAccumulated (W : World) (inv : InvertedFile) (kf : KFState) (F : Frame) :
    Accumulated :=
  (relocScored W inv kf F).lScoreAndMatch.foldl
    (relocAccStep W (relocScored W inv kf F).kf F.mnId) ⟨[], 0⟩

/-! ## Concrete inputs used by the examples -/

/-- A scoring function for the examples: the dot product over the shared words. -/
def dotScore (a b : BowVector) : ℚ :=
  (a.entries.map
    (fun p => p.2 * ((b.entries.filter (fun q => q.1 = p.1)).map Prod.snd).sum)).sum

/-- Scratch record of a keyframe as constructed (all tags and counters zero). -/
def freshScratch : Scratch := ⟨0, 0, 0, 0, 0, 0, 0⟩

/-- Scratch state in which every keyframe is as constructed. -/
def freshKf : KFState := fun _ => freshScratch

/-- A bag-of-words vector with a single word. -/
def bow1 (w : WordId) (x : ℚ) : BowVector := ⟨[(w, x)], by simp⟩

/-- A bag-of-words vector with the words 7 and 9. -/
def bow79 : BowVector := ⟨[(7, 1), (9, 1)], by simp⟩

/-- World in which every keyframe has the words 7 and 9. -/
def idxW : World where
  mnId := fun k => k
  mBowVec := fun _ => bow79
  GetConnectedKeyFrames := fun _ => []
  GetBestCovisibilityKeyFrames := fun _ _ => []
  score := dotScore
  globaldescriptors := fun _ => []

/-- An index with keyframes 2 and 1 under word 7 and no other bucket. -/
def idxInv : InvertedFile := fun w => if w = 7 then some [2, 1] else none

/-- World of the stale-tag example: the query keyframe 5 has word 7 with weight 1; keyframe 1
(weight 1/2) has keyframe 2 (weight 3/4) as its covisible neighbour; keyframe 2 is connected
to the query. -/
def staleW : World where
  mnId := fun k => k
  mBowVec := fun k => if k = 5 then bow1 7 1 else if k = 1 then bow1 7 (1 / 2) else bow1 7 (3 / 4)
  GetConnectedKeyFrames := fun k => if k = 5 then [2] else []
  GetBestCovisibilityKeyFrames := fun k _ => if k = 1 then [2] else []
  score := dotScore
  globaldescriptors := fun _ => []

/-- The world of `staleW` at an earlier time, when keyframe 2 was not yet connected to the
query. -/
def staleW0 : World where
  mnId := fun k => k
  mBowVec := fun k => if k = 5 then bow1 7 1 else if k = 1 then bow1 7 (1 / 2) else bow1 7 (3 / 4)
  GetConnectedKeyFrames := fun _ => []
  GetBestCovisibilityKeyFrames := fun k _ => if k = 1 then [2] else []
  score := dotScore
  globaldescriptors := fun _ => []

/-- The index at that earlier time: keyframe 2 alone under word 7. -/
def staleInv0 : InvertedFile := fun w => if w = 7 then some [2] else none

/-- Scratch records in which keyframe 2 still carries the tag of query 5, one shared word and
the score 3/4. -/
def staleKf : KFState := fun k => if k = 2 then ⟨5, 1, 3 / 4, 0, 0, 0, 0⟩ else freshScratch

/-- World of the threshold example: the query keyframe 5 has word 7 with weight 1; keyframes
1 and 3 (weight 1/2 each) are covisible neighbours of each other; keyframe 2 (weight 5/8) has
no neighbour; no keyframe is connected to the query. -/
def thrW : World where
  mnId := fun k => k
  mBowVec := fun k => if k = 5 then bow1 7 1 else if k = 2 then bow1 7 (5 / 8) else bow1 7 (1 / 2)
  GetConnectedKeyFrames := fun _ => []
  GetBestCovisibilityKeyFrames := fun k _ => if k = 1 then [3] else if k = 3 then [1] else []
  score := dotScore
  globaldescriptors := fun _ => []

/-- Index of the threshold example: keyframes 1, 2 and 3 under word 7. -/
def thrInv : InvertedFile := fun w => if w = 7 then some [1, 2, 3] else none

/-- World of the shared-representative example: keyframes 1, 2 and 4 have word 7 with
weights 1, 4 and 2; keyframe 2 is the covisible neighbour of 1 and of 4, and has both as
neighbours. -/
def shareW : World where
  mnId := fun k => k
  mBowVec := fun k => if k = 1 then bow1 7 1 else if k = 2 then bow1 7 4 else bow1 7 2
  GetConnectedKeyFrames := fun _ => []
  GetBestCovisibilityKeyFrames := fun k _ =>
    if k = 1 then [2] else if k = 2 then [1, 4] else if k = 4 then [2] else []
  score := dotScore
  globaldescriptors := fun _ => []

/-- Index of the shared-representative example: keyframes 1, 2 and 4 under word 7. -/
def shareInv : InvertedFile := fun w => if w = 7 then some [1, 2, 4] else none

/-- An index with keyframe 1 alone under word 7. -/
def soleInv : InvertedFile := fun w => if w = 7 then some [1] else none

/-- Query frame with id 50 and the word 7. -/
def shareF : Frame := ⟨50, bow1 7 1, []⟩

/-- World of the rounding example: keyframe 1 has word 7 with weight `1 + 2^-23`, every
other keyframe has word 7 with weight `3/4 + 2^-23`, both `float` values; no covisibility. -/
def roundW : World where
  mnId := fun k => k
  mBowVec := fun k => if k = 1 then bow1 7 (8388609 / 8388608) else bow1 7 (6291457 / 8388608)
  GetConnectedKeyFrames := fun _ => []
  GetBestCovisibilityKeyFrames := fun _ _ => []
  score := dotScore
  globaldescriptors := fun _ => []

/-- Index of the rounding example: keyframes 1 and 2 under word 7. -/
def roundInv : InvertedFile := fun w => if w = 7 then some [1, 2] else none

/-- World of the underflow example: every keyframe has word 7 with the weight `2^-149`, the
smallest positive `float`; no covisibility. -/
def tinyW : World where
  mnId := fun k => k
  mBowVec := fun _ => bow1 7 (1 / 2 ^ 149)
  GetConnectedKeyFrames := fun _ => []
  GetBestCovisibilityKeyFrames := fun _ _ => []
  score := dotScore
  globaldescriptors := fun _ => []

/-- The index as constructed: no bucket. -/
def emptyInv : InvertedFile := fun _ => none

/-- A bag-of-words vector with the words 3 to 7. -/
def bow3to7 : BowVector := ⟨[(3, 1), (4, 1), (5, 1), (6, 1), (7, 1)], by simp⟩

/-- A bag-of-words vector with the words 4 to 7. -/
def bow4to7 : BowVector := ⟨[(4, 1), (5, 1), (6, 1), (7, 1)], by simp⟩

/-- World of Scenario A: keyframe 10 (A) has the words 3 to 7, keyframe 11 (B) the words 4 to
7, keyframe 12 (C) the word 7; the query keyframe 20 has the words 3 to 7. -/
def scenW : World where
  mnId := fun k => k
  mBowVec := fun k => if k = 11 then bow4to7 else if k = 12 then bow1 7 1 else bow3to7
  GetConnectedKeyFrames := fun _ => []
  GetBestCovisibilityKeyFrames := fun _ _ => []
  score := dotScore
  globaldescriptors := fun _ => []

/-- Index of Scenario A: keyframes 10, 11 and 12 added to an empty index. -/
def scenInv : InvertedFile := add scenW (add scenW (add scenW emptyInv 10) 11) 12

/-- Query frame of Scenario A: id 50, the words 3 to 7. -/
def scenF : Frame := ⟨50, bow3to7, []⟩

/-- Deduplication by identity that keeps the first occurrence of every keyframe, as the
output of the score-based searches is described. -/
def keepFirst : List KeyFrame → List KeyFrame
  | [] => []
  | x :: xs => x :: (keepFirst xs).filter (fun y => y ≠ x)

/-- The best keyframes of the groups whose accumulated score is above `thr`, one entry per
group, in the order of `lAccScoreAndMatch`. -/
def emitted (thr : ℚ) (l : List (ℚ × KeyFrame)) : List KeyFrame :=
  (l.filter (fun it => it.1 > thr)).map Prod.snd

/-- Scratch records left by earlier queries: every keyframe carries the tag 3, the counter 17
and the score 9 in both contexts. -/
def usedKf : KFState := fun _ => ⟨3, 17, 9, 3, 17, 9, 9⟩

/-- World of the unscored-neighbour example: Scenario A in which keyframe 12 (C) is the
covisible neighbour of keyframe 10 (A). -/
def neighW : World where
  mnId := fun k => k
  mBowVec := fun k => if k = 11 then bow4to7 else if k = 12 then bow1 7 1 else bow3to7
  GetConnectedKeyFrames := fun _ => []
  GetBestCovisibilityKeyFrames := fun k _ => if k = 10 then [12] else []
  score := dotScore
  globaldescriptors := fun _ => []

/-- An earlier query frame: id 49, the word 7 with weight 100. -/
def earlierF : Frame := ⟨49, bow1 7 100, []⟩

/-- Scratch records after the relocalization query of `earlierF`: keyframes 10, 11 and 12
carry the tag 49, one shared word and the score 100. -/
def afterEarlierKf : KFState :=
  fun k => if k = 10 ∨ k = 11 ∨ k = 12 then ⟨0, 0, 0, 49, 1, 100, 0⟩ else freshScratch

/-- A bag-of-words vector with the words `0` to `n - 1`, each with weight 1. -/
def bowRange (n : Nat) : BowVector :=
  ⟨(List.range n).map (fun w => (w, 1)), by
    rw [List.map_map]
    exact (List.pairwise_lt_range n).map _ (fun _ _ h => h)⟩

/-- World of the large-vocabulary example: keyframe 2 has the words below 4194305, every
other keyframe, the query keyframe 5 among them, the words below 5242881; every score is 1;
no covisibility. -/
def bigW : World where
  mnId := fun k => k
  mBowVec := fun k => if k = 2 then bowRange 4194305 else bowRange 5242881
  GetConnectedKeyFrames := fun _ => []
  GetBestCovisibilityKeyFrames := fun _ _ => []
  score := fun _ _ => 1
  globaldescriptors := fun _ => []

/-- Index of the large-vocabulary example: keyframes 1 and 2 under each of their words. -/
def bigInv : InvertedFile :=
  fun w => if w < 4194305 then some [1, 2] else if w < 5242881 then some [1] else none

/-! ## Lemmas and theorems -/

/-! ## Rounding to binary32 -/

theorem pow2_eq (k : Int) : pow2 k = (2 : ℚ) ^ k := by
  unfold pow2
  by_cases h : 0 ≤ k
  · rw [if_pos h]
    obtain ⟨n, rfl⟩ := Int.eq_ofNat_of_zero_le h
    simp
  · rw [if_neg h]
    obtain ⟨n, hn⟩ := Int.exists_eq_neg_ofNat (le_of_lt (not_le.1 h))
    subst hn
    simp

theorem pow2_pos (k : Int) : 0 < pow2 k := by
  rw [pow2_eq]
  positivity

theorem log2Fuel_spec (fuel n : Nat) (hf : n ≤ fuel) (hn : 1 ≤ n) :
    2 ^ log2Fuel fuel n ≤ n ∧ n < 2 ^ (log2Fuel fuel n + 1) := by
  induction fuel generalizing n with
  | zero => omega
  | succ fuel ih =>
    unfold log2Fuel
    by_cases h2 : 2 ≤ n
    · rw [if_pos h2]
      have h := ih (n / 2) (by omega) (by omega)
      rw [pow_succ, pow_succ]
      rw [pow_succ] at h
      constructor <;> omega
    · rw [if_neg h2]
      have : n = 1 := by omega
      subst this
      simp

theorem natLog2_spec (n : Nat) (hn : 1 ≤ n) :
    2 ^ natLog2 n ≤ n ∧ n < 2 ^ (natLog2 n + 1) :=
  log2Fuel_spec n n (le_refl n) hn

/-- The exponent found by `ilog2` brackets a positive rational between two powers of 2. -/
theorem ilog2_spec {x : ℚ} (hx : 0 < x) :
    (2 : ℚ) ^ ilog2 x ≤ x ∧ x < (2 : ℚ) ^ (ilog2 x + 1) := by
  have hnum : 0 < x.num := Rat.num_pos.2 hx
  obtain ⟨n, hn⟩ := Int.eq_ofNat_of_zero_le (le_of_lt hnum)
  have hn1 : 1 ≤ n := by
    have : (0 : Int) < n := by rw [← hn]; exact hnum
    omega
  have hd1 : 1 ≤ x.den := x.den_pos
  obtain ⟨ha1, ha2⟩ := natLog2_spec n hn1
  obtain ⟨hb1, hb2⟩ := natLog2_spec x.den hd1
  have hxe : x = (n : ℚ) / (x.den : ℚ) := by
    have := Rat.num_div_den x
    rw [hn, Int.cast_natCast] at this
    exact this.symm
  have hdpos : (0 : ℚ) < x.den := by exact_mod_cast hd1
  have ha1' : (2 : ℚ) ^ (natLog2 n) ≤ n := by exact_mod_cast ha1
  have ha2' : (n : ℚ) < (2 : ℚ) ^ (natLog2 n + 1) := by exact_mod_cast ha2
  have hb1' : (2 : ℚ) ^ (natLog2 x.den) ≤ x.den := by exact_mod_cast hb1
  have hb2' : (x.den : ℚ) < (2 : ℚ) ^ (natLog2 x.den + 1) := by exact_mod_cast hb2
  have hnat : x.num.natAbs = n := by rw [hn]; rfl
  -- bounds with the first guess `e0`
  have hlow : (2 : ℚ) ^ ((natLog2 n : Int) - (natLog2 x.den : Int) - 1) ≤ x := by
    refine le_of_le_of_eq ?_ hxe.symm
    rw [le_div_iff₀ hdpos]
    have e : (2 : ℚ) ^ ((natLog2 n : Int) - (natLog2 x.den : Int) - 1)
        = (2 : ℚ) ^ (natLog2 n) / (2 : ℚ) ^ (natLog2 x.den + 1) := by
      rw [show ((natLog2 n : Int) - (natLog2 x.den : Int) - 1)
        = (natLog2 n : Int) - ((natLog2 x.den + 1 : Nat) : Int) by push_cast; ring]
      rw [zpow_sub₀ (by norm_num), zpow_natCast, zpow_natCast]
    rw [e, div_mul_eq_mul_div, div_le_iff₀ (by positivity)]
    calc (2 : ℚ) ^ natLog2 n * x.den ≤ n * x.den :=
          mul_le_mul_of_nonneg_right ha1' (le_of_lt hdpos)
      _ ≤ n * (2 : ℚ) ^ (natLog2 x.den + 1) :=
          mul_le_mul_of_nonneg_left (le_of_lt hb2') (by positivity)
  have hhigh : x < (2 : ℚ) ^ ((natLog2 n : Int) - (natLog2 x.den : Int) + 1) := by
    refine lt_of_eq_of_lt hxe ?_
    rw [div_lt_iff₀ hdpos]
    have e : (2 : ℚ) ^ ((natLog2 n : Int) - (natLog2 x.den : Int) + 1)
        = (2 : ℚ) ^ (natLog2 n + 1) / (2 : ℚ) ^ (natLog2 x.den) := by
      rw [show ((natLog2 n : Int) - (natLog2 x.den : Int) + 1)
        = ((natLog2 n + 1 : Nat) : Int) - (natLog2 x.den : Int) by push_cast; ring]
      rw [zpow_sub₀ (by norm_num), zpow_natCast, zpow_natCast]
    rw [e, div_mul_eq_mul_div, lt_div_iff₀ (by positivity)]
    calc (n : ℚ) * (2 : ℚ) ^ natLog2 x.den ≤ n * x.den :=
          mul_le_mul_of_nonneg_left hb1' (by positivity)
      _ < (2 : ℚ) ^ (natLog2 n + 1) * x.den :=
          mul_lt_mul_of_pos_right ha2' hdpos
  unfold ilog2
  simp only [hnat]
  by_cases hc : pow2 ((natLog2 n : Int) - (natLog2 x.den : Int)) ≤ x
  · rw [if_pos hc]
    rw [pow2_eq] at hc
    exact ⟨hc, hhigh⟩
  · rw [if_neg hc]
    rw [pow2_eq] at hc
    refine ⟨hlow, ?_⟩
    rw [sub_add_cancel]
    exact not_le.1 hc

theorem roundHalfEven_abs_sub_le (x : ℚ) : |(roundHalfEven x : ℚ) - x| ≤ 1 / 2 := by
  have h1 : (⌊x⌋ : ℚ) ≤ x := Int.floor_le x
  have h2 : x < ⌊x⌋ + 1 := Int.lt_floor_add_one x
  unfold roundHalfEven
  simp only
  split_ifs with ha hb hc
  · rw [abs_le]; constructor <;> linarith
  · rw [abs_le]; push_cast; constructor <;> linarith
  · rw [abs_le]; constructor <;> linarith
  · rw [abs_le]; push_cast; constructor <;> linarith

theorem le_roundHalfEven {x : ℚ} {n : Int} (h : (n : ℚ) ≤ x) : n ≤ roundHalfEven x := by
  have hf : n ≤ ⌊x⌋ := Int.le_floor.2 h
  unfold roundHalfEven
  simp only
  split_ifs <;> omega

theorem roundHalfEven_intCast (n : Int) : roundHalfEven (n : ℚ) = n := by
  unfold roundHalfEven
  simp

/-- The unit in the last place that `toFloat` uses for a value. -/
theorem toFloat_of_pos {x : ℚ} (hx : 0 < x) :
    toFloat x = (roundHalfEven (x / (2 : ℚ) ^ (max (ilog2 x) (-126) - 23)) : ℚ)
      * (2 : ℚ) ^ (max (ilog2 x) (-126) - 23) := by
  unfold toFloat
  rw [if_neg (ne_of_gt hx)]
  simp only [abs_of_pos hx, pow2_eq]

theorem toFloat_zero : toFloat 0 = 0 := by
  unfold toFloat
  simp

/-- Rounding moves a positive value by at most half a unit in the last place. -/
theorem toFloat_abs_sub_le {x : ℚ} (hx : 0 < x) :
    |toFloat x - x| ≤ (2 : ℚ) ^ (max (ilog2 x) (-126) - 23) / 2 := by
  rw [toFloat_of_pos hx]
  set u : ℚ := (2 : ℚ) ^ (max (ilog2 x) (-126) - 23) with hu
  have hup : 0 < u := by rw [hu]; positivity
  have h := roundHalfEven_abs_sub_le (x / u)
  have e : (roundHalfEven (x / u) : ℚ) * u - x = ((roundHalfEven (x / u) : ℚ) - x / u) * u := by
    field_simp
  rw [e, abs_mul, abs_of_pos hup]
  calc |(roundHalfEven (x / u) : ℚ) - x / u| * u ≤ 1 / 2 * u :=
        mul_le_mul_of_nonneg_right h (le_of_lt hup)
    _ = u / 2 := by ring

/-- A multiple of the unit in the last place that lies below a value lies below its
rounding. -/
theorem le_toFloat_of_grid {x : ℚ} (hx : 0 < x) {k : Int}
    (h : (k : ℚ) * (2 : ℚ) ^ (max (ilog2 x) (-126) - 23) ≤ x) :
    (k : ℚ) * (2 : ℚ) ^ (max (ilog2 x) (-126) - 23) ≤ toFloat x := by
  rw [toFloat_of_pos hx]
  set u : ℚ := (2 : ℚ) ^ (max (ilog2 x) (-126) - 23) with hu
  have hup : 0 < u := by rw [hu]; positivity
  have hk : (k : ℚ) ≤ x / u := by rw [le_div_iff₀ hup]; exact h
  have := le_roundHalfEven hk
  have hc : (k : ℚ) ≤ (roundHalfEven (x / u) : ℚ) := by exact_mod_cast this
  exact mul_le_mul_of_nonneg_right hc (le_of_lt hup)

theorem ilog2_lt_of_lt {x : ℚ} (hx : 0 < x) {k : Int} (h : x < (2 : ℚ) ^ k) : ilog2 x < k := by
  by_contra hc
  have hc : k ≤ ilog2 x := not_lt.1 hc
  have h1 := (ilog2_spec hx).1
  have : (2 : ℚ) ^ k ≤ (2 : ℚ) ^ ilog2 x := zpow_le_zpow_right₀ (by norm_num) hc
  linarith

theorem le_ilog2_of_le {x : ℚ} (hx : 0 < x) {k : Int} (h : (2 : ℚ) ^ k ≤ x) : k ≤ ilog2 x := by
  by_contra hc
  have hc : ilog2 x + 1 ≤ k := by omega
  have h1 := (ilog2_spec hx).2
  have : (2 : ℚ) ^ (ilog2 x + 1) ≤ (2 : ℚ) ^ k := zpow_le_zpow_right₀ (by norm_num) hc
  linarith

/-- Integers below a value under `2^24` stay below its rounding. -/
theorem intCast_le_toFloat {x : ℚ} (hx : 0 < x) (h24 : x < 2 ^ 24) {q : Int}
    (h : (q : ℚ) ≤ x) : (q : ℚ) ≤ toFloat x := by
  have he : ilog2 x < 24 := ilog2_lt_of_lt hx (by exact_mod_cast h24)
  obtain ⟨j, hj⟩ : ∃ j : Nat, max (ilog2 x) (-126) - 23 = -(j : Int) := by
    refine ⟨(23 - max (ilog2 x) (-126)).toNat, ?_⟩
    rw [Int.toNat_of_nonneg] <;> omega
  have hq : (q : ℚ) = ((q * 2 ^ j : Int) : ℚ) * (2 : ℚ) ^ (max (ilog2 x) (-126) - 23) := by
    rw [hj, zpow_neg, zpow_natCast]
    push_cast
    field_simp
  have := le_toFloat_of_grid hx (k := q * 2 ^ j) (by rw [← hq]; exact h)
  rw [← hq] at this
  exact this

/-- Integers of magnitude below `2^24` are binary32 values. -/
theorem toFloat_natCast {m : Nat} (h : m < 2 ^ 24) : toFloat (m : ℚ) = m := by
  rcases Nat.eq_zero_or_pos m with h0 | hpos
  · subst h0; simp [toFloat_zero]
  have hx : (0 : ℚ) < m := by exact_mod_cast hpos
  have he : ilog2 (m : ℚ) < 24 := ilog2_lt_of_lt hx (by exact_mod_cast h)
  have he0 : 0 ≤ ilog2 (m : ℚ) := le_ilog2_of_le hx (by simpa using hpos)
  obtain ⟨j, hj⟩ : ∃ j : Nat, max (ilog2 (m : ℚ)) (-126) - 23 = -(j : Int) := by
    refine ⟨(23 - max (ilog2 (m : ℚ)) (-126)).toNat, ?_⟩
    rw [Int.toNat_of_nonneg] <;> omega
  rw [toFloat_of_pos hx, hj, zpow_neg, zpow_natCast]
  have e : (m : ℚ) / ((2 : ℚ) ^ j)⁻¹ = (((m * 2 ^ j : Nat) : Int) : ℚ) := by
    push_cast
    field_simp
  rw [e, roundHalfEven_intCast]
  push_cast
  field_simp

/-- Rounding of a normal value: the relative error is at most `2^-24`. -/
theorem toFloat_abs_sub_le_rel {x : ℚ} (hx : (2 : ℚ) ^ (-126 : Int) ≤ x) :
    |toFloat x - x| ≤ x / 2 ^ 24 := by
  have hpos : 0 < x := lt_of_lt_of_le (by positivity) hx
  have he : -126 ≤ ilog2 x := le_ilog2_of_le hpos hx
  have h := toFloat_abs_sub_le hpos
  rw [max_eq_left he] at h
  have h1 := (ilog2_spec hpos).1
  have e : (2 : ℚ) ^ (ilog2 x - 23) / 2 = (2 : ℚ) ^ (ilog2 x) / 2 ^ 24 := by
    rw [zpow_sub₀ (by norm_num)]
    norm_num
    ring
  rw [e] at h
  refine le_trans h ?_
  exact div_le_div_of_nonneg_right h1 (by positivity)

/-- Normal values round to normal values. -/
theorem toFloat_normal {x : ℚ} (hx : (2 : ℚ) ^ (-126 : Int) ≤ x) :
    (2 : ℚ) ^ (-126 : Int) ≤ toFloat x := by
  have hpos : 0 < x := lt_of_lt_of_le (by positivity) hx
  have he : -126 ≤ ilog2 x := le_ilog2_of_le hpos hx
  have hk : (((2 : Int) ^ 23 : Int) : ℚ) * (2 : ℚ) ^ (max (ilog2 x) (-126) - 23)
      = (2 : ℚ) ^ (ilog2 x) := by
    rw [max_eq_left he, zpow_sub₀ (by norm_num)]
    norm_num
    field_simp
  have h1 := (ilog2_spec hpos).1
  have := le_toFloat_of_grid hpos (k := (2 : Int) ^ 23) (by rw [hk]; exact h1)
  rw [hk] at this
  refine le_trans ?_ this
  exact zpow_le_zpow_right₀ (by norm_num) he

/-- Rounding of a value of at least `2^-127` stays strictly below four thirds of it. -/
theorem toFloat_lt_four_thirds {x : ℚ} (hx : (2 : ℚ) ^ (-127 : Int) ≤ x) :
    toFloat x < 4 / 3 * x := by
  have hpos : 0 < x := lt_of_lt_of_le (by positivity) hx
  have he : -127 ≤ ilog2 x := le_ilog2_of_le hpos hx
  have h := toFloat_abs_sub_le hpos
  have h1 := (ilog2_spec hpos).1
  rw [abs_le] at h
  by_cases hc : -126 ≤ ilog2 x
  · rw [max_eq_left hc] at h
    have e : (2 : ℚ) ^ (ilog2 x - 23) / 2 = (2 : ℚ) ^ (ilog2 x) / 2 ^ 24 := by
      rw [zpow_sub₀ (by norm_num)]
      norm_num
      ring
    rw [e] at h
    have : (2 : ℚ) ^ (ilog2 x) / 2 ^ 24 ≤ x / 2 ^ 24 :=
      div_le_div_of_nonneg_right h1 (by positivity)
    have h3 : x / 2 ^ 24 < 1 / 3 * x := by
      rw [div_eq_mul_inv, mul_comm]
      exact mul_lt_mul_of_pos_right (by norm_num) hpos
    linarith [h.2]
  · rw [max_eq_right (by omega)] at h
    have e : (2 : ℚ) ^ ((-126 : Int) - 23) / 2 = (2 : ℚ) ^ (-127 : Int) / 2 ^ 23 := by
      rw [zpow_sub₀ (by norm_num)]
      norm_num
    rw [e] at h
    have : (2 : ℚ) ^ (-127 : Int) / 2 ^ 23 ≤ x / 2 ^ 23 :=
      div_le_div_of_nonneg_right hx (by positivity)
    have h3 : x / 2 ^ 23 < 1 / 3 * x := by
      rw [div_eq_mul_inv, mul_comm]
      exact mul_lt_mul_of_pos_right (by norm_num) hpos
    linarith [h.2]

/-- A normal value is strictly above the rounding of three quarters of it. -/
theorem toFloat_three_quarters_lt {a : ℚ} (h : (2 : ℚ) ^ (-126 : Int) ≤ a) :
    toFloat (3 / 4 * a) < a := by
  have e : (2 : ℚ) ^ (-127 : Int) = (2 : ℚ) ^ (-126 : Int) / 2 := by
    rw [show (-127 : Int) = -126 - 1 by norm_num, zpow_sub₀ (by norm_num), zpow_one]
  have hp : (0 : ℚ) < (2 : ℚ) ^ (-126 : Int) := by positivity
  have h1 : (2 : ℚ) ^ (-127 : Int) ≤ 3 / 4 * a := by
    rw [e]
    generalize (2 : ℚ) ^ (-126 : Int) = p at h hp
    linarith
  have h2 := toFloat_lt_four_thirds h1
  linarith

theorem two_zpow_neg126 : (2 : ℚ) ^ (-126 : Int) = 1 / 2 ^ 126 := by
  rw [zpow_neg, one_div]
  norm_cast

theorem truncToInt_of_nonneg {x : ℚ} (h : 0 ≤ x) : truncToInt x = ⌊x⌋ := by
  unfold truncToInt
  rw [if_pos h]

theorem minCommonWordsOf_zero : minCommonWordsOf 0 = 0 := by
  unfold minCommonWordsOf
  simp [toFloat_zero, truncToInt]

/-- The value of `minCommonWords` is below a positive `maxCommonWords`. -/
theorem minCommonWordsOf_lt {m : Int} (h : 1 ≤ m) : minCommonWordsOf m < m := by
  have hm : (1 : ℚ) ≤ (m : ℚ) := by exact_mod_cast h
  have hn : (2 : ℚ) ^ (-126 : Int) ≤ (m : ℚ) := by
    rw [two_zpow_neg126]
    refine le_trans ?_ hm
    rw [div_le_one (by positivity)]
    exact one_le_pow₀ (by norm_num)
  have h1 := toFloat_abs_sub_le_rel hn
  rw [abs_le] at h1
  have ha : (1 / 2 : ℚ) ≤ toFloat (m : ℚ) := by
    have : (m : ℚ) / 2 ^ 24 ≤ (m : ℚ) / 2 := by
      apply div_le_div_of_nonneg_left (by linarith) (by norm_num) (by norm_num)
    linarith [h1.1]
  have hx : (2 : ℚ) ^ (-126 : Int) ≤ toFloat (m : ℚ) * f08 := by
    rw [two_zpow_neg126]
    have : (1 / 4 : ℚ) ≤ toFloat (m : ℚ) * f08 := by
      unfold f08
      nlinarith
    refine le_trans ?_ this
    rw [div_le_div_iff₀ (by positivity) (by norm_num)]
    norm_num
  have h2 := toFloat_abs_sub_le_rel hx
  rw [abs_le] at h2
  have h0 : 0 ≤ toFloat (toFloat (m : ℚ) * f08) :=
    le_trans (by positivity) (toFloat_normal hx)
  have hlt : toFloat (toFloat (m : ℚ) * f08) < (m : ℚ) := by
    have e1 : toFloat (toFloat (m : ℚ) * f08)
        ≤ toFloat (m : ℚ) * f08 * (1 + 1 / 2 ^ 24) := by
      have := h2.2
      have e : toFloat (m : ℚ) * f08 * (1 + 1 / 2 ^ 24)
          = toFloat (m : ℚ) * f08 + toFloat (m : ℚ) * f08 / 2 ^ 24 := by ring
      rw [e]
      linarith
    have e2 : toFloat (m : ℚ) ≤ (m : ℚ) * (1 + 1 / 2 ^ 24) := by
      have := h1.2
      have e : (m : ℚ) * (1 + 1 / 2 ^ 24) = (m : ℚ) + (m : ℚ) / 2 ^ 24 := by ring
      rw [e]
      linarith
    have e3 : toFloat (m : ℚ) * f08 * (1 + 1 / 2 ^ 24)
        ≤ (m : ℚ) * (1 + 1 / 2 ^ 24) * f08 * (1 + 1 / 2 ^ 24) := by
      apply mul_le_mul_of_nonneg_right _ (by norm_num)
      apply mul_le_mul_of_nonneg_right e2
      unfold f08
      norm_num
    have e4 : (m : ℚ) * (1 + 1 / 2 ^ 24) * f08 * (1 + 1 / 2 ^ 24)
        = (m : ℚ) * ((1 + 1 / 2 ^ 24) * f08 * (1 + 1 / 2 ^ 24)) := by ring
    have e5 : (1 + 1 / 2 ^ 24) * f08 * (1 + 1 / 2 ^ 24) < (1 : ℚ) := by
      unfold f08
      norm_num
    have e6 : (m : ℚ) * ((1 + 1 / 2 ^ 24) * f08 * (1 + 1 / 2 ^ 24)) < (m : ℚ) * 1 :=
      mul_lt_mul_of_pos_left e5 (by linarith)
    linarith
  unfold minCommonWordsOf
  rw [truncToInt_of_nonneg h0, Int.floor_lt]
  exact hlt

/-- For counters up to 5242880 the `float` product truncated to `int` is the floor of four
fifths of the counter. -/
theorem minCommonWordsOf_eq_floor {m : Int} (h : 0 ≤ m) (hb : m ≤ 5242880) :
    minCommonWordsOf m = ⌊(4 / 5 : ℚ) * (m : ℚ)⌋ ∧ minCommonWordsOf m = m * 4 / 5 := by
  have hfl : ⌊(4 / 5 : ℚ) * (m : ℚ)⌋ = m * 4 / 5 := by
    have e : (4 / 5 : ℚ) * (m : ℚ) = ((m * 4 : Int) : ℚ) / ((5 : Nat) : ℚ) := by
      push_cast
      ring
    rw [e, Rat.floor_intCast_div_natCast]
    rfl
  suffices h1 : minCommonWordsOf m = m * 4 / 5 from ⟨by rw [hfl]; exact h1, h1⟩
  rcases eq_or_lt_of_le h with h0 | hpos
  · rw [← h0, minCommonWordsOf_zero]
    rfl
  rcases eq_or_lt_of_le hb with hmax | hlt
  · rw [hmax]
    decide!
  obtain ⟨n, rfl⟩ := Int.eq_ofNat_of_zero_le h
  have hn24 : n < 2 ^ 24 := by
    have : (n : Int) < 2 ^ 24 := by omega
    exact_mod_cast this
  have hnpos : (0 : ℚ) < (n : ℚ) := by exact_mod_cast hpos
  have hnle : (n : ℚ) ≤ 5242879 := by
    have : (n : Int) ≤ 5242879 := by omega
    exact_mod_cast this
  have hq1 : 5 * ((n : Int) * 4 / 5) ≤ (n : Int) * 4 := by omega
  have hq2 : (n : Int) * 4 ≤ 5 * ((n : Int) * 4 / 5) + 4 := by omega
  have hq1' : 5 * (((n : Int) * 4 / 5 : Int) : ℚ) ≤ (n : ℚ) * 4 := by exact_mod_cast hq1
  have hq2' : (n : ℚ) * 4 ≤ 5 * (((n : Int) * 4 / 5 : Int) : ℚ) + 4 := by exact_mod_cast hq2
  have hxdef : (n : ℚ) * f08 = (n : ℚ) * 4 / 5 + (n : ℚ) / 83886080 := by
    unfold f08
    ring
  have hxpos : 0 < (n : ℚ) * f08 := by
    unfold f08
    positivity
  have hx22 : (n : ℚ) * f08 < (2 : ℚ) ^ (22 : Int) := by
    rw [hxdef]
    norm_num
    linarith
  have hx24 : (n : ℚ) * f08 < 2 ^ 24 := by
    refine lt_trans hx22 ?_
    norm_num
  have hlow : (((n : Int) * 4 / 5 : Int) : ℚ) ≤ toFloat ((n : ℚ) * f08) := by
    apply intCast_le_toFloat hxpos hx24
    rw [hxdef]
    linarith
  have he : ilog2 ((n : ℚ) * f08) < 22 := ilog2_lt_of_lt hxpos hx22
  have herr := toFloat_abs_sub_le hxpos
  rw [abs_le] at herr
  have hu : (2 : ℚ) ^ (max (ilog2 ((n : ℚ) * f08)) (-126) - 23) ≤ (2 : ℚ) ^ (-2 : Int) :=
    zpow_le_zpow_right₀ (by norm_num) (by omega)
  have hu2 : (2 : ℚ) ^ (-2 : Int) = 1 / 4 := by norm_num
  rw [hu2] at hu
  have hhigh : toFloat ((n : ℚ) * f08) < (((n : Int) * 4 / 5 : Int) : ℚ) + 1 := by
    have := herr.2
    rw [hxdef] at this hu
    rw [hxdef]
    linarith
  have h0 : 0 ≤ toFloat ((n : ℚ) * f08) := by
    refine le_trans ?_ hlow
    have : (0 : Int) ≤ (n : Int) * 4 / 5 := by omega
    exact_mod_cast this
  unfold minCommonWordsOf
  rw [Int.cast_natCast, toFloat_natCast hn24, truncToInt_of_nonneg h0, Int.floor_eq_iff]
  exact ⟨hlow, hhigh⟩

/-! ## The inverted file -/

theorem bucket_touch (inv : InvertedFile) (w w' : WordId) :
    bucket (touch inv w) w' = bucket inv w' := by
  unfold touch
  cases h : inv w with
  | some b => simp
  | none =>
    by_cases hw : w' = w
    · subst hw; simp [bucket, h]
    · simp [bucket, Function.update_noteq hw]

theorem touch_other (inv : InvertedFile) {w w' : WordId} (h : w' ≠ w) :
    touch inv w w' = inv w' := by
  unfold touch
  cases inv w with
  | some b => rfl
  | none => simp [Function.update_noteq h]

theorem touch_same (inv : InvertedFile) (w : WordId) :
    touch inv w w = some (bucket inv w) := by
  unfold touch
  cases h : inv w with
  | some b => simp [bucket, h]
  | none => simp [bucket, h]

theorem addWord_same (pKF : KeyFrame) (inv : InvertedFile) (w : WordId) :
    addWord pKF inv w w = some (bucket inv w ++ [pKF]) := by
  have h : addWord pKF inv w = Function.update (touch (touch inv w) w) w
      (some (bucket (touch (touch inv w) w) w ++ [pKF])) := rfl
  rw [h, Function.update_same, bucket_touch, bucket_touch]

theorem addWord_other (pKF : KeyFrame) (inv : InvertedFile) {w w' : WordId} (h : w' ≠ w) :
    addWord pKF inv w w' = inv w' := by
  have h1 : addWord pKF inv w = Function.update (touch (touch inv w) w) w
      (some (bucket (touch (touch inv w) w) w ++ [pKF])) := rfl
  rw [h1, Function.update_noteq h, touch_other _ h, touch_other _ h]

theorem foldl_addWord_not_mem (pKF : KeyFrame) (ws : List WordId) (inv : InvertedFile)
    (w : WordId) (h : w ∉ ws) : ws.foldl (addWord pKF) inv w = inv w := by
  induction ws generalizing inv with
  | nil => rfl
  | cons a ws ih =>
    simp only [List.mem_cons, not_or] at h
    rw [List.foldl_cons, ih _ h.2, addWord_other _ _ h.1]

theorem foldl_addWord_mem (pKF : KeyFrame) (ws : List WordId) (inv : InvertedFile)
    (w : WordId) (hn : ws.Nodup) (h : w ∈ ws) :
    ws.foldl (addWord pKF) inv w = some (bucket inv w ++ [pKF]) := by
  induction ws generalizing inv with
  | nil => simp at h
  | cons a ws ih =>
    rw [List.nodup_cons] at hn
    rw [List.foldl_cons]
    by_cases ha : w = a
    · subst ha
      rw [foldl_addWord_not_mem _ _ _ _ hn.1, addWord_same]
    · have hw : w ∈ ws := by
        rcases List.mem_cons.1 h with h1 | h1
        · exact absurd h1 ha
        · exact h1
      rw [ih _ hn.2 hw]
      simp [bucket, addWord_other _ _ ha]

theorem eraseWord_same (pKF : KeyFrame) (inv : InvertedFile) (w : WordId) :
    eraseWord pKF inv w w = some (eraseFirst pKF (bucket inv w)) := by
  unfold eraseWord
  simp only [Function.update_same, bucket_touch]

theorem eraseWord_other (pKF : KeyFrame) (inv : InvertedFile) {w w' : WordId} (h : w' ≠ w) :
    eraseWord pKF inv w w' = inv w' := by
  unfold eraseWord
  simp only [Function.update_noteq h, touch_other _ h]

theorem foldl_eraseWord_not_mem (pKF : KeyFrame) (ws : List WordId) (inv : InvertedFile)
    (w : WordId) (h : w ∉ ws) : ws.foldl (eraseWord pKF) inv w = inv w := by
  induction ws generalizing inv with
  | nil => rfl
  | cons a ws ih =>
    simp only [List.mem_cons, not_or] at h
    rw [List.foldl_cons, ih _ h.2, eraseWord_other _ _ h.1]

theorem foldl_eraseWord_mem (pKF : KeyFrame) (ws : List WordId) (inv : InvertedFile)
    (w : WordId) (hn : ws.Nodup) (h : w ∈ ws) :
    ws.foldl (eraseWord pKF) inv w = some (eraseFirst pKF (bucket inv w)) := by
  induction ws generalizing inv with
  | nil => simp at h
  | cons a ws ih =>
    rw [List.nodup_cons] at hn
    rw [List.foldl_cons]
    by_cases ha : w = a
    · subst ha
      rw [foldl_eraseWord_not_mem _ _ _ _ hn.1, eraseWord_same]
    · have hw : w ∈ ws := by
        rcases List.mem_cons.1 h with h1 | h1
        · exact absurd h1 ha
        · exact h1
      rw [ih _ hn.2 hw]
      simp [bucket, eraseWord_other _ _ ha]

theorem BowVector.words_nodup (v : BowVector) : v.words.Nodup := by
  have h := v.sorted
  unfold BowVector.words
  exact h.imp (fun hab => Nat.ne_of_lt hab)

theorem eraseFirst_eq_erase (pKF : KeyFrame) (l : List KeyFrame) :
    eraseFirst pKF l = l.erase pKF := by
  induction l with
  | nil => rfl
  | cons x rest ih =>
    by_cases h : pKF = x
    · subst h; simp [eraseFirst]
    · have h2 : ¬ x = pKF := fun e => h e.symm
      simp [eraseFirst, h, List.erase_cons, h2, ih]

theorem add_apply_mem (W : World) (inv : InvertedFile) (K : KeyFrame) {w : WordId}
    (hw : w ∈ (W.mBowVec K).words) : add W inv K w = some (bucket inv w ++ [K]) :=
  foldl_addWord_mem K _ inv w (W.mBowVec K).words_nodup hw

theorem add_apply_not_mem (W : World) (inv : InvertedFile) (K : KeyFrame) {w : WordId}
    (hw : w ∉ (W.mBowVec K).words) : add W inv K w = inv w :=
  foldl_addWord_not_mem K _ inv w hw

theorem erase_apply_mem (W : World) (inv : InvertedFile) (K : KeyFrame) {w : WordId}
    (hw : w ∈ (W.mBowVec K).words) : erase W inv K w = some ((bucket inv w).erase K) := by
  rw [← eraseFirst_eq_erase]
  exact foldl_eraseWord_mem K _ inv w (W.mBowVec K).words_nodup hw

theorem erase_apply_not_mem (W : World) (inv : InvertedFile) (K : KeyFrame) {w : WordId}
    (hw : w ∉ (W.mBowVec K).words) : erase W inv K w = inv w :=
  foldl_eraseWord_not_mem K _ inv w hw

theorem bucket_add_mem (W : World) (inv : InvertedFile) (K : KeyFrame) {w : WordId}
    (hw : w ∈ (W.mBowVec K).words) : bucket (add W inv K) w = bucket inv w ++ [K] := by
  rw [bucket, add_apply_mem W inv K hw]; rfl

theorem bucket_erase_mem (W : World) (inv : InvertedFile) (K : KeyFrame) {w : WordId}
    (hw : w ∈ (W.mBowVec K).words) : bucket (erase W inv K) w = (bucket inv w).erase K := by
  rw [bucket, erase_apply_mem W inv K hw]; rfl

theorem filter_ne_erase (K : KeyFrame) (l : List KeyFrame) :
    (l.erase K).filter (fun x => x ≠ K) = l.filter (fun x => x ≠ K) := by
  induction l with
  | nil => rfl
  | cons x xs ih =>
    by_cases hx : x = K
    · subst hx; simp
    · rw [List.erase_cons_tail (by simpa using hx)]
      simp only [List.filter_cons, ih]

/-- C3: `add(K)` appends `K` to the end of the bucket of every word of `K`'s bag-of-words
vector (an absent bucket is created), leaves the bucket of every other word as it was, and
afterwards `K` occurs in the bucket of every word of its vector. -/
theorem add_appends_to_each_word_bucket (W : World) (inv : InvertedFile) (K : KeyFrame) :
    (∀ w ∈ (W.mBowVec K).words, add W inv K w = some (bucket inv w ++ [K])) ∧
    (∀ w, w ∉ (W.mBowVec K).words → add W inv K w = inv w) ∧
    (∀ w ∈ (W.mBowVec K).words, K ∈ bucket (add W inv K) w) := by
  refine ⟨?_, ?_, ?_⟩
  · intro w hw
    exact add_apply_mem W inv K hw
  · intro w hw
    exact add_apply_not_mem W inv K hw
  · intro w hw
    rw [bucket_add_mem W inv K hw]
    simp

/-- C4: when `K` occurs in no bucket, `add(K)` followed by one `erase(K)` leaves `K` in no
bucket and every bucket with the sequence of keyframes it had before the `add`, an absent
bucket counting as an empty one. -/
theorem add_erase_roundtrip (W : World) (inv : InvertedFile) (K : KeyFrame)
    (h : ∀ w, K ∉ bucket inv w) :
    (∀ w, K ∉ bucket (erase W (add W inv K) K) w) ∧
    (∀ w, bucket (erase W (add W inv K) K) w = bucket inv w) := by
  have key : ∀ w, bucket (erase W (add W inv K) K) w = bucket inv w := by
    intro w
    by_cases hw : w ∈ (W.mBowVec K).words
    · rw [bucket_erase_mem W _ K hw, bucket_add_mem W inv K hw,
        List.erase_append_right _ (h w)]
      simp
    · rw [bucket, erase_apply_not_mem W _ K hw, add_apply_not_mem W inv K hw]; rfl
  refine ⟨?_, key⟩
  intro w
  rw [key w]
  exact h w

/-- Witness for C4: keyframe 3 (words 7 and 9) added to and erased from an index holding
keyframes 2 and 1 under word 7. -/
theorem add_erase_roundtrip_witness :
    (∀ w, 3 ∉ bucket idxInv w) ∧
    (∀ w, 3 ∉ bucket (erase idxW (add idxW idxInv 3) 3) w) ∧
    (∀ w, bucket (erase idxW (add idxW idxInv 3) 3) w = bucket idxInv w) :=
  have h : ∀ w, 3 ∉ bucket idxInv w := by
    intro w
    unfold bucket idxInv
    split_ifs <;> simp
  ⟨h, add_erase_roundtrip idxW idxInv 3 h⟩

/-- C5: `erase(K)` replaces the bucket of each word of `K`'s vector by that bucket without
its first occurrence of `K` and changes no other bucket.  Removing the first occurrence
leaves a list without `K` alone, drops `l1 ++ K :: l2` to `l1 ++ l2` when `K` is not in `l1`,
lowers the number of occurrences of `K` by one (0 stays 0) and keeps the other entries in
their order.  After `add(K)`, `add(K)`, `erase(K)` each word bucket of `K` holds one more `K`
than before, hence exactly one if it held none. -/
theorem erase_removes_first_occurrence (W : World) (inv : InvertedFile) (K : KeyFrame) :
    (∀ w ∈ (W.mBowVec K).words, erase W inv K w = some (eraseFirst K (bucket inv w))) ∧
    (∀ w, w ∉ (W.mBowVec K).words → erase W inv K w = inv w) ∧
    (∀ l : List KeyFrame, K ∉ l → eraseFirst K l = l) ∧
    (∀ l1 l2 : List KeyFrame, K ∉ l1 → eraseFirst K (l1 ++ K :: l2) = l1 ++ l2) ∧
    (∀ w ∈ (W.mBowVec K).words,
      (bucket (erase W inv K) w).count K = (bucket inv w).count K - 1) ∧
    (∀ w ∈ (W.mBowVec K).words,
      (bucket (erase W inv K) w).filter (fun x => x ≠ K)
        = (bucket inv w).filter (fun x => x ≠ K)) ∧
    (∀ w ∈ (W.mBowVec K).words,
      (bucket (erase W (add W (add W inv K) K) K) w).count K = (bucket inv w).count K + 1) ∧
    (∀ w ∈ (W.mBowVec K).words, K ∉ bucket inv w →
      (bucket (erase W (add W (add W inv K) K) K) w).count K = 1) := by
  have hcount : ∀ w ∈ (W.mBowVec K).words,
      (bucket (erase W (add W (add W inv K) K) K) w).count K = (bucket inv w).count K + 1 := by
    intro w hw
    rw [bucket_erase_mem W _ K hw, bucket_add_mem W _ K hw, bucket_add_mem W _ K hw,
      List.count_erase_self]
    simp
  refine ⟨?_, ?_, ?_, ?_, ?_, ?_, hcount, ?_⟩
  · intro w hw
    exact foldl_eraseWord_mem K _ inv w (W.mBowVec K).words_nodup hw
  · intro w hw
    exact erase_apply_not_mem W inv K hw
  · intro l hl
    rw [eraseFirst_eq_erase, List.erase_of_not_mem hl]
  · intro l1 l2 hl
    rw [eraseFirst_eq_erase, List.erase_append_right _ hl]
    simp
  · intro w hw
    rw [bucket_erase_mem W _ K hw, List.count_erase_self]
  · intro w hw
    rw [bucket_erase_mem W _ K hw, filter_ne_erase]
  · intro w hw hK
    rw [hcount w hw, List.count_eq_zero_of_not_mem hK]

/-! ## Gather phases as one scan -/

theorem visited_touch (inv : InvertedFile) (w : WordId) (ws : List WordId) :
    visited (touch inv w) ws = visited inv ws := by
  unfold visited
  congr 1
  apply List.map_congr_left
  intro a _
  exact bucket_touch inv w a

theorem visited_cons (inv : InvertedFile) (w : WordId) (ws : List WordId) :
    visited inv (w :: ws) = bucket inv w ++ visited inv ws := by
  simp [visited]

theorem visited_eq_nil (inv : InvertedFile) (ws : List WordId)
    (h : ∀ w ∈ ws, bucket inv w = []) : visited inv ws = [] := by
  induction ws with
  | nil => rfl
  | cons a ws ih =>
    rw [visited_cons, h a (List.mem_cons_self _ _), ih (fun w hw => h w (List.mem_cons_of_mem _ hw))]
    rfl

theorem mem_visited {inv : InvertedFile} {ws : List WordId} {k : KeyFrame} :
    k ∈ visited inv ws ↔ ∃ w ∈ ws, k ∈ bucket inv w := by
  simp [visited]

theorem foldl_loopGatherWord (conn : List KeyFrame) (qId : Nat) (ws : List WordId)
    (inv : InvertedFile) (g : Gather) :
    ws.foldl (loopGatherWord conn qId) (inv, g)
      = (ws.foldl touch inv, (visited inv ws).foldl (loopVisit conn qId) g) := by
  induction ws generalizing inv g with
  | nil => rfl
  | cons w ws ih =>
    rw [List.foldl_cons]
    have h : loopGatherWord conn qId (inv, g) w
        = (touch inv w, (bucket inv w).foldl (loopVisit conn qId) g) := by
      simp only [loopGatherWord, bucket_touch]
    rw [h, ih, visited_touch, visited_cons, List.foldl_append, List.foldl_cons]

theorem foldl_relocGatherWord (fId : Nat) (ws : List WordId)
    (inv : InvertedFile) (g : Gather) :
    ws.foldl (relocGatherWord fId) (inv, g)
      = (ws.foldl touch inv, (visited inv ws).foldl (relocVisit fId) g) := by
  induction ws generalizing inv g with
  | nil => rfl
  | cons w ws ih =>
    rw [List.foldl_cons]
    have h : relocGatherWord fId (inv, g) w
        = (touch inv w, (bucket inv w).foldl (relocVisit fId) g) := by
      simp only [relocGatherWord, bucket_touch]
    rw [h, ih, visited_touch, visited_cons, List.foldl_append, List.foldl_cons]

theorem loopGather_eq (W : World) (inv : InvertedFile) (kf : KFState) (pKF : KeyFrame) :
    loopGather W inv kf pKF
      = ((W.mBowVec pKF).words.foldl touch inv,
         (visited inv (W.mBowVec pKF).words).foldl
           (loopVisit (W.GetConnectedKeyFrames pKF) (W.mnId pKF)) ⟨kf, []⟩) :=
  foldl_loopGatherWord _ _ _ _ _

theorem relocGather_eq (inv : InvertedFile) (kf : KFState) (F : Frame) :
    relocGather inv kf F
      = (F.mBowVec.words.foldl touch inv,
         (visited inv F.mBowVec.words).foldl (relocVisit F.mnId) ⟨kf, []⟩) :=
  foldl_relocGatherWord _ _ _ _

theorem loop_result_nil_of_no_entry (W : World) (inv : InvertedFile) (kf : KFState)
    (pKF : KeyFrame) (minScore : ℚ) (h : ∀ w ∈ (W.mBowVec pKF).words, bucket inv w = []) :
    (DetectLoopCandidates W inv kf pKF minScore).result = [] := by
  unfold DetectLoopCandidates
  simp only [loopGather_eq, visited_eq_nil inv _ h, List.foldl_nil, List.isEmpty_nil, if_true]

theorem reloc_result_nil_of_no_entry (W : World) (inv : InvertedFile) (kf : KFState)
    (F : Frame) (h : ∀ w ∈ F.mBowVec.words, bucket inv w = []) :
    (DetectRelocalizationCandidates W inv kf F).result = [] := by
  unfold DetectRelocalizationCandidates
  simp only [relocGather_eq, visited_eq_nil inv _ h, List.foldl_nil, List.isEmpty_nil, if_true]

theorem glb_result_nil_of_no_entry (W : World) (inv : InvertedFile) (kf : KFState)
    (F : Frame) (h : ∀ w ∈ F.mBowVec.words, bucket inv w = []) :
    (DetectRelocalizationByglb W inv kf F).result = [] := by
  unfold DetectRelocalizationByglb
  simp only [relocGather_eq, visited_eq_nil inv _ h, List.foldl_nil, List.isEmpty_nil, if_true]

/-- C6: after `clear()` the inverted file has no bucket; each of the three searches returns
an empty vector whenever no bucket of a query word holds a keyframe, whatever the query, the
threshold and the scratch records are, and so in particular on a cleared index. -/
theorem clear_empties_index_and_searches (W : World) :
    (∀ (inv : InvertedFile) (w : WordId), clear inv w = none) ∧
    (∀ (inv : InvertedFile) (kf : KFState) (pKF : KeyFrame) (minScore : ℚ),
      (∀ w ∈ (W.mBowVec pKF).words, bucket inv w = []) →
        (DetectLoopCandidates W inv kf pKF minScore).result = []) ∧
    (∀ (inv : InvertedFile) (kf : KFState) (F : Frame),
      (∀ w ∈ F.mBowVec.words, bucket inv w = []) →
        (DetectRelocalizationCandidates W inv kf F).result = []) ∧
    (∀ (inv : InvertedFile) (kf : KFState) (F : Frame),
      (∀ w ∈ F.mBowVec.words, bucket inv w = []) →
        (DetectRelocalizationByglb W inv kf F).result = []) ∧
    (∀ (inv : InvertedFile) (kf : KFState) (pKF : KeyFrame) (minScore : ℚ),
      (DetectLoopCandidates W (clear inv) kf pKF minScore).result = []) ∧
    (∀ (inv : InvertedFile) (kf : KFState) (F : Frame),
      (DetectRelocalizationCandidates W (clear inv) kf F).result = []) ∧
    (∀ (inv : InvertedFile) (kf : KFState) (F : Frame),
      (DetectRelocalizationByglb W (clear inv) kf F).result = []) := by
  refine ⟨fun _ _ => rfl, ?_, ?_, ?_, ?_, ?_, ?_⟩
  · intro inv kf pKF minScore h
    exact loop_result_nil_of_no_entry W inv kf pKF minScore h
  · intro inv kf F h
    exact reloc_result_nil_of_no_entry W inv kf F h
  · intro inv kf F h
    exact glb_result_nil_of_no_entry W inv kf F h
  · intro inv kf pKF minScore
    exact loop_result_nil_of_no_entry W _ kf pKF minScore (fun _ _ => rfl)
  · intro inv kf F
    exact reloc_result_nil_of_no_entry W _ kf F (fun _ _ => rfl)
  · intro inv kf F
    exact glb_result_nil_of_no_entry W _ kf F (fun _ _ => rfl)

/-! ## The final loop -/

theorem retainStep_pos (thr : ℚ) (r : Retained) (a : ℚ × KeyFrame)
    (h : a.1 > thr ∧ a.2 ∉ r.spAlreadyAddedKF) :
    retainStep thr r a = ⟨r.spAlreadyAddedKF ++ [a.2], r.vpCandidates ++ [a.2]⟩ := by
  unfold retainStep
  rw [if_pos h.1, if_pos h.2]

theorem retainStep_neg (thr : ℚ) (r : Retained) (a : ℚ × KeyFrame)
    (h : ¬ (a.1 > thr ∧ a.2 ∉ r.spAlreadyAddedKF)) : retainStep thr r a = r := by
  unfold retainStep
  by_cases h1 : a.1 > thr
  · have h2 : ¬ a.2 ∉ r.spAlreadyAddedKF := fun h2 => h ⟨h1, h2⟩
    rw [if_pos h1, if_neg h2]
  · rw [if_neg h1]

theorem retainStep_sp (thr : ℚ) (r : Retained) (a : ℚ × KeyFrame)
    (h : r.spAlreadyAddedKF = r.vpCandidates) :
    (retainStep thr r a).spAlreadyAddedKF = (retainStep thr r a).vpCandidates := by
  by_cases hc : a.1 > thr ∧ a.2 ∉ r.spAlreadyAddedKF
  · rw [retainStep_pos thr r a hc]
    simp [h]
  · rw [retainStep_neg thr r a hc]
    exact h

theorem foldl_retainStep_sp (thr : ℚ) (l : List (ℚ × KeyFrame)) (r : Retained)
    (h : r.spAlreadyAddedKF = r.vpCandidates) :
    (l.foldl (retainStep thr) r).spAlreadyAddedKF = (l.foldl (retainStep thr) r).vpCandidates := by
  induction l generalizing r with
  | nil => exact h
  | cons a l ih =>
    rw [List.foldl_cons]
    exact ih _ (retainStep_sp thr r a h)

theorem mem_retainStep (thr : ℚ) (r : Retained) (a : ℚ × KeyFrame)
    (h : r.spAlreadyAddedKF = r.vpCandidates) (k : KeyFrame) :
    k ∈ (retainStep thr r a).vpCandidates ↔ k ∈ r.vpCandidates ∨ (a.1 > thr ∧ a.2 = k) := by
  by_cases hc : a.1 > thr ∧ a.2 ∉ r.spAlreadyAddedKF
  · rw [retainStep_pos thr r a hc]
    simp only [List.mem_append, List.mem_singleton]
    constructor
    · rintro (hk | hk)
      · exact Or.inl hk
      · exact Or.inr ⟨hc.1, hk.symm⟩
    · rintro (hk | ⟨_, hk⟩)
      · exact Or.inl hk
      · exact Or.inr hk.symm
  · rw [retainStep_neg thr r a hc]
    constructor
    · exact Or.inl
    · rintro (hk | ⟨h1, hk⟩)
      · exact hk
      · by_contra hk2
        apply hc
        refine ⟨h1, ?_⟩
        rw [h, hk]
        exact hk2

theorem mem_foldl_retainStep (thr : ℚ) (l : List (ℚ × KeyFrame)) (r : Retained)
    (h : r.spAlreadyAddedKF = r.vpCandidates) (k : KeyFrame) :
    k ∈ (l.foldl (retainStep thr) r).vpCandidates ↔
      k ∈ r.vpCandidates ∨ ∃ p ∈ l, p.1 > thr ∧ p.2 = k := by
  induction l generalizing r with
  | nil => simp
  | cons a l ih =>
    rw [List.foldl_cons, ih _ (retainStep_sp thr r a h), mem_retainStep thr r a h]
    simp only [List.mem_cons, exists_eq_or_imp]
    tauto

theorem nodup_foldl_retainStep (thr : ℚ) (l : List (ℚ × KeyFrame)) (r : Retained)
    (h : r.spAlreadyAddedKF = r.vpCandidates) (hn : r.vpCandidates.Nodup) :
    (l.foldl (retainStep thr) r).vpCandidates.Nodup := by
  induction l generalizing r with
  | nil => exact hn
  | cons a l ih =>
    rw [List.foldl_cons]
    apply ih _ (retainStep_sp thr r a h)
    by_cases hc : a.1 > thr ∧ a.2 ∉ r.spAlreadyAddedKF
    · rw [retainStep_pos thr r a hc]
      have h2 := hc.2
      rw [h] at h2
      exact List.Nodup.append hn (List.nodup_singleton _) (by simpa using h2)
    · rw [retainStep_neg thr r a hc]
      exact hn

/-- Membership in the vector built by the final loop. -/
theorem mem_retained (thr : ℚ) (l : List (ℚ × KeyFrame)) (k : KeyFrame) :
    k ∈ (l.foldl (retainStep thr) ⟨[], []⟩).vpCandidates ↔ ∃ p ∈ l, p.1 > thr ∧ p.2 = k := by
  rw [mem_foldl_retainStep thr l ⟨[], []⟩ rfl]
  simp

/-! ## The accumulation loop -/

theorem foldl_loopAccStep_list (W : World) (kf : KFState) (qId : Nat) (mcw : Int)
    (l : List (ℚ × KeyFrame)) (st : Accumulated) :
    (l.foldl (loopAccStep W kf qId mcw) st).lAccScoreAndMatch
      = st.lAccScoreAndMatch ++ l.map (loopGroup W kf qId mcw) := by
  induction l generalizing st with
  | nil => simp
  | cons a l ih =>
    rw [List.foldl_cons, ih]
    simp [loopAccStep]

theorem foldl_relocAccStep_list (W : World) (kf : KFState) (fId : Nat)
    (l : List (ℚ × KeyFrame)) (st : Accumulated) :
    (l.foldl (relocAccStep W kf fId) st).lAccScoreAndMatch
      = st.lAccScoreAndMatch ++ l.map (relocGroup W kf fId) := by
  induction l generalizing st with
  | nil => simp
  | cons a l ih =>
    rw [List.foldl_cons, ih]
    simp [relocAccStep]

theorem foldl_relocAccStep_best (W : World) (kf : KFState) (fId : Nat)
    (l : List (ℚ × KeyFrame)) (st : Accumulated) :
    (l.foldl (relocAccStep W kf fId) st).bestAccScore
      = (l.map (fun it => (relocGroup W kf fId it).1)).foldl max st.bestAccScore := by
  induction l generalizing st with
  | nil => rfl
  | cons a l ih =>
    rw [List.foldl_cons, ih]
    simp only [List.map_cons, List.foldl_cons]
    congr 1
    simp only [relocAccStep]
    split_ifs with h
    · exact (max_eq_right (le_of_lt h)).symm
    · exact (max_eq_left (not_lt.1 h)).symm

theorem le_foldl_max (l : List ℚ) (b : ℚ) : b ≤ l.foldl max b := by
  induction l generalizing b with
  | nil => exact le_refl _
  | cons a l ih => exact le_trans (le_max_left _ _) (ih (max b a))

theorem mem_le_foldl_max (l : List ℚ) (b : ℚ) {x : ℚ} (hx : x ∈ l) : x ≤ l.foldl max b := by
  induction l generalizing b with
  | nil => simp at hx
  | cons a l ih =>
    rcases List.mem_cons.1 hx with h | h
    · subst h
      exact le_trans (le_max_right _ _) (le_foldl_max l _)
    · exact ih _ h

theorem foldl_max_mono (l : List ℚ) {b c : ℚ} (h : b ≤ c) : l.foldl max b ≤ l.foldl max c := by
  induction l generalizing b c with
  | nil => exact h
  | cons a l ih => exact ih (max_le_max h (le_refl a))

/-! ## The neighbour loop of `DetectLoopCandidates` -/

/-- The test a covisible neighbour has to pass to be counted in a loop group. -/
theorem loopNeighStep_pos (kf : KFState) (qId : Nat) (mcw : Int) (a : Group) (n : KeyFrame)
    (h : (kf n).mnLoopQuery = qId ∧ (kf n).mnLoopWords > mcw) :
    loopNeighStep kf qId mcw a n =
      if (kf n).mLoopScore > a.bestScore
      then ⟨(kf n).mLoopScore, a.accScore + (kf n).mLoopScore, n⟩
      else ⟨a.bestScore, a.accScore + (kf n).mLoopScore, a.pBestKF⟩ := by
  unfold loopNeighStep
  rw [if_pos h]

theorem loopNeighStep_neg (kf : KFState) (qId : Nat) (mcw : Int) (a : Group) (n : KeyFrame)
    (h : ¬ ((kf n).mnLoopQuery = qId ∧ (kf n).mnLoopWords > mcw)) :
    loopNeighStep kf qId mcw a n = a := by
  unfold loopNeighStep
  rw [if_neg h]

/-- The best keyframe of a group is its head or a neighbour that passed the test, and its
stored score is `bestScore` in the second case. -/
theorem foldl_loopNeighStep_best (kf : KFState) (qId : Nat) (mcw : Int) (ns : List KeyFrame)
    (a : Group) :
    ((ns.foldl (loopNeighStep kf qId mcw) a).pBestKF = a.pBestKF ∧
      (ns.foldl (loopNeighStep kf qId mcw) a).bestScore = a.bestScore) ∨
    ((ns.foldl (loopNeighStep kf qId mcw) a).pBestKF ∈ ns ∧
      (kf (ns.foldl (loopNeighStep kf qId mcw) a).pBestKF).mnLoopQuery = qId ∧
      (kf (ns.foldl (loopNeighStep kf qId mcw) a).pBestKF).mnLoopWords > mcw ∧
      (kf (ns.foldl (loopNeighStep kf qId mcw) a).pBestKF).mLoopScore
        = (ns.foldl (loopNeighStep kf qId mcw) a).bestScore ∧
      (ns.foldl (loopNeighStep kf qId mcw) a).bestScore > a.bestScore) := by
  induction ns generalizing a with
  | nil => exact Or.inl ⟨rfl, rfl⟩
  | cons n ns ih =>
    rw [List.foldl_cons]
    by_cases h : (kf n).mnLoopQuery = qId ∧ (kf n).mnLoopWords > mcw
    · rw [loopNeighStep_pos kf qId mcw a n h]
      by_cases h2 : (kf n).mLoopScore > a.bestScore
      · rw [if_pos h2]
        rcases ih ⟨(kf n).mLoopScore, a.accScore + (kf n).mLoopScore, n⟩ with h3 | h3
        · right
          rw [h3.1, h3.2]
          exact ⟨List.mem_cons_self _ _, h.1, h.2, rfl, h2⟩
        · right
          exact ⟨List.mem_cons_of_mem _ h3.1, h3.2.1, h3.2.2.1, h3.2.2.2.1,
            lt_trans h2 h3.2.2.2.2⟩
      · rw [if_neg h2]
        rcases ih ⟨a.bestScore, a.accScore + (kf n).mLoopScore, a.pBestKF⟩ with h3 | h3
        · left; exact h3
        · right
          exact ⟨List.mem_cons_of_mem _ h3.1, h3.2.1, h3.2.2.1, h3.2.2.2.1, h3.2.2.2.2⟩
    · rw [loopNeighStep_neg kf qId mcw a n h]
      rcases ih a with h3 | h3
      · left; exact h3
      · right
        exact ⟨List.mem_cons_of_mem _ h3.1, h3.2.1, h3.2.2.1, h3.2.2.2.1, h3.2.2.2.2⟩

/-- The accumulated score is the start plus the stored scores of the counted neighbours. -/
theorem foldl_loopNeighStep_acc (kf : KFState) (qId : Nat) (mcw : Int) (ns : List KeyFrame)
    (a : Group) :
    (ns.foldl (loopNeighStep kf qId mcw) a).accScore = a.accScore +
      ((ns.filter (fun n => (kf n).mnLoopQuery = qId ∧ (kf n).mnLoopWords > mcw)).map
        (fun n => (kf n).mLoopScore)).sum := by
  induction ns generalizing a with
  | nil => simp
  | cons n ns ih =>
    rw [List.foldl_cons, ih]
    by_cases h : (kf n).mnLoopQuery = qId ∧ (kf n).mnLoopWords > mcw
    · rw [loopNeighStep_pos kf qId mcw a n h, List.filter_cons_of_pos (by simpa using h)]
      split_ifs <;> simp [add_assoc]
    · rw [loopNeighStep_neg kf qId mcw a n h, List.filter_cons_of_neg (by simpa using h)]

/-! ## The neighbour loop of `DetectRelocalizationCandidates` -/

theorem relocNeighStep_pos (kf : KFState) (fId : Nat) (a : Group) (n : KeyFrame)
    (h : (kf n).mnRelocQuery = fId) :
    relocNeighStep kf fId a n =
      if (kf n).mRelocScore > a.bestScore
      then ⟨(kf n).mRelocScore, toFloat (a.accScore + (kf n).mRelocScore), n⟩
      else ⟨a.bestScore, toFloat (a.accScore + (kf n).mRelocScore), a.pBestKF⟩ := by
  unfold relocNeighStep
  rw [if_neg (not_not.2 h)]

theorem relocNeighStep_neg (kf : KFState) (fId : Nat) (a : Group) (n : KeyFrame)
    (h : (kf n).mnRelocQuery ≠ fId) : relocNeighStep kf fId a n = a := by
  unfold relocNeighStep
  rw [if_pos h]

theorem foldl_relocNeighStep_best (kf : KFState) (fId : Nat) (ns : List KeyFrame) (a : Group) :
    ((ns.foldl (relocNeighStep kf fId) a).pBestKF = a.pBestKF ∧
      (ns.foldl (relocNeighStep kf fId) a).bestScore = a.bestScore) ∨
    ((ns.foldl (relocNeighStep kf fId) a).pBestKF ∈ ns ∧
      (kf (ns.foldl (relocNeighStep kf fId) a).pBestKF).mnRelocQuery = fId ∧
      (kf (ns.foldl (relocNeighStep kf fId) a).pBestKF).mRelocScore
        = (ns.foldl (relocNeighStep kf fId) a).bestScore ∧
      (ns.foldl (relocNeighStep kf fId) a).bestScore > a.bestScore) := by
  induction ns generalizing a with
  | nil => exact Or.inl ⟨rfl, rfl⟩
  | cons n ns ih =>
    rw [List.foldl_cons]
    by_cases h : (kf n).mnRelocQuery = fId
    · rw [relocNeighStep_pos kf fId a n h]
      by_cases h2 : (kf n).mRelocScore > a.bestScore
      · rw [if_pos h2]
        rcases ih ⟨(kf n).mRelocScore, toFloat (a.accScore + (kf n).mRelocScore), n⟩
          with h3 | h3
        · right
          rw [h3.1, h3.2]
          exact ⟨List.mem_cons_self _ _, h, rfl, h2⟩
        · right
          exact ⟨List.mem_cons_of_mem _ h3.1, h3.2.1, h3.2.2.1, lt_trans h2 h3.2.2.2⟩
      · rw [if_neg h2]
        rcases ih ⟨a.bestScore, toFloat (a.accScore + (kf n).mRelocScore), a.pBestKF⟩
          with h3 | h3
        · left; exact h3
        · right
          exact ⟨List.mem_cons_of_mem _ h3.1, h3.2.1, h3.2.2.1, h3.2.2.2⟩
    · rw [relocNeighStep_neg kf fId a n h]
      rcases ih a with h3 | h3
      · left; exact h3
      · right
        exact ⟨List.mem_cons_of_mem _ h3.1, h3.2.1, h3.2.2.1, h3.2.2.2⟩

/-- The accumulated score stays a normal `float` value when it starts as one and the stored
scores of the counted neighbours are not negative. -/
theorem foldl_relocNeighStep_normal (kf : KFState) (fId : Nat) (ns : List KeyFrame) (a : Group)
    (hn : ∀ n ∈ ns, (kf n).mnRelocQuery = fId → 0 ≤ (kf n).mRelocScore)
    (ha : (2 : ℚ) ^ (-126 : Int) ≤ a.accScore) :
    (2 : ℚ) ^ (-126 : Int) ≤ (ns.foldl (relocNeighStep kf fId) a).accScore := by
  induction ns generalizing a with
  | nil => exact ha
  | cons n ns ih =>
    rw [List.foldl_cons]
    have hn2 : ∀ m ∈ ns, (kf m).mnRelocQuery = fId → 0 ≤ (kf m).mRelocScore :=
      fun m hm => hn m (List.mem_cons_of_mem _ hm)
    by_cases h : (kf n).mnRelocQuery = fId
    · have h0 := hn n (List.mem_cons_self _ _) h
      have hsum : (2 : ℚ) ^ (-126 : Int) ≤ toFloat (a.accScore + (kf n).mRelocScore) :=
        toFloat_normal (by linarith)
      rw [relocNeighStep_pos kf fId a n h]
      split_ifs
      · exact ih _ hn2 hsum
      · exact ih _ hn2 hsum
    · rw [relocNeighStep_neg kf fId a n h]
      exact ih a hn2 ha

/-! ## The scoring loops -/

theorem loopScoreStep_kf (W : World) (pKF : KeyFrame) (minScore : ℚ) (mcw : Int) (st : Scored)
    (x k : KeyFrame) :
    (loopScoreStep W pKF minScore mcw st x).kf k =
      if k = x ∧ (st.kf x).mnLoopWords > mcw
      then { st.kf k with mLoopScore := W.score (W.mBowVec pKF) (W.mBowVec k) }
      else st.kf k := by
  unfold loopScoreStep
  by_cases h : (st.kf x).mnLoopWords > mcw
  · by_cases hk : k = x
    · subst hk
      simp only [h, if_true, true_and]
      split_ifs <;> simp
    · simp only [h, if_true, hk, false_and, if_false]
      split_ifs <;> simp [Function.update_noteq hk]
  · simp only [h, if_false, and_false]

theorem loopScoreStep_list (W : World) (pKF : KeyFrame) (minScore : ℚ) (mcw : Int) (st : Scored)
    (x : KeyFrame) :
    (loopScoreStep W pKF minScore mcw st x).lScoreAndMatch =
      if (st.kf x).mnLoopWords > mcw ∧ W.score (W.mBowVec pKF) (W.mBowVec x) ≥ minScore
      then st.lScoreAndMatch ++ [(W.score (W.mBowVec pKF) (W.mBowVec x), x)]
      else st.lScoreAndMatch := by
  unfold loopScoreStep
  by_cases h : (st.kf x).mnLoopWords > mcw
  · by_cases h2 : W.score (W.mBowVec pKF) (W.mBowVec x) ≥ minScore
    · simp only [h, h2, if_true, true_and]
    · simp only [h, h2, if_true, if_false, and_false]
  · simp only [h, if_false, false_and]

/-- Scratch records after the scoring loop of `DetectLoopCandidates`: the score is stored on
the listed keyframes whose counter passes, nothing else changes. -/
theorem foldl_loopScoreStep_kf (W : World) (pKF : KeyFrame) (minScore : ℚ) (mcw : Int)
    (l : List KeyFrame) (st : Scored) (k : KeyFrame) :
    (l.foldl (loopScoreStep W pKF minScore mcw) st).kf k =
      if k ∈ l ∧ (st.kf k).mnLoopWords > mcw
      then { st.kf k with mLoopScore := W.score (W.mBowVec pKF) (W.mBowVec k) }
      else st.kf k := by
  induction l generalizing st with
  | nil => simp
  | cons x l ih =>
    rw [List.foldl_cons, ih, loopScoreStep_kf]
    by_cases hx : k = x
    · subst hx
      by_cases hw : (st.kf k).mnLoopWords > mcw
      · simp [hw]
      · simp [hw]
    · by_cases hl : k ∈ l
      · simp [hx, hl]
      · simp [hx, hl]

/-- The scored list of `DetectLoopCandidates`. -/
theorem foldl_loopScoreStep_list (W : World) (pKF : KeyFrame) (minScore : ℚ) (mcw : Int)
    (l : List KeyFrame) (st : Scored) :
    (l.foldl (loopScoreStep W pKF minScore mcw) st).lScoreAndMatch =
      st.lScoreAndMatch ++
        (l.filter (fun x => (st.kf x).mnLoopWords > mcw ∧
            W.score (W.mBowVec pKF) (W.mBowVec x) ≥ minScore)).map
          (fun x => (W.score (W.mBowVec pKF) (W.mBowVec x), x)) := by
  induction l generalizing st with
  | nil => simp
  | cons x l ih =>
    rw [List.foldl_cons, ih, loopScoreStep_list]
    have hw : ∀ y, ((loopScoreStep W pKF minScore mcw st x).kf y).mnLoopWords
        = (st.kf y).mnLoopWords := by
      intro y
      rw [loopScoreStep_kf]
      split_ifs <;> rfl
    simp only [hw]
    by_cases hc : (st.kf x).mnLoopWords > mcw ∧ W.score (W.mBowVec pKF) (W.mBowVec x) ≥ minScore
    · rw [if_pos hc, List.filter_cons_of_pos (by simpa using hc)]
      simp
    · rw [if_neg hc, List.filter_cons_of_neg (by simpa using hc)]

theorem relocScoreStep_kf (W : World) (F : Frame) (mcw : Int) (st : Scored) (x k : KeyFrame) :
    (relocScoreStep W F mcw st x).kf k =
      if k = x ∧ (st.kf x).mnRelocWords > mcw
      then { st.kf k with mRelocScore := W.score F.mBowVec (W.mBowVec k) }
      else st.kf k := by
  unfold relocScoreStep
  by_cases h : (st.kf x).mnRelocWords > mcw
  · by_cases hk : k = x
    · subst hk
      simp only [h, if_true, true_and, Function.update_same]
    · simp only [h, if_true, hk, false_and, if_false, Function.update_noteq (Ne.intro hk)]
  · simp only [h, if_false, and_false]

theorem relocScoreStep_list (W : World) (F : Frame) (mcw : Int) (st : Scored) (x : KeyFrame) :
    (relocScoreStep W F mcw st x).lScoreAndMatch =
      if (st.kf x).mnRelocWords > mcw
      then st.lScoreAndMatch ++ [(W.score F.mBowVec (W.mBowVec x), x)]
      else st.lScoreAndMatch := by
  unfold relocScoreStep
  split_ifs <;> rfl

/-- Scratch records after the scoring loop of `DetectRelocalizationCandidates`. -/
theorem foldl_relocScoreStep_kf (W : World) (F : Frame) (mcw : Int)
    (l : List KeyFrame) (st : Scored) (k : KeyFrame) :
    (l.foldl (relocScoreStep W F mcw) st).kf k =
      if k ∈ l ∧ (st.kf k).mnRelocWords > mcw
      then { st.kf k with mRelocScore := W.score F.mBowVec (W.mBowVec k) }
      else st.kf k := by
  induction l generalizing st with
  | nil => simp
  | cons x l ih =>
    rw [List.foldl_cons, ih, relocScoreStep_kf]
    by_cases hx : k = x
    · subst hx
      by_cases hw : (st.kf k).mnRelocWords > mcw
      · simp [hw]
      · simp [hw]
    · by_cases hl : k ∈ l
      · simp [hx, hl]
      · simp [hx, hl]

/-- The scored list of `DetectRelocalizationCandidates`: every listed keyframe whose counter
passes, with its score. -/
theorem foldl_relocScoreStep_list (W : World) (F : Frame) (mcw : Int)
    (l : List KeyFrame) (st : Scored) :
    (l.foldl (relocScoreStep W F mcw) st).lScoreAndMatch =
      st.lScoreAndMatch ++
        (l.filter (fun x => (st.kf x).mnRelocWords > mcw)).map
          (fun x => (W.score F.mBowVec (W.mBowVec x), x)) := by
  induction l generalizing st with
  | nil => simp
  | cons x l ih =>
    rw [List.foldl_cons, ih, relocScoreStep_list]
    have hw : ∀ y, ((relocScoreStep W F mcw st x).kf y).mnRelocWords
        = (st.kf y).mnRelocWords := by
      intro y
      rw [relocScoreStep_kf]
      split_ifs <;> rfl
    simp only [hw]
    by_cases hc : (st.kf x).mnRelocWords > mcw
    · rw [if_pos hc, List.filter_cons_of_pos (by simpa using hc)]
      simp
    · rw [if_neg hc, List.filter_cons_of_neg (by simpa using hc)]

/-! ## The gather phase of `DetectLoopCandidates` -/

theorem loopVisit_list (conn : List KeyFrame) (qId : Nat) (g : Gather) (x : KeyFrame) :
    (loopVisit conn qId g x).lKFsSharingWords =
      if (g.kf x).mnLoopQuery ≠ qId ∧ x ∉ conn then g.lKFsSharingWords ++ [x]
      else g.lKFsSharingWords := by
  unfold loopVisit
  by_cases h : (g.kf x).mnLoopQuery = qId
  · simp [h]
  · by_cases hc : x ∈ conn
    · simp [h, hc]
    · simp [h, hc]

theorem loopVisit_tag (conn : List KeyFrame) (qId : Nat) (g : Gather) (x k : KeyFrame) :
    ((loopVisit conn qId g x).kf k).mnLoopQuery =
      if k = x ∧ x ∉ conn then qId else (g.kf k).mnLoopQuery := by
  unfold loopVisit
  by_cases hk : k = x
  · subst hk
    by_cases h : (g.kf k).mnLoopQuery = qId
    · by_cases hc : k ∈ conn
      · simp [h, hc]
      · simp [h, hc]
    · by_cases hc : k ∈ conn
      · simp [h, hc]
      · simp [h, hc]
  · simp only [Function.update_noteq hk]
    split_ifs <;> simp_all [Function.update_noteq hk]

theorem loopVisit_words (conn : List KeyFrame) (qId : Nat) (g : Gather) (x k : KeyFrame) :
    ((loopVisit conn qId g x).kf k).mnLoopWords =
      if k = x then (if (g.kf x).mnLoopQuery ≠ qId then 1 else (g.kf x).mnLoopWords + 1)
      else (g.kf k).mnLoopWords := by
  unfold loopVisit
  by_cases hk : k = x
  · subst hk
    by_cases h : (g.kf k).mnLoopQuery = qId
    · simp [h]
    · by_cases hc : k ∈ conn
      · simp [h, hc]
      · simp [h, hc]
  · simp only [Function.update_noteq hk]
    split_ifs <;> simp_all [Function.update_noteq hk]

theorem loopVisit_score (conn : List KeyFrame) (qId : Nat) (g : Gather) (x k : KeyFrame) :
    ((loopVisit conn qId g x).kf k).mLoopScore = (g.kf k).mLoopScore := by
  unfold loopVisit
  by_cases hk : k = x
  · subst hk
    by_cases h : (g.kf k).mnLoopQuery = qId
    · simp [h]
    · by_cases hc : k ∈ conn
      · simp [h, hc]
      · simp [h, hc]
  · simp only [Function.update_noteq hk]
    split_ifs <;> simp_all [Function.update_noteq hk]

/-- Tag of a keyframe after the gather phase: the query id for the scanned keyframes that are
not connected to the query, the old tag for all others. -/
theorem foldl_loopVisit_tag (conn : List KeyFrame) (qId : Nat) (vs : List KeyFrame)
    (g : Gather) (k : KeyFrame) :
    ((vs.foldl (loopVisit conn qId) g).kf k).mnLoopQuery =
      if k ∈ vs ∧ k ∉ conn then qId else (g.kf k).mnLoopQuery := by
  induction vs generalizing g with
  | nil => simp
  | cons x vs ih =>
    rw [List.foldl_cons, ih, loopVisit_tag]
    by_cases hk : k = x
    · subst hk
      by_cases hc : k ∈ conn
      · simp [hc]
      · simp [hc]
    · simp [hk]

/-- Members of `lKFsSharingWords` after the gather phase. -/
theorem mem_foldl_loopVisit (conn : List KeyFrame) (qId : Nat) (vs : List KeyFrame)
    (g : Gather) (k : KeyFrame) :
    k ∈ (vs.foldl (loopVisit conn qId) g).lKFsSharingWords ↔
      k ∈ g.lKFsSharingWords ∨ (k ∈ vs ∧ k ∉ conn ∧ (g.kf k).mnLoopQuery ≠ qId) := by
  induction vs generalizing g with
  | nil => simp
  | cons x vs ih =>
    rw [List.foldl_cons, ih, loopVisit_list, loopVisit_tag]
    by_cases hk : k = x
    · subst hk
      by_cases hc : k ∈ conn
      · simp [hc]
      · by_cases ht : (g.kf k).mnLoopQuery = qId
        · simp [hc, ht]
        · simp [hc, ht]
    · by_cases hx : (g.kf x).mnLoopQuery ≠ qId ∧ x ∉ conn
      · simp [hk, hx]
      · simp only [hk, hx, if_false, false_and, List.mem_cons, false_or]

theorem nodup_foldl_loopVisit (conn : List KeyFrame) (qId : Nat) (vs : List KeyFrame)
    (g : Gather) (hn : g.lKFsSharingWords.Nodup)
    (ht : ∀ k ∈ g.lKFsSharingWords, (g.kf k).mnLoopQuery = qId) :
    (vs.foldl (loopVisit conn qId) g).lKFsSharingWords.Nodup := by
  induction vs generalizing g with
  | nil => exact hn
  | cons x vs ih =>
    rw [List.foldl_cons]
    apply ih
    · rw [loopVisit_list]
      by_cases hx : (g.kf x).mnLoopQuery ≠ qId ∧ x ∉ conn
      · rw [if_pos hx]
        have hxl : x ∉ g.lKFsSharingWords := fun hm => hx.1 (ht x hm)
        exact List.Nodup.append hn (List.nodup_singleton _) (by simpa using hxl)
      · rw [if_neg hx]
        exact hn
    · intro k hk
      rw [loopVisit_tag]
      rw [loopVisit_list] at hk
      by_cases hx : (g.kf x).mnLoopQuery ≠ qId ∧ x ∉ conn
      · rw [if_pos hx] at hk
        rcases List.mem_append.1 hk with h1 | h1
        · split_ifs
          · rfl
          · exact ht k h1
        · have hkx : k = x := by simpa using h1
          rw [if_pos ⟨hkx, hx.2⟩]
      · rw [if_neg hx] at hk
        split_ifs
        · rfl
        · exact ht k hk

theorem words_pos_foldl_loopVisit (conn : List KeyFrame) (qId : Nat) (vs : List KeyFrame)
    (g : Gather) (hw : ∀ k ∈ g.lKFsSharingWords, 1 ≤ (g.kf k).mnLoopWords) :
    ∀ k ∈ (vs.foldl (loopVisit conn qId) g).lKFsSharingWords,
      1 ≤ ((vs.foldl (loopVisit conn qId) g).kf k).mnLoopWords := by
  induction vs generalizing g with
  | nil => exact hw
  | cons x vs ih =>
    rw [List.foldl_cons]
    apply ih
    intro k hk
    rw [loopVisit_words]
    rw [loopVisit_list] at hk
    by_cases hkx : k = x
    · subst hkx
      rw [if_pos rfl]
      by_cases ht : (g.kf k).mnLoopQuery = qId
      · have hk2 : k ∈ g.lKFsSharingWords := by simpa [ht] using hk
        have := hw k hk2
        simp only [ht, ne_eq, not_true_eq_false, if_false]
        omega
      · simp [ht]
    · rw [if_neg hkx]
      apply hw
      by_cases hx : (g.kf x).mnLoopQuery ≠ qId ∧ x ∉ conn
      · rw [if_pos hx] at hk
        rcases List.mem_append.1 hk with h1 | h1
        · exact h1
        · exact absurd (by simpa using h1) hkx
      · rw [if_neg hx] at hk
        exact hk

/-! ## `DetectLoopCandidates` through its stages -/

theorem loopGathered_eq (W : World) (inv : InvertedFile) (kf : KFState) (pKF : KeyFrame) :
    loopGathered W inv kf pKF =
      (visited inv (W.mBowVec pKF).words).foldl
        (loopVisit (W.GetConnectedKeyFrames pKF) (W.mnId pKF)) ⟨kf, []⟩ := by
  unfold loopGathered
  rw [loopGather_eq]

theorem loopScored_list (W : World) (inv : InvertedFile) (kf : KFState) (pKF : KeyFrame)
    (minScore : ℚ) :
    (loopScored W inv kf pKF minScore).lScoreAndMatch =
      ((loopGathered W inv kf pKF).lKFsSharingWords.filter
        (fun x => ((loopGathered W inv kf pKF).kf x).mnLoopWords > loopMinCommonWords W inv kf pKF ∧
          W.score (W.mBowVec pKF) (W.mBowVec x) ≥ minScore)).map
        (fun x => (W.score (W.mBowVec pKF) (W.mBowVec x), x)) := by
  unfold loopScored loopScore
  rw [foldl_loopScoreStep_list]
  simp

theorem loopScored_kf (W : World) (inv : InvertedFile) (kf : KFState) (pKF : KeyFrame)
    (minScore : ℚ) (k : KeyFrame) :
    (loopScored W inv kf pKF minScore).kf k =
      if k ∈ (loopGathered W inv kf pKF).lKFsSharingWords ∧
          ((loopGathered W inv kf pKF).kf k).mnLoopWords > loopMinCommonWords W inv kf pKF
      then { (loopGathered W inv kf pKF).kf k with
        mLoopScore := W.score (W.mBowVec pKF) (W.mBowVec k) }
      else (loopGathered W inv kf pKF).kf k := by
  unfold loopScored loopScore
  rw [foldl_loopScoreStep_kf]

theorem loopScored_tag (W : World) (inv : InvertedFile) (kf : KFState) (pKF : KeyFrame)
    (minScore : ℚ) (k : KeyFrame) :
    ((loopScored W inv kf pKF minScore).kf k).mnLoopQuery
      = ((loopGathered W inv kf pKF).kf k).mnLoopQuery := by
  rw [loopScored_kf]
  split_ifs <;> rfl

theorem loopScored_words (W : World) (inv : InvertedFile) (kf : KFState) (pKF : KeyFrame)
    (minScore : ℚ) (k : KeyFrame) :
    ((loopScored W inv kf pKF minScore).kf k).mnLoopWords
      = ((loopGathered W inv kf pKF).kf k).mnLoopWords := by
  rw [loopScored_kf]
  split_ifs <;> rfl

/-- The scratch records after the scoring loop do not depend on `minScore`. -/
theorem loopScored_kf_indep (W : World) (inv : InvertedFile) (kf : KFState) (pKF : KeyFrame)
    (m1 m2 : ℚ) : (loopScored W inv kf pKF m1).kf = (loopScored W inv kf pKF m2).kf := by
  funext k
  rw [loopScored_kf, loopScored_kf]

theorem loopAccumulated_list (W : World) (inv : InvertedFile) (kf : KFState) (pKF : KeyFrame)
    (minScore : ℚ) :
    (loopAccumulated W inv kf pKF minScore).lAccScoreAndMatch =
      (loopScored W inv kf pKF minScore).lScoreAndMatch.map
        (loopGroup W (loopScored W inv kf pKF minScore).kf (W.mnId pKF)
          (loopMinCommonWords W inv kf pKF)) := by
  unfold loopAccumulated
  rw [foldl_loopAccStep_list]
  simp

/-- The returned vector, by the two early returns and the final loop. -/
theorem DetectLoopCandidates_result (W : World) (inv : InvertedFile) (kf : KFState)
    (pKF : KeyFrame) (minScore : ℚ) :
    (DetectLoopCandidates W inv kf pKF minScore).result =
      if (loopGathered W inv kf pKF).lKFsSharingWords.isEmpty then []
      else if (loopScored W inv kf pKF minScore).lScoreAndMatch.isEmpty then []
      else ((loopAccumulated W inv kf pKF minScore).lAccScoreAndMatch.foldl
        (retainStep ((3 / 4 : ℚ) * (loopAccumulated W inv kf pKF minScore).bestAccScore))
        ⟨[], []⟩).vpCandidates := by
  show (if (loopGathered W inv kf pKF).lKFsSharingWords.isEmpty then
      (⟨[], (loopGather W inv kf pKF).1, (loopGathered W inv kf pKF).kf⟩ : SearchResult)
    else if (loopScored W inv kf pKF minScore).lScoreAndMatch.isEmpty then
      ⟨[], (loopGather W inv kf pKF).1, (loopScored W inv kf pKF minScore).kf⟩
    else
      ⟨((loopAccumulated W inv kf pKF minScore).lAccScoreAndMatch.foldl
        (retainStep ((3 / 4 : ℚ) * (loopAccumulated W inv kf pKF minScore).bestAccScore))
        ⟨[], []⟩).vpCandidates, (loopGather W inv kf pKF).1,
        (loopScored W inv kf pKF minScore).kf⟩).result = _
  split_ifs <;> rfl

/-- A keyframe is returned exactly when it is the best keyframe of a group whose accumulated
score is above the retain threshold. -/
theorem mem_DetectLoopCandidates (W : World) (inv : InvertedFile) (kf : KFState)
    (pKF : KeyFrame) (minScore : ℚ) (k : KeyFrame) :
    k ∈ (DetectLoopCandidates W inv kf pKF minScore).result ↔
      ∃ p ∈ (loopAccumulated W inv kf pKF minScore).lAccScoreAndMatch,
        p.1 > (3 / 4 : ℚ) * (loopAccumulated W inv kf pKF minScore).bestAccScore ∧ p.2 = k := by
  rw [DetectLoopCandidates_result]
  by_cases h1 : (loopGathered W inv kf pKF).lKFsSharingWords.isEmpty
  · have h2 : (loopAccumulated W inv kf pKF minScore).lAccScoreAndMatch = [] := by
      rw [loopAccumulated_list, loopScored_list, List.isEmpty_iff.1 h1]
      rfl
    rw [if_pos h1, h2]
    simp
  · rw [if_neg h1]
    by_cases h2 : (loopScored W inv kf pKF minScore).lScoreAndMatch.isEmpty
    · have h3 : (loopAccumulated W inv kf pKF minScore).lAccScoreAndMatch = [] := by
        rw [loopAccumulated_list, List.isEmpty_iff.1 h2]
        rfl
      rw [if_pos h2, h3]
      simp
    · rw [if_neg h2, mem_retained]

theorem nodup_DetectLoopCandidates (W : World) (inv : InvertedFile) (kf : KFState)
    (pKF : KeyFrame) (minScore : ℚ) :
    (DetectLoopCandidates W inv kf pKF minScore).result.Nodup := by
  rw [DetectLoopCandidates_result]
  split_ifs
  · exact List.nodup_nil
  · exact List.nodup_nil
  · exact nodup_foldl_retainStep _ _ _ rfl List.nodup_nil

/-- The best keyframe of a loop group is the head, or a keyframe carrying the tag of the
query after the gather phase. -/
theorem loopGroup_best (W : World) (kf : KFState) (qId : Nat) (mcw : Int) (it : ℚ × KeyFrame) :
    (loopGroup W kf qId mcw it).2 = it.2 ∨
      ((loopGroup W kf qId mcw it).2 ∈ W.GetBestCovisibilityKeyFrames it.2 10 ∧
        (kf (loopGroup W kf qId mcw it).2).mnLoopQuery = qId ∧
        (kf (loopGroup W kf qId mcw it).2).mnLoopWords > mcw ∧
        (kf (loopGroup W kf qId mcw it).2).mLoopScore > it.1) := by
  unfold loopGroup
  rcases foldl_loopNeighStep_best kf qId mcw (W.GetBestCovisibilityKeyFrames it.2 10)
    ⟨it.1, it.1, it.2⟩ with h | h
  · exact Or.inl h.1
  · right
    refine ⟨h.1, h.2.1, h.2.2.1, ?_⟩
    rw [h.2.2.2.1]
    exact h.2.2.2.2

/-- C1, as stated, fails: with the scratch records `staleKf`, in which the connected keyframe
2 carries the tag of the query from an earlier call (the last conjunct shows such a call),
`DetectLoopCandidates` returns keyframe 2, the better-scoring neighbour of candidate 1. -/
theorem loop_returns_connected_keyframe_with_stale_tag :
    (DetectLoopCandidates staleW idxInv staleKf 5 (1 / 8)).result = [2] ∧
    2 ∈ staleW.GetConnectedKeyFrames 5 ∧
    (DetectLoopCandidates staleW0 staleInv0 freshKf 5 (1 / 8)).kf 2
      = staleKf 2 := by
  decide!

/-- C1, amended: when no keyframe connected to the query `Q` carries a loop tag equal to
`Q`'s id before the call, no keyframe of `Q.GetConnectedKeyFrames()` occurs in the vector
returned by `DetectLoopCandidates(Q, minScore)`, for every index, every `minScore` and every
such scratch state. -/
theorem loop_excludes_connected (W : World) (inv : InvertedFile) (kf : KFState)
    (Q : KeyFrame) (minScore : ℚ)
    (h : ∀ k ∈ W.GetConnectedKeyFrames Q, (kf k).mnLoopQuery ≠ W.mnId Q) :
    ∀ k ∈ (DetectLoopCandidates W inv kf Q minScore).result,
      k ∉ W.GetConnectedKeyFrames Q := by
  intro k hk hc
  rw [mem_DetectLoopCandidates] at hk
  obtain ⟨p, hp, -, hpk⟩ := hk
  rw [loopAccumulated_list, List.mem_map] at hp
  obtain ⟨it, hit, hg⟩ := hp
  rw [loopScored_list, List.mem_map] at hit
  obtain ⟨x, hx, hxi⟩ := hit
  have hxl := (List.mem_filter.1 hx).1
  rw [loopGathered_eq, mem_foldl_loopVisit] at hxl
  have hrep := loopGroup_best W (loopScored W inv kf Q minScore).kf (W.mnId Q)
    (loopMinCommonWords W inv kf Q) it
  rw [hg, hpk] at hrep
  rcases hrep with h1 | h1
  · rw [← hxi] at h1
    rcases hxl with h2 | h2
    · simp at h2
    · apply h2.2.1
      have h3 : x = k := h1.symm
      rw [h3]
      exact hc
  · have h2 := h1.2.1
    rw [loopScored_tag, loopGathered_eq, foldl_loopVisit_tag] at h2
    by_cases h3 : k ∈ visited inv (W.mBowVec Q).words ∧ k ∉ W.GetConnectedKeyFrames Q
    · exact h3.2 hc
    · rw [if_neg h3] at h2
      exact h k hc h2

/-- Witness for C1: the stale-tag world with the scratch records as constructed; keyframe 1
is returned, the connected keyframe 2 is not. -/
theorem loop_excludes_connected_witness :
    (∀ k ∈ staleW.GetConnectedKeyFrames 5,
      (freshKf k).mnLoopQuery ≠ staleW.mnId 5) ∧
    (DetectLoopCandidates staleW idxInv freshKf 5 (1 / 8)).result = [1] ∧
    ∀ k ∈ (DetectLoopCandidates staleW idxInv freshKf 5 (1 / 8)).result,
      k ∉ staleW.GetConnectedKeyFrames 5 :=
  ⟨by decide, by decide!,
    loop_excludes_connected staleW idxInv freshKf 5 (1 / 8) (by decide)⟩

/-- Raising `minScore` keeps a sublist of the scored list. -/
theorem loopScored_list_sublist (W : World) (inv : InvertedFile) (kf : KFState) (Q : KeyFrame)
    (m1 m2 : ℚ) (h : m1 ≤ m2) :
    (loopScored W inv kf Q m2).lScoreAndMatch.Sublist (loopScored W inv kf Q m1).lScoreAndMatch := by
  rw [loopScored_list, loopScored_list]
  apply List.Sublist.map
  have hf : ∀ l : List KeyFrame,
      l.filter (fun x => ((loopGathered W inv kf Q).kf x).mnLoopWords > loopMinCommonWords W inv kf Q ∧
          W.score (W.mBowVec Q) (W.mBowVec x) ≥ m2)
      = (l.filter (fun x => ((loopGathered W inv kf Q).kf x).mnLoopWords
            > loopMinCommonWords W inv kf Q ∧ W.score (W.mBowVec Q) (W.mBowVec x) ≥ m1)).filter
          (fun x => ((loopGathered W inv kf Q).kf x).mnLoopWords > loopMinCommonWords W inv kf Q ∧
            W.score (W.mBowVec Q) (W.mBowVec x) ≥ m2) := by
    intro l
    rw [List.filter_filter]
    apply List.filter_congr
    intro x _
    by_cases h2 : W.score (W.mBowVec Q) (W.mBowVec x) ≥ m2
    · have h1 : W.score (W.mBowVec Q) (W.mBowVec x) ≥ m1 := le_trans h h2
      simp [h1, h2]
    · simp [h2]
  rw [hf]
  exact List.filter_sublist _

/-- C2, as stated, fails: from the scratch records as constructed, raising `minScore` from
1/4 to 5/8 changes the returned vector from keyframes 1 and 3 to keyframe 2; the group of
keyframes 1 and 3 (accumulated score 1) no longer sets the retain threshold. -/
theorem loop_threshold_not_monotone :
    (1 / 4 : ℚ) ≤ 5 / 8 ∧
    (DetectLoopCandidates thrW thrInv freshKf 5 (1 / 4)).result = [1, 3] ∧
    (DetectLoopCandidates thrW thrInv freshKf 5 (5 / 8)).result = [2] ∧
    ¬ (∀ k ∈ (DetectLoopCandidates thrW thrInv freshKf 5 (5 / 8)).result,
        k ∈ (DetectLoopCandidates thrW thrInv freshKf 5 (1 / 4)).result) := by
  decide!

/-- C2, amended: for `m1 ≤ m2` and the same index, query and scratch state, when the run
with `m2`, if its scored list is not empty, ends its accumulation loop with a `bestAccScore`
not below that of the run with `m1` (the retain threshold does not drop): the scored list of
the run with `m2` is a sublist of that of the run with `m1`, every keyframe returned with
`m2` is returned with `m1`, and the vector returned with `m2` is no longer. -/
theorem loop_threshold_monotone_of_best_kept (W : World) (inv : InvertedFile) (kf : KFState)
    (Q : KeyFrame) (m1 m2 : ℚ) (h : m1 ≤ m2)
    (hb : (loopScored W inv kf Q m2).lScoreAndMatch ≠ [] →
      (loopAccumulated W inv kf Q m1).bestAccScore
        ≤ (loopAccumulated W inv kf Q m2).bestAccScore) :
    (loopScored W inv kf Q m2).lScoreAndMatch.Sublist
      (loopScored W inv kf Q m1).lScoreAndMatch ∧
    (∀ k ∈ (DetectLoopCandidates W inv kf Q m2).result,
      k ∈ (DetectLoopCandidates W inv kf Q m1).result) ∧
    (DetectLoopCandidates W inv kf Q m2).result.length
      ≤ (DetectLoopCandidates W inv kf Q m1).result.length := by
  have hsub := loopScored_list_sublist W inv kf Q m1 m2 h
  refine ⟨hsub, ?_⟩
  have hmem : ∀ k ∈ (DetectLoopCandidates W inv kf Q m2).result,
      k ∈ (DetectLoopCandidates W inv kf Q m1).result := by
    intro k hk
    rw [mem_DetectLoopCandidates] at hk ⊢
    obtain ⟨p, hp, hgt, hpk⟩ := hk
    have hne : (loopScored W inv kf Q m2).lScoreAndMatch ≠ [] := by
      intro h0
      rw [loopAccumulated_list, h0] at hp
      simp at hp
    have hb2 := hb hne
    refine ⟨p, ?_, ?_, hpk⟩
    · rw [loopAccumulated_list, List.mem_map] at hp ⊢
      obtain ⟨it, hit, hg⟩ := hp
      refine ⟨it, hsub.subset hit, ?_⟩
      rw [loopScored_kf_indep W inv kf Q m1 m2]
      exact hg
    · have : (3 / 4 : ℚ) * (loopAccumulated W inv kf Q m1).bestAccScore
          ≤ (3 / 4 : ℚ) * (loopAccumulated W inv kf Q m2).bestAccScore := by linarith
      exact lt_of_le_of_lt this hgt
  refine ⟨hmem, ?_⟩
  exact (List.subperm_of_subset (nodup_DetectLoopCandidates W inv kf Q m2) hmem).length_le

/-- Witness for C2: the threshold example with `minScore` raised from 1/4 to 1/2; keyframes 1
and 3 stay in the scored list and `bestAccScore` is 1 in both runs. -/
theorem loop_threshold_monotone_of_best_kept_witness :
    (1 / 4 : ℚ) ≤ 1 / 2 ∧
    (loopScored thrW thrInv freshKf 5 (1 / 2)).lScoreAndMatch ≠ [] ∧
    (loopAccumulated thrW thrInv freshKf 5 (1 / 4)).bestAccScore
      ≤ (loopAccumulated thrW thrInv freshKf 5 (1 / 2)).bestAccScore ∧
    (loopScored thrW thrInv freshKf 5 (1 / 2)).lScoreAndMatch.Sublist
      (loopScored thrW thrInv freshKf 5 (1 / 4)).lScoreAndMatch ∧
    (∀ k ∈ (DetectLoopCandidates thrW thrInv freshKf 5 (1 / 2)).result,
      k ∈ (DetectLoopCandidates thrW thrInv freshKf 5 (1 / 4)).result) ∧
    (DetectLoopCandidates thrW thrInv freshKf 5 (1 / 2)).result.length
      ≤ (DetectLoopCandidates thrW thrInv freshKf 5 (1 / 4)).result.length :=
  ⟨by decide!, by decide!, by decide!, loop_threshold_monotone_of_best_kept thrW thrInv
    freshKf 5 (1 / 4) (1 / 2) (by decide!) (fun _ => by decide!)⟩

/-! ## The gather phase of the relocalization searches -/

theorem relocVisit_list (fId : Nat) (g : Gather) (x : KeyFrame) :
    (relocVisit fId g x).lKFsSharingWords =
      if (g.kf x).mnRelocQuery ≠ fId then g.lKFsSharingWords ++ [x]
      else g.lKFsSharingWords := by
  unfold relocVisit
  by_cases h : (g.kf x).mnRelocQuery = fId
  · simp [h]
  · simp [h]

theorem relocVisit_tag (fId : Nat) (g : Gather) (x k : KeyFrame) :
    ((relocVisit fId g x).kf k).mnRelocQuery =
      if k = x then fId else (g.kf k).mnRelocQuery := by
  unfold relocVisit
  by_cases hk : k = x
  · subst hk
    by_cases h : (g.kf k).mnRelocQuery = fId
    · simp [h]
    · simp [h]
  · simp only [Function.update_noteq hk]
    split_ifs <;> simp_all [Function.update_noteq hk]

theorem relocVisit_words (fId : Nat) (g : Gather) (x k : KeyFrame) :
    ((relocVisit fId g x).kf k).mnRelocWords =
      if k = x then (if (g.kf x).mnRelocQuery ≠ fId then 1 else (g.kf x).mnRelocWords + 1)
      else (g.kf k).mnRelocWords := by
  unfold relocVisit
  by_cases hk : k = x
  · subst hk
    by_cases h : (g.kf k).mnRelocQuery = fId
    · simp [h]
    · simp [h]
  · simp only [Function.update_noteq hk]
    split_ifs <;> simp_all [Function.update_noteq hk]

theorem relocVisit_score (fId : Nat) (g : Gather) (x k : KeyFrame) :
    ((relocVisit fId g x).kf k).mRelocScore = (g.kf k).mRelocScore := by
  unfold relocVisit
  by_cases hk : k = x
  · subst hk
    by_cases h : (g.kf k).mnRelocQuery = fId
    · simp [h]
    · simp [h]
  · simp only [Function.update_noteq hk]
    split_ifs <;> simp_all [Function.update_noteq hk]

/-- Tag of a keyframe after the gather phase of a relocalization search. -/
theorem foldl_relocVisit_tag (fId : Nat) (vs : List KeyFrame) (g : Gather) (k : KeyFrame) :
    ((vs.foldl (relocVisit fId) g).kf k).mnRelocQuery =
      if k ∈ vs then fId else (g.kf k).mnRelocQuery := by
  induction vs generalizing g with
  | nil => simp
  | cons x vs ih =>
    rw [List.foldl_cons, ih, relocVisit_tag]
    by_cases hk : k = x
    · subst hk
      simp
    · simp [hk]

/-- Members of `lKFsSharingWords` after the gather phase of a relocalization search. -/
theorem mem_foldl_relocVisit (fId : Nat) (vs : List KeyFrame) (g : Gather) (k : KeyFrame) :
    k ∈ (vs.foldl (relocVisit fId) g).lKFsSharingWords ↔
      k ∈ g.lKFsSharingWords ∨ (k ∈ vs ∧ (g.kf k).mnRelocQuery ≠ fId) := by
  induction vs generalizing g with
  | nil => simp
  | cons x vs ih =>
    rw [List.foldl_cons, ih, relocVisit_list, relocVisit_tag]
    by_cases hk : k = x
    · subst hk
      by_cases ht : (g.kf k).mnRelocQuery = fId
      · simp [ht]
      · simp [ht]
    · by_cases hx : (g.kf x).mnRelocQuery ≠ fId
      · simp [hk, hx]
      · simp only [hk, hx, if_false, List.mem_cons, false_or]

theorem nodup_foldl_relocVisit (fId : Nat) (vs : List KeyFrame)
    (g : Gather) (hn : g.lKFsSharingWords.Nodup)
    (ht : ∀ k ∈ g.lKFsSharingWords, (g.kf k).mnRelocQuery = fId) :
    (vs.foldl (relocVisit fId) g).lKFsSharingWords.Nodup := by
  induction vs generalizing g with
  | nil => exact hn
  | cons x vs ih =>
    rw [List.foldl_cons]
    apply ih
    · rw [relocVisit_list]
      by_cases hx : (g.kf x).mnRelocQuery ≠ fId
      · rw [if_pos hx]
        have hxl : x ∉ g.lKFsSharingWords := fun hm => hx (ht x hm)
        exact List.Nodup.append hn (List.nodup_singleton _) (by simpa using hxl)
      · rw [if_neg hx]
        exact hn
    · intro k hk
      rw [relocVisit_tag]
      rw [relocVisit_list] at hk
      by_cases hx : (g.kf x).mnRelocQuery ≠ fId
      · rw [if_pos hx] at hk
        rcases List.mem_append.1 hk with h1 | h1
        · split_ifs
          · rfl
          · exact ht k h1
        · have hkx : k = x := by simpa using h1
          rw [if_pos hkx]
      · rw [if_neg hx] at hk
        split_ifs
        · rfl
        · exact ht k hk

theorem words_pos_foldl_relocVisit (fId : Nat) (vs : List KeyFrame)
    (g : Gather) (hw : ∀ k ∈ g.lKFsSharingWords, 1 ≤ (g.kf k).mnRelocWords) :
    ∀ k ∈ (vs.foldl (relocVisit fId) g).lKFsSharingWords,
      1 ≤ ((vs.foldl (relocVisit fId) g).kf k).mnRelocWords := by
  induction vs generalizing g with
  | nil => exact hw
  | cons x vs ih =>
    rw [List.foldl_cons]
    apply ih
    intro k hk
    rw [relocVisit_words]
    rw [relocVisit_list] at hk
    by_cases hkx : k = x
    · subst hkx
      rw [if_pos rfl]
      by_cases ht : (g.kf k).mnRelocQuery = fId
      · have hk2 : k ∈ g.lKFsSharingWords := by simpa [ht] using hk
        have := hw k hk2
        simp only [ht, ne_eq, not_true_eq_false, if_false]
        omega
      · simp [ht]
    · rw [if_neg hkx]
      apply hw
      by_cases hx : (g.kf x).mnRelocQuery ≠ fId
      · rw [if_pos hx] at hk
        rcases List.mem_append.1 hk with h1 | h1
        · exact h1
        · exact absurd (by simpa using h1) hkx
      · rw [if_neg hx] at hk
        exact hk

theorem relocGathered_eq (inv : InvertedFile) (kf : KFState) (F : Frame) :
    relocGathered inv kf F =
      (visited inv F.mBowVec.words).foldl (relocVisit F.mnId) ⟨kf, []⟩ := by
  unfold relocGathered
  rw [relocGather_eq]

/-- With fresh tags the gathered list holds exactly the scanned keyframes. -/
theorem mem_relocGathered_of_fresh (inv : InvertedFile) (kf : KFState) (F : Frame)
    (hf : ∀ k, (kf k).mnRelocQuery ≠ F.mnId) (k : KeyFrame) :
    k ∈ (relocGathered inv kf F).lKFsSharingWords ↔ k ∈ visited inv F.mBowVec.words := by
  rw [relocGathered_eq, mem_foldl_relocVisit]
  simp [hf k]

theorem nodup_relocGathered (inv : InvertedFile) (kf : KFState) (F : Frame) :
    (relocGathered inv kf F).lKFsSharingWords.Nodup := by
  rw [relocGathered_eq]
  apply nodup_foldl_relocVisit
  · exact List.nodup_nil
  · intro k hk
    simp at hk

theorem relocScored_list (W : World) (inv : InvertedFile) (kf : KFState) (F : Frame) :
    (relocScored W inv kf F).lScoreAndMatch =
      ((relocGathered inv kf F).lKFsSharingWords.filter
        (fun x => ((relocGathered inv kf F).kf x).mnRelocWords > relocMinCommonWords inv kf F)).map
        (fun x => (W.score F.mBowVec (W.mBowVec x), x)) := by
  unfold relocScored relocScore
  rw [foldl_relocScoreStep_list]
  simp

theorem relocScored_kf (W : World) (inv : InvertedFile) (kf : KFState) (F : Frame)
    (k : KeyFrame) :
    (relocScored W inv kf F).kf k =
      if k ∈ (relocGathered inv kf F).lKFsSharingWords ∧
          ((relocGathered inv kf F).kf k).mnRelocWords > relocMinCommonWords inv kf F
      then { (relocGathered inv kf F).kf k with
        mRelocScore := W.score F.mBowVec (W.mBowVec k) }
      else (relocGathered inv kf F).kf k := by
  unfold relocScored relocScore
  rw [foldl_relocScoreStep_kf]

theorem relocScored_tag (W : World) (inv : InvertedFile) (kf : KFState) (F : Frame)
    (k : KeyFrame) :
    ((relocScored W inv kf F).kf k).mnRelocQuery
      = ((relocGathered inv kf F).kf k).mnRelocQuery := by
  rw [relocScored_kf]
  split_ifs <;> rfl

theorem relocAccumulated_list (W : World) (inv : InvertedFile) (kf : KFState) (F : Frame) :
    (relocAccumulated W inv kf F).lAccScoreAndMatch =
      (relocScored W inv kf F).lScoreAndMatch.map
        (relocGroup W (relocScored W inv kf F).kf F.mnId) := by
  unfold relocAccumulated
  rw [foldl_relocAccStep_list]
  simp

theorem relocAccumulated_best (W : World) (inv : InvertedFile) (kf : KFState) (F : Frame) :
    (relocAccumulated W inv kf F).bestAccScore =
      ((relocAccumulated W inv kf F).lAccScoreAndMatch.map Prod.fst).foldl max 0 := by
  rw [relocAccumulated_list]
  unfold relocAccumulated
  rw [foldl_relocAccStep_best, List.map_map]
  rfl

/-- The returned vector, by the two early returns and the final loop. -/
theorem DetectRelocalizationCandidates_result (W : World) (inv : InvertedFile) (kf : KFState)
    (F : Frame) :
    (DetectRelocalizationCandidates W inv kf F).result =
      if (relocGathered inv kf F).lKFsSharingWords.isEmpty then []
      else if (relocScored W inv kf F).lScoreAndMatch.isEmpty then []
      else ((relocAccumulated W inv kf F).lAccScoreAndMatch.foldl
        (retainStep (toFloat ((3 / 4 : ℚ) * (relocAccumulated W inv kf F).bestAccScore)))
        ⟨[], []⟩).vpCandidates := by
  show (if (relocGathered inv kf F).lKFsSharingWords.isEmpty then
      (⟨[], (relocGather inv kf F).1, (relocGathered inv kf F).kf⟩ : SearchResult)
    else if (relocScored W inv kf F).lScoreAndMatch.isEmpty then
      ⟨[], (relocGather inv kf F).1, (relocScored W inv kf F).kf⟩
    else
      ⟨((relocAccumulated W inv kf F).lAccScoreAndMatch.foldl
        (retainStep (toFloat ((3 / 4 : ℚ) * (relocAccumulated W inv kf F).bestAccScore)))
        ⟨[], []⟩).vpCandidates, (relocGather inv kf F).1,
        (relocScored W inv kf F).kf⟩).result = _
  split_ifs <;> rfl

/-- A keyframe is returned exactly when it is the best keyframe of a group whose accumulated
score is above the retain threshold. -/
theorem mem_DetectRelocalizationCandidates (W : World) (inv : InvertedFile) (kf : KFState)
    (F : Frame) (k : KeyFrame) :
    k ∈ (DetectRelocalizationCandidates W inv kf F).result ↔
      ∃ p ∈ (relocAccumulated W inv kf F).lAccScoreAndMatch,
        p.1 > toFloat ((3 / 4 : ℚ) * (relocAccumulated W inv kf F).bestAccScore) ∧
          p.2 = k := by
  rw [DetectRelocalizationCandidates_result]
  by_cases h1 : (relocGathered inv kf F).lKFsSharingWords.isEmpty
  · have h2 : (relocAccumulated W inv kf F).lAccScoreAndMatch = [] := by
      rw [relocAccumulated_list, relocScored_list, List.isEmpty_iff.1 h1]
      rfl
    rw [if_pos h1, h2]
    simp
  · rw [if_neg h1]
    by_cases h2 : (relocScored W inv kf F).lScoreAndMatch.isEmpty
    · have h3 : (relocAccumulated W inv kf F).lAccScoreAndMatch = [] := by
        rw [relocAccumulated_list, List.isEmpty_iff.1 h2]
        rfl
      rw [if_pos h2, h3]
      simp
    · rw [if_neg h2, mem_retained]

theorem nodup_DetectRelocalizationCandidates (W : World) (inv : InvertedFile) (kf : KFState)
    (F : Frame) : (DetectRelocalizationCandidates W inv kf F).result.Nodup := by
  rw [DetectRelocalizationCandidates_result]
  split_ifs
  · exact List.nodup_nil
  · exact List.nodup_nil
  · exact nodup_foldl_retainStep _ _ _ rfl List.nodup_nil

/-- The best keyframe of a relocalization group is the head, or a neighbour carrying the tag
of the frame with a stored score above that of the head. -/
theorem relocGroup_best (W : World) (kf : KFState) (fId : Nat) (it : ℚ × KeyFrame) :
    (relocGroup W kf fId it).2 = it.2 ∨
      ((relocGroup W kf fId it).2 ∈ W.GetBestCovisibilityKeyFrames it.2 10 ∧
        (kf (relocGroup W kf fId it).2).mnRelocQuery = fId ∧
        (kf (relocGroup W kf fId it).2).mRelocScore > it.1) := by
  unfold relocGroup
  rcases foldl_relocNeighStep_best kf fId (W.GetBestCovisibilityKeyFrames it.2 10)
    ⟨it.1, it.1, it.2⟩ with h | h
  · exact Or.inl h.1
  · right
    refine ⟨h.1, h.2.1, ?_⟩
    rw [h.2.2.1]
    exact h.2.2.2

/-- The accumulated score of a relocalization group is a normal `float` value when the score
of its head is one and the stored scores of the counted neighbours are not negative. -/
theorem relocGroup_normal (W : World) (kf : KFState) (fId : Nat) (it : ℚ × KeyFrame)
    (hn : ∀ n ∈ W.GetBestCovisibilityKeyFrames it.2 10,
      (kf n).mnRelocQuery = fId → 0 ≤ (kf n).mRelocScore)
    (ha : (2 : ℚ) ^ (-126 : Int) ≤ it.1) :
    (2 : ℚ) ^ (-126 : Int) ≤ (relocGroup W kf fId it).1 := by
  unfold relocGroup
  exact foldl_relocNeighStep_normal kf fId _ _ hn ha

theorem le_loopMaxCommonWords (kf : KFState) (l : List KeyFrame) {k : KeyFrame} (hk : k ∈ l) :
    (kf k).mnLoopWords ≤ loopMaxCommonWords kf l := by
  unfold loopMaxCommonWords
  have hmono : ∀ (l : List KeyFrame) (m : Int),
      m ≤ l.foldl (fun m k => if (kf k).mnLoopWords > m then (kf k).mnLoopWords else m) m := by
    intro l
    induction l with
    | nil => intro m; exact le_refl _
    | cons x xs ih =>
      intro m
      rw [List.foldl_cons]
      refine le_trans ?_ (ih _)
      split_ifs with h
      · exact le_of_lt h
      · exact le_refl _
  generalize (0 : Int) = m0
  induction l generalizing m0 with
  | nil => simp at hk
  | cons x xs ih =>
    rw [List.foldl_cons]
    rcases List.mem_cons.1 hk with h | h
    · subst h
      refine le_trans ?_ (hmono xs _)
      split_ifs with h2
      · exact le_refl _
      · exact not_lt.1 h2
    · exact ih h _

theorem le_relocMaxCommonWords (kf : KFState) (l : List KeyFrame) {k : KeyFrame} (hk : k ∈ l) :
    (kf k).mnRelocWords ≤ relocMaxCommonWords kf l := by
  unfold relocMaxCommonWords
  have hmono : ∀ (l : List KeyFrame) (m : Int),
      m ≤ l.foldl (fun m k => if (kf k).mnRelocWords > m then (kf k).mnRelocWords else m) m := by
    intro l
    induction l with
    | nil => intro m; exact le_refl _
    | cons x xs ih =>
      intro m
      rw [List.foldl_cons]
      refine le_trans ?_ (ih _)
      split_ifs with h
      · exact le_of_lt h
      · exact le_refl _
  generalize (0 : Int) = m0
  induction l generalizing m0 with
  | nil => simp at hk
  | cons x xs ih =>
    rw [List.foldl_cons]
    rcases List.mem_cons.1 hk with h | h
    · subst h
      refine le_trans ?_ (hmono xs _)
      split_ifs with h2
      · exact le_refl _
      · exact not_lt.1 h2
    · exact ih h _

theorem eq_singleton_of_nodup {l : List KeyFrame} {K : KeyFrame} (hn : l.Nodup)
    (hall : ∀ k ∈ l, k = K) (hK : K ∈ l) : l = [K] := by
  cases l with
  | nil => simp at hK
  | cons x xs =>
    have hx : x = K := hall x (List.mem_cons_self _ _)
    subst hx
    cases xs with
    | nil => rfl
    | cons y ys =>
      have hy : y = x := hall y (List.mem_cons_of_mem _ (List.mem_cons_self _ _))
      subst hy
      simp at hn

/-- C8, as stated, fails in four ways.  In the shared-representative example the group headed
by keyframe 1 has accumulated score 5, not above 3/4 of the largest one (7), yet its best
keyframe 2 is returned, through the groups headed by 2 and 4.  A sole word-sharing keyframe
with positive score is not returned when it still carries the tag of the frame, here left by
`DetectRelocalizationByglb` called before on the same frame.  In the rounding example the
group of keyframe 2 has the accumulated score `3/4 + 2^-23`, strictly above 3/4 of the
largest one (`1 + 2^-23`), and keyframe 2 is not returned: the threshold is the `float`
product, which rounds up to `3/4 + 2^-23`.  And in the underflow example a sole word-sharing
keyframe with fresh tags and the positive score `2^-149` is not returned, the `float` product
of 0.75 and its score being `2^-149` again. -/
theorem reloc_best_returned_below_threshold_and_sole_missed :
    ((1 : ℚ), 1) ∈ (relocScored shareW shareInv freshKf shareF).lScoreAndMatch ∧
    relocGroup shareW (relocScored shareW shareInv freshKf shareF).kf shareF.mnId (1, 1)
      = (5, 2) ∧
    (relocAccumulated shareW shareInv freshKf shareF).bestAccScore = 7 ∧
    ¬ ((5 : ℚ) > 3 / 4 * 7) ∧
    2 ∈ (DetectRelocalizationCandidates shareW shareInv freshKf shareF).result ∧
    visited soleInv shareF.mBowVec.words = [1] ∧
    0 < shareW.score shareF.mBowVec (shareW.mBowVec 1) ∧
    (DetectRelocalizationCandidates shareW soleInv
      (DetectRelocalizationByglb shareW soleInv freshKf shareF).kf shareF).result = [] ∧
    (relocScored roundW roundInv freshKf shareF).lScoreAndMatch
      = [(8388609 / 8388608, 1), (6291457 / 8388608, 2)] ∧
    relocGroup roundW (relocScored roundW roundInv freshKf shareF).kf shareF.mnId
      (6291457 / 8388608, 2) = (6291457 / 8388608, 2) ∧
    (relocAccumulated roundW roundInv freshKf shareF).bestAccScore = 8388609 / 8388608 ∧
    (6291457 / 8388608 : ℚ) > 3 / 4 * (8388609 / 8388608) ∧
    toFloat (3 / 4 * (8388609 / 8388608)) = 6291457 / 8388608 ∧
    (DetectRelocalizationCandidates roundW roundInv freshKf shareF).result = [1] ∧
    tinyW.score shareF.mBowVec (tinyW.mBowVec 1) = 1 / 2 ^ 149 ∧
    toFloat (3 / 4 * (1 / 2 ^ 149)) = 1 / 2 ^ 149 ∧
    (DetectRelocalizationCandidates tinyW soleInv freshKf shareF).result = [] := by
  decide!

/-- A sole scanned keyframe with fresh tags: the gathered list, the scored list and the
scratch records. -/
theorem reloc_sole_stages (W : World) (inv : InvertedFile) (kf : KFState) (F : Frame)
    (K : KeyFrame) (hf : ∀ k, (kf k).mnRelocQuery ≠ F.mnId)
    (hall : ∀ k ∈ visited inv F.mBowVec.words, k = K) (hK : K ∈ visited inv F.mBowVec.words) :
    (relocScored W inv kf F).lScoreAndMatch = [(W.score F.mBowVec (W.mBowVec K), K)] ∧
    ((relocScored W inv kf F).kf K).mRelocScore = W.score F.mBowVec (W.mBowVec K) ∧
    (∀ n, ((relocScored W inv kf F).kf n).mnRelocQuery = F.mnId → n = K) := by
  have hl : (relocGathered inv kf F).lKFsSharingWords = [K] := by
    apply eq_singleton_of_nodup (nodup_relocGathered inv kf F)
    · intro k hk
      exact hall k ((mem_relocGathered_of_fresh inv kf F hf k).1 hk)
    · exact (mem_relocGathered_of_fresh inv kf F hf K).2 hK
  have hw : 1 ≤ ((relocGathered inv kf F).kf K).mnRelocWords := by
    have h := words_pos_foldl_relocVisit F.mnId (visited inv F.mBowVec.words) ⟨kf, []⟩
      (by intro k hk; simp at hk) K
    rw [← relocGathered_eq] at h
    apply h
    rw [hl]
    exact List.mem_singleton_self K
  have hmax : relocMaxCommonWords (relocGathered inv kf F).kf [K]
      = ((relocGathered inv kf F).kf K).mnRelocWords := by
    unfold relocMaxCommonWords
    simp only [List.foldl_cons, List.foldl_nil]
    rw [if_pos (by omega)]
  have hmin : ((relocGathered inv kf F).kf K).mnRelocWords > relocMinCommonWords inv kf F := by
    unfold relocMinCommonWords
    rw [hl, hmax]
    exact minCommonWordsOf_lt hw
  refine ⟨?_, ?_, ?_⟩
  · rw [relocScored_list, hl, List.filter_cons_of_pos (by simpa using hmin)]
    rfl
  · rw [relocScored_kf, if_pos ⟨by rw [hl]; exact List.mem_singleton_self K, hmin⟩]
  · intro n hn
    rw [relocScored_tag, relocGathered_eq, foldl_relocVisit_tag] at hn
    by_cases hv : n ∈ visited inv F.mBowVec.words
    · exact hall n hv
    · rw [if_neg hv] at hn
      exact absurd hn (hf n)

/-- C8, amended: in `DetectRelocalizationCandidates(F)` every gathered keyframe whose
shared-word counter exceeds `minCommonWords` heads a group whatever its score is;
`bestAccScore` is the largest accumulated score taken with 0; the best keyframe of a group
whose accumulated score is above `minScoreToRetain`, the `float` product of 0.75 and
`bestAccScore`, is returned, and every returned keyframe is the best keyframe of such a
group.  When no keyframe's relocalization tag equals the id of `F` beforehand, a sole
word-sharing keyframe whose score is at least `2^-126`, the smallest normal `float`, is
returned, and nothing else is. -/
theorem reloc_no_score_floor (W : World) (inv : InvertedFile) (kf : KFState) (F : Frame) :
    (∀ k ∈ (relocGathered inv kf F).lKFsSharingWords,
      ((relocGathered inv kf F).kf k).mnRelocWords > relocMinCommonWords inv kf F →
      (W.score F.mBowVec (W.mBowVec k), k) ∈ (relocScored W inv kf F).lScoreAndMatch) ∧
    (relocAccumulated W inv kf F).bestAccScore =
      (((relocScored W inv kf F).lScoreAndMatch.map
        (fun it => (relocGroup W (relocScored W inv kf F).kf F.mnId it).1)).foldl max 0) ∧
    (∀ it ∈ (relocScored W inv kf F).lScoreAndMatch,
      (relocGroup W (relocScored W inv kf F).kf F.mnId it).1
          > toFloat ((3 / 4 : ℚ) * (relocAccumulated W inv kf F).bestAccScore) →
      (relocGroup W (relocScored W inv kf F).kf F.mnId it).2
        ∈ (DetectRelocalizationCandidates W inv kf F).result) ∧
    (∀ k ∈ (DetectRelocalizationCandidates W inv kf F).result,
      ∃ it ∈ (relocScored W inv kf F).lScoreAndMatch,
        (relocGroup W (relocScored W inv kf F).kf F.mnId it).1
          > toFloat ((3 / 4 : ℚ) * (relocAccumulated W inv kf F).bestAccScore) ∧
        (relocGroup W (relocScored W inv kf F).kf F.mnId it).2 = k) ∧
    (∀ K, (∀ k, (kf k).mnRelocQuery ≠ F.mnId) →
      (∀ k ∈ visited inv F.mBowVec.words, k = K) → K ∈ visited inv F.mBowVec.words →
      1 / 2 ^ 126 ≤ W.score F.mBowVec (W.mBowVec K) →
      K ∈ (DetectRelocalizationCandidates W inv kf F).result ∧
      ∀ k ∈ (DetectRelocalizationCandidates W inv kf F).result, k = K) := by
  have hmemres : ∀ k, k ∈ (DetectRelocalizationCandidates W inv kf F).result ↔
      ∃ it ∈ (relocScored W inv kf F).lScoreAndMatch,
        (relocGroup W (relocScored W inv kf F).kf F.mnId it).1
          > toFloat ((3 / 4 : ℚ) * (relocAccumulated W inv kf F).bestAccScore) ∧
        (relocGroup W (relocScored W inv kf F).kf F.mnId it).2 = k := by
    intro k
    rw [mem_DetectRelocalizationCandidates, relocAccumulated_list]
    simp only [List.mem_map, exists_exists_and_eq_and]
  have hbest : (relocAccumulated W inv kf F).bestAccScore =
      (((relocScored W inv kf F).lScoreAndMatch.map
        (fun it => (relocGroup W (relocScored W inv kf F).kf F.mnId it).1)).foldl max 0) := by
    rw [relocAccumulated_best, relocAccumulated_list, List.map_map]
    rfl
  refine ⟨?_, hbest, ?_, ?_, ?_⟩
  · intro k hk hw
    rw [relocScored_list, List.mem_map]
    exact ⟨k, List.mem_filter.2 ⟨hk, by simpa using hw⟩, rfl⟩
  · intro it hit hgt
    exact (hmemres _).2 ⟨it, hit, hgt, rfl⟩
  · intro k hk
    exact (hmemres k).1 hk
  · intro K hf hall hK hs
    rw [← two_zpow_neg126] at hs
    have hpos : (0 : ℚ) < (2 : ℚ) ^ (-126 : Int) := by positivity
    obtain ⟨h1, h2, h3⟩ := reloc_sole_stages W inv kf F K hf hall hK
    have hrep : ∀ it ∈ (relocScored W inv kf F).lScoreAndMatch,
        (relocGroup W (relocScored W inv kf F).kf F.mnId it).2 = K := by
      intro it hit
      rw [h1, List.mem_singleton] at hit
      rcases relocGroup_best W (relocScored W inv kf F).kf F.mnId it with h | h
      · rw [h, hit]
      · exact h3 _ h.2.1
    have hacc : (2 : ℚ) ^ (-126 : Int)
        ≤ (relocGroup W (relocScored W inv kf F).kf F.mnId
            (W.score F.mBowVec (W.mBowVec K), K)).1 := by
      apply relocGroup_normal
      · intro n _ hn
        rw [h3 n hn, h2]
        linarith
      · exact hs
    have hb : (relocAccumulated W inv kf F).bestAccScore
        = (relocGroup W (relocScored W inv kf F).kf F.mnId
            (W.score F.mBowVec (W.mBowVec K), K)).1 := by
      rw [hbest, h1]
      simp only [List.map_cons, List.map_nil, List.foldl_cons, List.foldl_nil]
      exact max_eq_right (le_trans (le_of_lt hpos) hacc)
    refine ⟨?_, ?_⟩
    · rw [hmemres]
      refine ⟨(W.score F.mBowVec (W.mBowVec K), K), ?_, ?_, ?_⟩
      · rw [h1]; exact List.mem_singleton_self _
      · rw [hb]
        exact toFloat_three_quarters_lt hacc
      · exact hrep _ (by rw [h1]; exact List.mem_singleton_self _)
    · intro k hk
      obtain ⟨it, hit, -, hk2⟩ := (hmemres k).1 hk
      rw [← hk2]
      exact hrep it hit

/-- Witness for C8: keyframe 1 is the only keyframe sharing a word with the frame, its score
is 1 and all tags are fresh; it is returned. -/
theorem reloc_no_score_floor_witness :
    (∀ k, (freshKf k).mnRelocQuery ≠ shareF.mnId) ∧
    (∀ k ∈ visited soleInv shareF.mBowVec.words, k = 1) ∧
    1 ∈ visited soleInv shareF.mBowVec.words ∧
    1 / 2 ^ 126 ≤ shareW.score shareF.mBowVec (shareW.mBowVec 1) ∧
    1 ∈ (DetectRelocalizationCandidates shareW soleInv freshKf shareF).result ∧
    ∀ k ∈ (DetectRelocalizationCandidates shareW soleInv freshKf shareF).result, k = 1 :=
  have h1 : ∀ k, (freshKf k).mnRelocQuery ≠ shareF.mnId := fun _ => by
    simp [freshKf, freshScratch, shareF]
  have h2 : ∀ k ∈ visited soleInv shareF.mBowVec.words, k = 1 := by decide!
  have h3 : 1 ∈ visited soleInv shareF.mBowVec.words := by decide!
  have h4 : 1 / 2 ^ 126 ≤ shareW.score shareF.mBowVec (shareW.mBowVec 1) := by decide!
  ⟨h1, h2, h3, h4, (reloc_no_score_floor shareW soleInv freshKf shareF).2.2.2.2 1 h1 h2 h3 h4⟩

/-- C9, as stated, fails: in Scenario A the counters are 5, 4 and 1 and `minCommonWords` is
4, but the test is `counter > minCommonWords`, so only keyframe 10 (A) is scored; keyframe 11
(B), whose counter is 4, is dropped in both searches and its stored loop score stays as it
was although its score against the query is 4. -/
theorem scenario_A_only_A_is_scored :
    (relocGathered scenInv freshKf scenF).lKFsSharingWords = [10, 11, 12] ∧
    ((relocGathered scenInv freshKf scenF).kf 10).mnRelocWords = 5 ∧
    ((relocGathered scenInv freshKf scenF).kf 11).mnRelocWords = 4 ∧
    ((relocGathered scenInv freshKf scenF).kf 12).mnRelocWords = 1 ∧
    relocMinCommonWords scenInv freshKf scenF = 4 ∧
    (relocScored scenW scenInv freshKf scenF).lScoreAndMatch = [(5, 10)] ∧
    (loopGathered scenW scenInv freshKf 20).lKFsSharingWords = [10, 11, 12] ∧
    ((loopGathered scenW scenInv freshKf 20).kf 11).mnLoopWords = 4 ∧
    loopMinCommonWords scenW scenInv freshKf 20 = 4 ∧
    (loopScored scenW scenInv freshKf 20 0).lScoreAndMatch = [(5, 10)] ∧
    scenW.score (scenW.mBowVec 20) (scenW.mBowVec 11) = 4 ∧
    ((DetectLoopCandidates scenW scenInv freshKf 20 0).kf 11).mLoopScore = 0 ∧
    ((DetectRelocalizationCandidates scenW scenInv freshKf scenF).kf 11).mRelocScore = 0 := by
  decide!

theorem loopMaxCommonWords_le (kf : KFState) (l : List KeyFrame) (m : Int) (h0 : 0 ≤ m)
    (h : ∀ k ∈ l, (kf k).mnLoopWords ≤ m) : loopMaxCommonWords kf l ≤ m := by
  unfold loopMaxCommonWords
  generalize (0 : Int) = m0 at h0
  induction l generalizing m0 with
  | nil => exact h0
  | cons x xs ih =>
    rw [List.foldl_cons]
    apply ih (fun k hk => h k (List.mem_cons_of_mem _ hk))
    split_ifs
    · exact h x (List.mem_cons_self _ _)
    · exact h0

theorem relocMaxCommonWords_le (kf : KFState) (l : List KeyFrame) (m : Int) (h0 : 0 ≤ m)
    (h : ∀ k ∈ l, (kf k).mnRelocWords ≤ m) : relocMaxCommonWords kf l ≤ m := by
  unfold relocMaxCommonWords
  generalize (0 : Int) = m0 at h0
  induction l generalizing m0 with
  | nil => exact h0
  | cons x xs ih =>
    rw [List.foldl_cons]
    apply ih (fun k hk => h k (List.mem_cons_of_mem _ hk))
    split_ifs
    · exact h x (List.mem_cons_self _ _)
    · exact h0

/-- C9, amended: in a candidate search whose gathered candidates are A with 5 shared words,
B with 4 and C with 1, `minCommonWords` is 4 and exactly A passes to the scoring stage (its
score against the query is computed and stored); B and C are dropped, their stored scores
untouched, whatever their scores would be.  In the loop search A is kept in the scored list
when its score reaches `minScore`. -/
theorem scenario_A_min_common_words (W : World) (inv : InvertedFile) (kf : KFState)
    (A B C : KeyFrame) :
    (∀ F : Frame, (relocGathered inv kf F).lKFsSharingWords.Perm [A, B, C] →
      ((relocGathered inv kf F).kf A).mnRelocWords = 5 →
      ((relocGathered inv kf F).kf B).mnRelocWords = 4 →
      ((relocGathered inv kf F).kf C).mnRelocWords = 1 →
      relocMinCommonWords inv kf F = 4 ∧
      (relocScored W inv kf F).lScoreAndMatch = [(W.score F.mBowVec (W.mBowVec A), A)] ∧
      ((relocScored W inv kf F).kf A).mRelocScore = W.score F.mBowVec (W.mBowVec A) ∧
      ((relocScored W inv kf F).kf B).mRelocScore = ((relocGathered inv kf F).kf B).mRelocScore ∧
      ((relocScored W inv kf F).kf C).mRelocScore
        = ((relocGathered inv kf F).kf C).mRelocScore) ∧
    (∀ (Q : KeyFrame) (minScore : ℚ),
      (loopGathered W inv kf Q).lKFsSharingWords.Perm [A, B, C] →
      ((loopGathered W inv kf Q).kf A).mnLoopWords = 5 →
      ((loopGathered W inv kf Q).kf B).mnLoopWords = 4 →
      ((loopGathered W inv kf Q).kf C).mnLoopWords = 1 →
      loopMinCommonWords W inv kf Q = 4 ∧
      (loopScored W inv kf Q minScore).lScoreAndMatch =
        (if W.score (W.mBowVec Q) (W.mBowVec A) ≥ minScore
          then [(W.score (W.mBowVec Q) (W.mBowVec A), A)] else []) ∧
      ((loopScored W inv kf Q minScore).kf A).mLoopScore
        = W.score (W.mBowVec Q) (W.mBowVec A) ∧
      ((loopScored W inv kf Q minScore).kf B).mLoopScore
        = ((loopGathered W inv kf Q).kf B).mLoopScore ∧
      ((loopScored W inv kf Q minScore).kf C).mLoopScore
        = ((loopGathered W inv kf Q).kf C).mLoopScore) := by
  constructor
  · intro F hp hA hB hC
    have hAl : A ∈ (relocGathered inv kf F).lKFsSharingWords :=
      hp.symm.subset (List.mem_cons_self _ _)
    have hmax : relocMaxCommonWords (relocGathered inv kf F).kf
        (relocGathered inv kf F).lKFsSharingWords = 5 := by
      apply le_antisymm
      · apply relocMaxCommonWords_le _ _ 5 (by decide)
        intro k hk
        have hk2 := hp.subset hk
        simp only [List.mem_cons, List.mem_singleton, List.not_mem_nil, or_false] at hk2
        rcases hk2 with h | h | h <;> rw [h] <;> omega
      · rw [← hA]
        exact le_relocMaxCommonWords _ _ hAl
    have hmin : relocMinCommonWords inv kf F = 4 := by
      unfold relocMinCommonWords
      rw [hmax]
      decide!
    have hfilter : (relocGathered inv kf F).lKFsSharingWords.filter
        (fun x => ((relocGathered inv kf F).kf x).mnRelocWords > relocMinCommonWords inv kf F)
        = [A] := by
      apply List.perm_singleton.1
      refine (hp.filter _).trans ?_
      rw [hmin]
      simp [List.filter_cons, hA, hB, hC]
    refine ⟨hmin, ?_, ?_, ?_, ?_⟩
    · rw [relocScored_list, hfilter]
      rfl
    · rw [relocScored_kf, if_pos ⟨hAl, by rw [hmin, hA]; decide⟩]
    · rw [relocScored_kf, if_neg (fun h => by rw [hmin, hB] at h; exact absurd h.2 (by decide))]
    · rw [relocScored_kf, if_neg (fun h => by rw [hmin, hC] at h; exact absurd h.2 (by decide))]
  · intro Q minScore hp hA hB hC
    have hAl : A ∈ (loopGathered W inv kf Q).lKFsSharingWords :=
      hp.symm.subset (List.mem_cons_self _ _)
    have hmax : loopMaxCommonWords (loopGathered W inv kf Q).kf
        (loopGathered W inv kf Q).lKFsSharingWords = 5 := by
      apply le_antisymm
      · apply loopMaxCommonWords_le _ _ 5 (by decide)
        intro k hk
        have hk2 := hp.subset hk
        simp only [List.mem_cons, List.mem_singleton, List.not_mem_nil, or_false] at hk2
        rcases hk2 with h | h | h <;> rw [h] <;> omega
      · rw [← hA]
        exact le_loopMaxCommonWords _ _ hAl
    have hmin : loopMinCommonWords W inv kf Q = 4 := by
      unfold loopMinCommonWords
      rw [hmax]
      decide!
    refine ⟨hmin, ?_, ?_, ?_, ?_⟩
    · rw [loopScored_list]
      by_cases hs : W.score (W.mBowVec Q) (W.mBowVec A) ≥ minScore
      · rw [if_pos hs]
        have hfilter : (loopGathered W inv kf Q).lKFsSharingWords.filter
            (fun x => ((loopGathered W inv kf Q).kf x).mnLoopWords > loopMinCommonWords W inv kf Q ∧
              W.score (W.mBowVec Q) (W.mBowVec x) ≥ minScore) = [A] := by
          apply List.perm_singleton.1
          refine (hp.filter _).trans ?_
          rw [hmin]
          simp [List.filter_cons, hA, hB, hC, hs]
        rw [hfilter]
        rfl
      · rw [if_neg hs]
        have hfilter : (loopGathered W inv kf Q).lKFsSharingWords.filter
            (fun x => ((loopGathered W inv kf Q).kf x).mnLoopWords > loopMinCommonWords W inv kf Q ∧
              W.score (W.mBowVec Q) (W.mBowVec x) ≥ minScore) = [] := by
          apply List.perm_nil.1
          refine (hp.filter _).trans ?_
          rw [hmin]
          simp [List.filter_cons, hA, hB, hC, hs]
        rw [hfilter]
        rfl
    · rw [loopScored_kf, if_pos ⟨hAl, by rw [hmin, hA]; decide⟩]
    · rw [loopScored_kf, if_neg (fun h => by rw [hmin, hB] at h; exact absurd h.2 (by decide))]
    · rw [loopScored_kf, if_neg (fun h => by rw [hmin, hC] at h; exact absurd h.2 (by decide))]

/-- Witness for C9: Scenario A with keyframes 10, 11, 12 as A, B, C, for the frame `scenF`
and for the query keyframe 20 with `minScore` 0. -/
theorem scenario_A_min_common_words_witness :
    (relocGathered scenInv freshKf scenF).lKFsSharingWords.Perm [10, 11, 12] ∧
    ((relocGathered scenInv freshKf scenF).kf 10).mnRelocWords = 5 ∧
    ((relocGathered scenInv freshKf scenF).kf 11).mnRelocWords = 4 ∧
    ((relocGathered scenInv freshKf scenF).kf 12).mnRelocWords = 1 ∧
    (relocMinCommonWords scenInv freshKf scenF = 4 ∧
      (relocScored scenW scenInv freshKf scenF).lScoreAndMatch
        = [(scenW.score scenF.mBowVec (scenW.mBowVec 10), 10)] ∧
      ((relocScored scenW scenInv freshKf scenF).kf 10).mRelocScore
        = scenW.score scenF.mBowVec (scenW.mBowVec 10) ∧
      ((relocScored scenW scenInv freshKf scenF).kf 11).mRelocScore
        = ((relocGathered scenInv freshKf scenF).kf 11).mRelocScore ∧
      ((relocScored scenW scenInv freshKf scenF).kf 12).mRelocScore
        = ((relocGathered scenInv freshKf scenF).kf 12).mRelocScore) ∧
    (loopGathered scenW scenInv freshKf 20).lKFsSharingWords.Perm [10, 11, 12] ∧
    ((loopGathered scenW scenInv freshKf 20).kf 10).mnLoopWords = 5 ∧
    ((loopGathered scenW scenInv freshKf 20).kf 11).mnLoopWords = 4 ∧
    ((loopGathered scenW scenInv freshKf 20).kf 12).mnLoopWords = 1 ∧
    loopMinCommonWords scenW scenInv freshKf 20 = 4 ∧
    ((loopScored scenW scenInv freshKf 20 0).kf 11).mLoopScore
      = ((loopGathered scenW scenInv freshKf 20).kf 11).mLoopScore :=
  have h := scenario_A_min_common_words scenW scenInv freshKf 10 11 12
  have r := h.1 scenF (by decide!) (by decide!) (by decide!) (by decide!)
  have q := h.2 20 0 (by decide!) (by decide!) (by decide!) (by decide!)
  ⟨by decide!, by decide!, by decide!, by decide!, r, by decide!, by decide!, by decide!,
    by decide!, q.1, q.2.2.2.1⟩

theorem loopGroup_acc (W : World) (kf : KFState) (qId : Nat) (mcw : Int) (it : ℚ × KeyFrame) :
    (loopGroup W kf qId mcw it).1 = it.1 +
      (((W.GetBestCovisibilityKeyFrames it.2 10).filter
        (fun n => (kf n).mnLoopQuery = qId ∧ (kf n).mnLoopWords > mcw)).map
        (fun n => (kf n).mLoopScore)).sum := by
  unfold loopGroup
  exact foldl_loopNeighStep_acc kf qId mcw _ _

/-- With fresh tags the gathered list holds exactly the scanned keyframes that are not
connected to the query. -/
theorem mem_loopGathered_of_fresh (W : World) (inv : InvertedFile) (kf : KFState)
    (Q : KeyFrame) (hf : ∀ k, (kf k).mnLoopQuery ≠ W.mnId Q) (k : KeyFrame) :
    k ∈ (loopGathered W inv kf Q).lKFsSharingWords ↔
      k ∈ visited inv (W.mBowVec Q).words ∧ k ∉ W.GetConnectedKeyFrames Q := by
  rw [loopGathered_eq, mem_foldl_loopVisit]
  simp [hf k]

/-- With fresh tags a keyframe carries the tag of the query after the scoring loop only if it
was gathered. -/
theorem mem_loopGathered_of_tag (W : World) (inv : InvertedFile) (kf : KFState)
    (Q : KeyFrame) (minScore : ℚ) (hf : ∀ k, (kf k).mnLoopQuery ≠ W.mnId Q) (n : KeyFrame)
    (hn : ((loopScored W inv kf Q minScore).kf n).mnLoopQuery = W.mnId Q) :
    n ∈ (loopGathered W inv kf Q).lKFsSharingWords := by
  rw [loopScored_tag, loopGathered_eq, foldl_loopVisit_tag] at hn
  by_cases h : n ∈ visited inv (W.mBowVec Q).words ∧ n ∉ W.GetConnectedKeyFrames Q
  · exact (mem_loopGathered_of_fresh W inv kf Q hf n).2 h
  · rw [if_neg h] at hn
    exact absurd hn (hf n)

theorem mem_keepFirst (l : List KeyFrame) (k : KeyFrame) : k ∈ keepFirst l ↔ k ∈ l := by
  induction l with
  | nil => simp [keepFirst]
  | cons x xs ih =>
    simp only [keepFirst, List.mem_cons, List.mem_filter, ih]
    by_cases h : k = x
    · simp [h]
    · simp [h]

theorem keepFirst_nodup (l : List KeyFrame) : (keepFirst l).Nodup := by
  induction l with
  | nil => simp [keepFirst]
  | cons x xs ih =>
    simp only [keepFirst]
    rw [List.nodup_cons]
    refine ⟨?_, ih.filter _⟩
    simp [List.mem_filter]

theorem keepFirst_sublist (l : List KeyFrame) : (keepFirst l).Sublist l := by
  induction l with
  | nil => simp [keepFirst]
  | cons x xs ih =>
    simp only [keepFirst]
    exact ((List.filter_sublist _).trans ih).cons₂ x

theorem emitted_cons (thr : ℚ) (a : ℚ × KeyFrame) (l : List (ℚ × KeyFrame)) :
    emitted thr (a :: l) = if a.1 > thr then a.2 :: emitted thr l else emitted thr l := by
  unfold emitted
  by_cases h : a.1 > thr
  · rw [if_pos h, List.filter_cons_of_pos (by simpa using h)]
    rfl
  · rw [if_neg h, List.filter_cons_of_neg (by simpa using h)]

/-- The final loop appends to the vector the first occurrences of the emitted keyframes that
are not in it yet. -/
theorem foldl_retainStep_eq (thr : ℚ) (l : List (ℚ × KeyFrame)) (r : Retained)
    (h : r.spAlreadyAddedKF = r.vpCandidates) :
    (l.foldl (retainStep thr) r).vpCandidates =
      r.vpCandidates ++ (keepFirst (emitted thr l)).filter (fun y => y ∉ r.vpCandidates) := by
  induction l generalizing r with
  | nil => simp [emitted, keepFirst]
  | cons a l ih =>
    rw [List.foldl_cons, ih _ (retainStep_sp thr r a h), emitted_cons]
    by_cases hc : a.1 > thr ∧ a.2 ∉ r.spAlreadyAddedKF
    · have hv : a.2 ∉ r.vpCandidates := by rw [← h]; exact hc.2
      rw [retainStep_pos thr r a hc, if_pos hc.1]
      simp only [keepFirst, List.append_assoc, List.singleton_append]
      rw [List.filter_cons_of_pos (by simpa using hv), List.filter_filter]
      congr 2
      apply List.filter_congr
      intro y _
      by_cases hy : y = a.2
      · simp [hy]
      · simp [hy]
    · rw [retainStep_neg thr r a hc]
      by_cases h1 : a.1 > thr
      · have hv : a.2 ∈ r.vpCandidates := by
          rw [← h]
          by_contra h2
          exact hc ⟨h1, h2⟩
        rw [if_pos h1]
        simp only [keepFirst]
        rw [List.filter_cons_of_neg (by simpa using hv), List.filter_filter]
        congr 1
        apply List.filter_congr
        intro y _
        by_cases hy : y = a.2
        · simp [hy, hv]
        · simp [hy]
      · rw [if_neg h1]

theorem retained_eq_keepFirst (thr : ℚ) (l : List (ℚ × KeyFrame)) :
    (l.foldl (retainStep thr) ⟨[], []⟩).vpCandidates = keepFirst (emitted thr l) := by
  rw [foldl_retainStep_eq thr l ⟨[], []⟩ rfl]
  simp

/-- C11: the vectors returned by `DetectLoopCandidates` and
`DetectRelocalizationCandidates` contain no keyframe twice, and they list the best keyframes
of the groups whose accumulated score is above the retain threshold, each at its first
occurrence, the groups taken in the order of the scored list. -/
theorem results_deduplicated_in_first_emission_order (W : World) (inv : InvertedFile)
    (kf : KFState) :
    (∀ (Q : KeyFrame) (minScore : ℚ),
      (DetectLoopCandidates W inv kf Q minScore).result.Nodup ∧
      (loopAccumulated W inv kf Q minScore).lAccScoreAndMatch =
        (loopScored W inv kf Q minScore).lScoreAndMatch.map
          (loopGroup W (loopScored W inv kf Q minScore).kf (W.mnId Q)
            (loopMinCommonWords W inv kf Q)) ∧
      (DetectLoopCandidates W inv kf Q minScore).result =
        keepFirst (emitted ((3 / 4 : ℚ) * (loopAccumulated W inv kf Q minScore).bestAccScore)
          (loopAccumulated W inv kf Q minScore).lAccScoreAndMatch)) ∧
    (∀ F : Frame,
      (DetectRelocalizationCandidates W inv kf F).result.Nodup ∧
      (relocAccumulated W inv kf F).lAccScoreAndMatch =
        (relocScored W inv kf F).lScoreAndMatch.map
          (relocGroup W (relocScored W inv kf F).kf F.mnId) ∧
      (DetectRelocalizationCandidates W inv kf F).result =
        keepFirst
          (emitted (toFloat ((3 / 4 : ℚ) * (relocAccumulated W inv kf F).bestAccScore))
            (relocAccumulated W inv kf F).lAccScoreAndMatch)) := by
  constructor
  · intro Q minScore
    refine ⟨nodup_DetectLoopCandidates W inv kf Q minScore,
      loopAccumulated_list W inv kf Q minScore, ?_⟩
    rw [DetectLoopCandidates_result]
    by_cases h1 : (loopGathered W inv kf Q).lKFsSharingWords.isEmpty
    · have h2 : (loopAccumulated W inv kf Q minScore).lAccScoreAndMatch = [] := by
        rw [loopAccumulated_list, loopScored_list, List.isEmpty_iff.1 h1]
        rfl
      rw [if_pos h1, h2]
      rfl
    · rw [if_neg h1]
      by_cases h2 : (loopScored W inv kf Q minScore).lScoreAndMatch.isEmpty
      · have h3 : (loopAccumulated W inv kf Q minScore).lAccScoreAndMatch = [] := by
          rw [loopAccumulated_list, List.isEmpty_iff.1 h2]
          rfl
        rw [if_pos h2, h3]
        rfl
      · rw [if_neg h2, retained_eq_keepFirst]
  · intro F
    refine ⟨nodup_DetectRelocalizationCandidates W inv kf F,
      relocAccumulated_list W inv kf F, ?_⟩
    rw [DetectRelocalizationCandidates_result]
    by_cases h1 : (relocGathered inv kf F).lKFsSharingWords.isEmpty
    · have h2 : (relocAccumulated W inv kf F).lAccScoreAndMatch = [] := by
        rw [relocAccumulated_list, relocScored_list, List.isEmpty_iff.1 h1]
        rfl
      rw [if_pos h1, h2]
      rfl
    · rw [if_neg h1]
      by_cases h2 : (relocScored W inv kf F).lScoreAndMatch.isEmpty
      · have h3 : (relocAccumulated W inv kf F).lAccScoreAndMatch = [] := by
          rw [relocAccumulated_list, List.isEmpty_iff.1 h2]
          rfl
        rw [if_pos h2, h3]
        rfl
      · rw [if_neg h2, retained_eq_keepFirst]

/-! ## The inverted file after a search -/

theorem foldl_touch_apply (ws : List WordId) (inv : InvertedFile) (w : WordId) :
    ws.foldl touch inv w = if w ∈ ws then some (bucket inv w) else inv w := by
  induction ws generalizing inv with
  | nil => simp
  | cons a ws ih =>
    rw [List.foldl_cons, ih, bucket_touch]
    by_cases ha : w = a
    · subst ha
      by_cases hw : w ∈ ws
      · simp [hw]
      · simp [hw, touch_same]
    · by_cases hw : w ∈ ws
      · simp [hw]
      · simp [hw, ha, touch_other inv ha]

theorem bucket_foldl_touch (ws : List WordId) (inv : InvertedFile) (w : WordId) :
    bucket (ws.foldl touch inv) w = bucket inv w := by
  induction ws generalizing inv with
  | nil => rfl
  | cons a ws ih => rw [List.foldl_cons, ih, bucket_touch]

theorem DetectLoopCandidates_inv (W : World) (inv : InvertedFile) (kf : KFState)
    (Q : KeyFrame) (minScore : ℚ) :
    (DetectLoopCandidates W inv kf Q minScore).inv = (W.mBowVec Q).words.foldl touch inv := by
  have h : (DetectLoopCandidates W inv kf Q minScore).inv = (loopGather W inv kf Q).1 := by
    unfold DetectLoopCandidates
    simp only []
    split_ifs <;> rfl
  rw [h, loopGather_eq]

theorem DetectRelocalizationCandidates_inv (W : World) (inv : InvertedFile) (kf : KFState)
    (F : Frame) :
    (DetectRelocalizationCandidates W inv kf F).inv = F.mBowVec.words.foldl touch inv := by
  have h : (DetectRelocalizationCandidates W inv kf F).inv = (relocGather inv kf F).1 := by
    unfold DetectRelocalizationCandidates
    simp only []
    split_ifs <;> rfl
  rw [h, relocGather_eq]

theorem DetectRelocalizationByglb_inv (W : World) (inv : InvertedFile) (kf : KFState)
    (F : Frame) :
    (DetectRelocalizationByglb W inv kf F).inv = F.mBowVec.words.foldl touch inv := by
  have h : (DetectRelocalizationByglb W inv kf F).inv = (relocGather inv kf F).1 := by
    unfold DetectRelocalizationByglb
    simp only []
    split_ifs <;> rfl
  rw [h, relocGather_eq]

/-- C14: after `DetectLoopCandidates`, `DetectRelocalizationCandidates` or
`DetectRelocalizationByglb` every word's bucket holds the sequence of keyframes it held
before, an absent bucket counting as an empty one; the inverted file differs from the one
before the call only by empty buckets created for the query words that had none. -/
theorem searches_keep_buckets (W : World) (inv : InvertedFile) (kf : KFState) :
    (∀ (Q : KeyFrame) (minScore : ℚ) (w : WordId),
      bucket (DetectLoopCandidates W inv kf Q minScore).inv w = bucket inv w ∧
      (DetectLoopCandidates W inv kf Q minScore).inv w =
        if w ∈ (W.mBowVec Q).words ∧ inv w = none then some [] else inv w) ∧
    (∀ (F : Frame) (w : WordId),
      bucket (DetectRelocalizationCandidates W inv kf F).inv w = bucket inv w ∧
      (DetectRelocalizationCandidates W inv kf F).inv w =
        if w ∈ F.mBowVec.words ∧ inv w = none then some [] else inv w) ∧
    (∀ (F : Frame) (w : WordId),
      bucket (DetectRelocalizationByglb W inv kf F).inv w = bucket inv w ∧
      (DetectRelocalizationByglb W inv kf F).inv w =
        if w ∈ F.mBowVec.words ∧ inv w = none then some [] else inv w) := by
  have key : ∀ (ws : List WordId) (w : WordId),
      ws.foldl touch inv w = if w ∈ ws ∧ inv w = none then some [] else inv w := by
    intro ws w
    rw [foldl_touch_apply]
    by_cases hw : w ∈ ws
    · cases h : inv w with
      | none => simp [hw, bucket, h]
      | some b => simp [hw, bucket, h]
    · simp [hw]
  refine ⟨?_, ?_, ?_⟩
  · intro Q minScore w
    rw [DetectLoopCandidates_inv]
    exact ⟨bucket_foldl_touch _ inv w, key _ w⟩
  · intro F w
    rw [DetectRelocalizationCandidates_inv]
    exact ⟨bucket_foldl_touch _ inv w, key _ w⟩
  · intro F w
    rw [DetectRelocalizationByglb_inv]
    exact ⟨bucket_foldl_touch _ inv w, key _ w⟩

/-- C15 (Scenario C): `erase(K)` for a keyframe `K` that occurs in no bucket returns an
inverted file in which every bucket holds the sequence of keyframes it held before; the only
change is an empty bucket for each word of `K`'s vector that had none. -/
theorem erase_of_absent_keeps_buckets (W : World) (inv : InvertedFile) (K : KeyFrame)
    (h : ∀ w, K ∉ bucket inv w) :
    (∀ w, bucket (erase W inv K) w = bucket inv w) ∧
    (∀ w, erase W inv K w =
      if w ∈ (W.mBowVec K).words ∧ inv w = none then some [] else inv w) := by
  constructor
  · intro w
    by_cases hw : w ∈ (W.mBowVec K).words
    · rw [bucket_erase_mem W inv K hw, List.erase_of_not_mem (h w)]
    · rw [bucket, erase_apply_not_mem W inv K hw]
      rfl
  · intro w
    by_cases hw : w ∈ (W.mBowVec K).words
    · rw [erase_apply_mem W inv K hw, List.erase_of_not_mem (h w)]
      cases h2 : inv w with
      | none => simp [hw, bucket, h2]
      | some b => simp [bucket, h2]
    · rw [erase_apply_not_mem W inv K hw]
      simp [hw]

/-- Witness for C15: keyframe 3 (words 7 and 9) was never added to the index holding
keyframes 2 and 1 under word 7; erasing it keeps that bucket and creates an empty bucket for
word 9. -/
theorem erase_of_absent_keeps_buckets_witness :
    (∀ w, 3 ∉ bucket idxInv w) ∧
    erase idxW idxInv 3 7 = some [2, 1] ∧
    erase idxW idxInv 3 9 = some [] ∧
    idxInv 9 = none ∧
    (∀ w, bucket (erase idxW idxInv 3) w = bucket idxInv w) ∧
    (∀ w, erase idxW idxInv 3 w =
      if w ∈ (idxW.mBowVec 3).words ∧ idxInv w = none then some [] else idxInv w) :=
  have h : ∀ w, 3 ∉ bucket idxInv w := by
    intro w
    unfold bucket idxInv
    split_ifs <;> simp
  ⟨h, by decide!, by decide!, by decide!, erase_of_absent_keeps_buckets idxW idxInv 3 h⟩

/-! ## The shared-word counter -/

theorem loopVisit_kf_of_ne (conn : List KeyFrame) (qId : Nat) (g : Gather) {x k : KeyFrame}
    (h : k ≠ x) : (loopVisit conn qId g x).kf k = g.kf k := by
  unfold loopVisit
  simp only [Function.update_noteq h]
  split_ifs <;> simp [Function.update_noteq h]

/-- A keyframe that carries the tag of the query gets one count per scan. -/
theorem foldl_loopVisit_words_of_tag (conn : List KeyFrame) (qId : Nat) (vs : List KeyFrame)
    (g : Gather) (k : KeyFrame) (ht : (g.kf k).mnLoopQuery = qId) :
    ((vs.foldl (loopVisit conn qId) g).kf k).mnLoopWords
      = (g.kf k).mnLoopWords + vs.count k := by
  induction vs generalizing g with
  | nil => simp
  | cons x vs ih =>
    rw [List.foldl_cons]
    by_cases hx : k = x
    · subst hx
      have ht2 : ((loopVisit conn qId g k).kf k).mnLoopQuery = qId := by
        rw [loopVisit_tag]
        split_ifs
        · rfl
        · exact ht
      rw [ih _ ht2, loopVisit_words, if_pos rfl, if_neg (not_not.2 ht), List.count_cons_self]
      push_cast
      ring
    · have hkf := loopVisit_kf_of_ne conn qId g hx
      have ht2 : ((loopVisit conn qId g x).kf k).mnLoopQuery = qId := by rw [hkf]; exact ht
      rw [ih _ ht2, hkf, List.count_cons_of_ne hx]

/-- A keyframe that is not connected to the query and does not carry its tag ends the scan
with as many counts as it was scanned. -/
theorem foldl_loopVisit_words_of_fresh (conn : List KeyFrame) (qId : Nat) (vs : List KeyFrame)
    (g : Gather) (k : KeyFrame) (ht : (g.kf k).mnLoopQuery ≠ qId) (hc : k ∉ conn)
    (hk : k ∈ vs) :
    ((vs.foldl (loopVisit conn qId) g).kf k).mnLoopWords = vs.count k := by
  induction vs generalizing g with
  | nil => simp at hk
  | cons x vs ih =>
    rw [List.foldl_cons]
    by_cases hx : k = x
    · subst hx
      have ht2 : ((loopVisit conn qId g k).kf k).mnLoopQuery = qId := by
        rw [loopVisit_tag, if_pos ⟨rfl, hc⟩]
      rw [foldl_loopVisit_words_of_tag conn qId vs _ k ht2, loopVisit_words, if_pos rfl,
        if_pos ht, List.count_cons_self]
      push_cast
      ring
    · have hkf := loopVisit_kf_of_ne conn qId g hx
      have ht2 : ((loopVisit conn qId g x).kf k).mnLoopQuery ≠ qId := by rw [hkf]; exact ht
      have hk2 : k ∈ vs := by
        rcases List.mem_cons.1 hk with h1 | h1
        · exact absurd h1 hx
        · exact h1
      rw [ih _ ht2 hk2, List.count_cons_of_ne hx]

/-- Occurrences in the scan are the occurrences in the buckets of the words, summed. -/
theorem count_visited (inv : InvertedFile) (ws : List WordId) (k : KeyFrame) :
    (visited inv ws).count k = (ws.map (fun w => (bucket inv w).count k)).sum := by
  induction ws with
  | nil => rfl
  | cons w ws ih =>
    rw [visited_cons, List.count_append, ih]
    simp

theorem sum_indicator (ws : List WordId) (p : WordId → Bool) :
    (ws.map (fun w => if p w then 1 else 0)).sum = (ws.filter p).length := by
  induction ws with
  | nil => rfl
  | cons w ws ih =>
    by_cases h : p w
    · simp [h, ih, List.filter_cons]
      omega
    · simp [h, ih, List.filter_cons]

/-- The scratch records after `DetectLoopCandidates`. -/
theorem DetectLoopCandidates_kf (W : World) (inv : InvertedFile) (kf : KFState)
    (Q : KeyFrame) (minScore : ℚ) :
    (DetectLoopCandidates W inv kf Q minScore).kf =
      if (loopGathered W inv kf Q).lKFsSharingWords.isEmpty then (loopGathered W inv kf Q).kf
      else (loopScored W inv kf Q minScore).kf := by
  show (if (loopGathered W inv kf Q).lKFsSharingWords.isEmpty then
      (⟨[], (loopGather W inv kf Q).1, (loopGathered W inv kf Q).kf⟩ : SearchResult)
    else if (loopScored W inv kf Q minScore).lScoreAndMatch.isEmpty then
      ⟨[], (loopGather W inv kf Q).1, (loopScored W inv kf Q minScore).kf⟩
    else
      ⟨((loopAccumulated W inv kf Q minScore).lAccScoreAndMatch.foldl
        (retainStep ((3 / 4 : ℚ) * (loopAccumulated W inv kf Q minScore).bestAccScore))
        ⟨[], []⟩).vpCandidates, (loopGather W inv kf Q).1,
        (loopScored W inv kf Q minScore).kf⟩).kf = _
  split_ifs <;> rfl

theorem DetectLoopCandidates_kf_tag_words (W : World) (inv : InvertedFile) (kf : KFState)
    (Q : KeyFrame) (minScore : ℚ) (k : KeyFrame) :
    ((DetectLoopCandidates W inv kf Q minScore).kf k).mnLoopQuery
        = ((loopGathered W inv kf Q).kf k).mnLoopQuery ∧
    ((DetectLoopCandidates W inv kf Q minScore).kf k).mnLoopWords
        = ((loopGathered W inv kf Q).kf k).mnLoopWords := by
  rw [DetectLoopCandidates_kf]
  split_ifs
  · exact ⟨rfl, rfl⟩
  · exact ⟨loopScored_tag W inv kf Q minScore k, loopScored_words W inv kf Q minScore k⟩

/-- C17: a keyframe that is not connected to `Q`, whose loop tag differs from the id of `Q`
beforehand and that occurs in the bucket of a word of `Q` ends
`DetectLoopCandidates(Q, minScore)` with its loop tag equal to the id of `Q` and its
shared-word counter equal to the number of its occurrences in the buckets of the words of
`Q`; when it occurs once in the bucket of each of its own words and in no other bucket, that
number is the number of words of `Q` that are words of the keyframe. -/
theorem loop_counter_counts_shared_words (W : World) (inv : InvertedFile) (kf : KFState)
    (Q : KeyFrame) (minScore : ℚ) (Ki : KeyFrame)
    (hc : Ki ∉ W.GetConnectedKeyFrames Q) (ht : (kf Ki).mnLoopQuery ≠ W.mnId Q)
    (hk : ∃ w ∈ (W.mBowVec Q).words, Ki ∈ bucket inv w) :
    ((DetectLoopCandidates W inv kf Q minScore).kf Ki).mnLoopQuery = W.mnId Q ∧
    ((DetectLoopCandidates W inv kf Q minScore).kf Ki).mnLoopWords
      = (((W.mBowVec Q).words.map (fun w => (bucket inv w).count Ki)).sum : Nat) ∧
    ((∀ w, (bucket inv w).count Ki = if w ∈ (W.mBowVec Ki).words then 1 else 0) →
      ((DetectLoopCandidates W inv kf Q minScore).kf Ki).mnLoopWords
        = (((W.mBowVec Q).words.filter (fun w => w ∈ (W.mBowVec Ki).words)).length : Nat)) := by
  have hv : Ki ∈ visited inv (W.mBowVec Q).words := mem_visited.2 hk
  obtain ⟨h1, h2⟩ := DetectLoopCandidates_kf_tag_words W inv kf Q minScore Ki
  have hw : ((DetectLoopCandidates W inv kf Q minScore).kf Ki).mnLoopWords
      = (((W.mBowVec Q).words.map (fun w => (bucket inv w).count Ki)).sum : Nat) := by
    rw [h2, loopGathered_eq,
      foldl_loopVisit_words_of_fresh _ _ _ ⟨kf, []⟩ Ki ht hc hv, count_visited]
  refine ⟨?_, hw, ?_⟩
  · rw [h1, loopGathered_eq, foldl_loopVisit_tag, if_pos ⟨hv, hc⟩]
  · intro hone
    rw [hw]
    congr 1
    have : (fun w => (bucket inv w).count Ki)
        = (fun w => if decide (w ∈ (W.mBowVec Ki).words) then 1 else 0) := by
      funext w
      rw [hone w]
      simp
    rw [this, sum_indicator]

theorem scenInv_count_11 (w : WordId) :
    (bucket scenInv w).count 11 = if w ∈ (scenW.mBowVec 11).words then 1 else 0 := by
  by_cases h : w ∈ [3, 4, 5, 6, 7]
  · simp only [List.mem_cons, List.mem_singleton, List.not_mem_nil, or_false] at h
    rcases h with rfl | rfl | rfl | rfl | rfl <;> decide!
  · have h10 : w ∉ (scenW.mBowVec 10).words := by
      have : (scenW.mBowVec 10).words = [3, 4, 5, 6, 7] := by decide!
      rw [this]; exact h
    have h11 : w ∉ (scenW.mBowVec 11).words := by
      have : (scenW.mBowVec 11).words = [4, 5, 6, 7] := by decide!
      rw [this]
      intro hm
      exact h (List.mem_cons_of_mem _ hm)
    have h12 : w ∉ (scenW.mBowVec 12).words := by
      have : (scenW.mBowVec 12).words = [7] := by decide!
      rw [this]
      intro hm
      apply h
      simp only [List.mem_singleton] at hm
      simp [hm]
    have hb : bucket scenInv w = [] := by
      unfold scenInv
      rw [bucket, add_apply_not_mem _ _ _ h12, add_apply_not_mem _ _ _ h11,
        add_apply_not_mem _ _ _ h10]
      rfl
    rw [hb, if_neg h11]
    rfl

/-- Witness for C17: in Scenario A keyframe 11, added once with the words 4 to 7, ends the
search for query keyframe 20 (words 3 to 7) tagged with 20 and with counter 4. -/
theorem loop_counter_counts_shared_words_witness :
    11 ∉ scenW.GetConnectedKeyFrames 20 ∧
    (freshKf 11).mnLoopQuery ≠ scenW.mnId 20 ∧
    (∃ w ∈ (scenW.mBowVec 20).words, 11 ∈ bucket scenInv w) ∧
    (∀ w, (bucket scenInv w).count 11 = if w ∈ (scenW.mBowVec 11).words then 1 else 0) ∧
    ((DetectLoopCandidates scenW scenInv freshKf 20 0).kf 11).mnLoopQuery = 20 ∧
    ((DetectLoopCandidates scenW scenInv freshKf 20 0).kf 11).mnLoopWords = 4 ∧
    ((scenW.mBowVec 20).words.filter (fun w => w ∈ (scenW.mBowVec 11).words)).length = 4 ∧
    ((DetectLoopCandidates scenW scenInv freshKf 20 0).kf 11).mnLoopWords
      = (((scenW.mBowVec 20).words.filter
          (fun w => w ∈ (scenW.mBowVec 11).words)).length : Nat) :=
  have h1 : 11 ∉ scenW.GetConnectedKeyFrames 20 := by decide!
  have h2 : (freshKf 11).mnLoopQuery ≠ scenW.mnId 20 := by decide!
  have h3 : ∃ w ∈ (scenW.mBowVec 20).words, 11 ∈ bucket scenInv w := by decide!
  ⟨h1, h2, h3, scenInv_count_11, by decide!, by decide!, by decide!,
    (loop_counter_counts_shared_words scenW scenInv freshKf 20 0 11 h1 h2 h3).2.2
      scenInv_count_11⟩

/-! ## The common-word filter -/

theorem foldl_loopVisit_score (conn : List KeyFrame) (qId : Nat) (vs : List KeyFrame)
    (g : Gather) (k : KeyFrame) :
    ((vs.foldl (loopVisit conn qId) g).kf k).mLoopScore = (g.kf k).mLoopScore := by
  induction vs generalizing g with
  | nil => rfl
  | cons x vs ih => rw [List.foldl_cons, ih, loopVisit_score]

theorem loopMaxCommonWords_nonneg (kf : KFState) (l : List KeyFrame) :
    0 ≤ loopMaxCommonWords kf l := by
  unfold loopMaxCommonWords
  have hmono : ∀ (l : List KeyFrame) (m : Int), 0 ≤ m →
      0 ≤ l.foldl (fun m k => if (kf k).mnLoopWords > m then (kf k).mnLoopWords else m) m := by
    intro l
    induction l with
    | nil => intro m hm; exact hm
    | cons x xs ih =>
      intro m hm
      rw [List.foldl_cons]
      apply ih
      split_ifs with h
      · exact le_trans hm (le_of_lt h)
      · exact hm
  exact hmono l 0 (le_refl 0)

/-- The value of `maxCommonWords` is the start value or the counter of a listed keyframe. -/
theorem loopMaxCommonWords_attained (kf : KFState) (l : List KeyFrame) :
    loopMaxCommonWords kf l = 0 ∨ ∃ k ∈ l, (kf k).mnLoopWords = loopMaxCommonWords kf l := by
  unfold loopMaxCommonWords
  generalize (0 : Int) = m0
  induction l generalizing m0 with
  | nil => exact Or.inl rfl
  | cons x xs ih =>
    rw [List.foldl_cons]
    rcases ih (if (kf x).mnLoopWords > m0 then (kf x).mnLoopWords else m0) with h | ⟨k, hk, hkw⟩
    · split_ifs at h with hx
      · exact Or.inr ⟨x, List.mem_cons_self _ _, by rw [if_pos hx]; exact h.symm⟩
      · left
        rw [if_neg hx]
        exact h
    · exact Or.inr ⟨k, List.mem_cons_of_mem _ hk, hkw⟩

theorem loopGathered_words_pos (W : World) (inv : InvertedFile) (kf : KFState) (Q : KeyFrame) :
    ∀ k ∈ (loopGathered W inv kf Q).lKFsSharingWords,
      1 ≤ ((loopGathered W inv kf Q).kf k).mnLoopWords := by
  rw [loopGathered_eq]
  apply words_pos_foldl_loopVisit
  intro k hk
  simp at hk

/-! ### The large-vocabulary example -/

theorem bowRange_words (n : Nat) : (bowRange n).words = List.range n := by
  unfold bowRange BowVector.words
  rw [List.map_map]
  exact List.map_id _

theorem sum_range_indicator (n m : Nat) :
    ((List.range n).map (fun w => if w < m then 1 else 0)).sum = min n m := by
  induction n with
  | zero => simp
  | succ n ih =>
    rw [List.range_succ, List.map_append, List.sum_append, ih]
    by_cases h : n < m
    · simp [h]
      omega
    · simp [h]
      omega

theorem bigInv_count_1 (w : WordId) :
    (bucket bigInv w).count 1 = if w < 5242881 then 1 else 0 := by
  unfold bucket bigInv
  by_cases h1 : w < 4194305
  · have h2 : w < 5242881 := lt_trans h1 (by norm_num)
    rw [if_pos h1, if_pos h2]
    rfl
  · rw [if_neg h1]
    by_cases h2 : w < 5242881
    · rw [if_pos h2, if_pos h2]
      rfl
    · rw [if_neg h2, if_neg h2]
      rfl

theorem bigInv_count_2 (w : WordId) :
    (bucket bigInv w).count 2 = if w < 4194305 then 1 else 0 := by
  unfold bucket bigInv
  by_cases h1 : w < 4194305
  · rw [if_pos h1, if_pos h1]
    rfl
  · rw [if_neg h1, if_neg h1]
    by_cases h2 : w < 5242881
    · rw [if_pos h2]
      rfl
    · rw [if_neg h2]
      rfl

theorem bigInv_bucket_subset (w : WordId) (k : KeyFrame) (h : k ∈ bucket bigInv w) :
    k = 1 ∨ k = 2 := by
  unfold bucket bigInv at h
  by_cases h1 : w < 4194305
  · rw [if_pos h1] at h
    simpa using h
  · rw [if_neg h1] at h
    by_cases h2 : w < 5242881
    · rw [if_pos h2] at h
      left
      simpa using h
    · rw [if_neg h2] at h
      simp at h

theorem bigW_query_words : (bigW.mBowVec 5).words = List.range 5242881 := by
  show (if (5 : Nat) = 2 then bowRange 4194305 else bowRange 5242881).words = _
  rw [if_neg (by norm_num), bowRange_words]

theorem big_mem_visited_1 : 1 ∈ visited bigInv (bigW.mBowVec 5).words := by
  rw [mem_visited, bigW_query_words]
  refine ⟨0, List.mem_range.2 (by norm_num), ?_⟩
  unfold bucket bigInv
  rw [if_pos (by norm_num)]
  simp

theorem big_mem_visited_2 : 2 ∈ visited bigInv (bigW.mBowVec 5).words := by
  rw [mem_visited, bigW_query_words]
  refine ⟨0, List.mem_range.2 (by norm_num), ?_⟩
  unfold bucket bigInv
  rw [if_pos (by norm_num)]
  simp

theorem big_fresh (k : KeyFrame) : (freshKf k).mnLoopQuery ≠ bigW.mnId 5 := by
  show (0 : Nat) ≠ 5
  norm_num

theorem big_counter_1 : ((loopGathered bigW bigInv freshKf 5).kf 1).mnLoopWords = 5242881 := by
  rw [loopGathered_eq, foldl_loopVisit_words_of_fresh _ _ _ ⟨freshKf, []⟩ 1 (big_fresh 1)
    (by simp [bigW]) big_mem_visited_1, count_visited, bigW_query_words]
  have : (fun w => (bucket bigInv w).count 1) = (fun w => if w < 5242881 then 1 else 0) :=
    funext bigInv_count_1
  rw [this, sum_range_indicator]
  norm_num

theorem big_counter_2 : ((loopGathered bigW bigInv freshKf 5).kf 2).mnLoopWords = 4194305 := by
  rw [loopGathered_eq, foldl_loopVisit_words_of_fresh _ _ _ ⟨freshKf, []⟩ 2 (big_fresh 2)
    (by simp [bigW]) big_mem_visited_2, count_visited, bigW_query_words]
  have : (fun w => (bucket bigInv w).count 2) = (fun w => if w < 4194305 then 1 else 0) :=
    funext bigInv_count_2
  rw [this, sum_range_indicator]
  norm_num

theorem big_gathered (k : KeyFrame) :
    k ∈ (loopGathered bigW bigInv freshKf 5).lKFsSharingWords ↔ k = 1 ∨ k = 2 := by
  rw [mem_loopGathered_of_fresh bigW bigInv freshKf 5 big_fresh]
  constructor
  · rintro ⟨h, -⟩
    obtain ⟨w, -, hw⟩ := mem_visited.1 h
    exact bigInv_bucket_subset w k hw
  · rintro (h | h)
    · rw [h]
      exact ⟨big_mem_visited_1, by simp [bigW]⟩
    · rw [h]
      exact ⟨big_mem_visited_2, by simp [bigW]⟩

theorem big_max : loopMaxCommonWords (loopGathered bigW bigInv freshKf 5).kf
    (loopGathered bigW bigInv freshKf 5).lKFsSharingWords = 5242881 := by
  have h1 := le_loopMaxCommonWords (loopGathered bigW bigInv freshKf 5).kf
    (loopGathered bigW bigInv freshKf 5).lKFsSharingWords ((big_gathered 1).2 (Or.inl rfl))
  rw [big_counter_1] at h1
  rcases loopMaxCommonWords_attained (loopGathered bigW bigInv freshKf 5).kf
    (loopGathered bigW bigInv freshKf 5).lKFsSharingWords with h | ⟨k, hk, hkw⟩
  · omega
  · rcases (big_gathered k).1 hk with h | h
    · rw [h, big_counter_1] at hkw
      exact hkw.symm
    · rw [h, big_counter_2] at hkw
      omega

theorem big_min : loopMinCommonWords bigW bigInv freshKf 5 = 4194305 := by
  unfold loopMinCommonWords
  rw [big_max]
  decide!

theorem big_score_2 (minScore : ℚ) :
    ((DetectLoopCandidates bigW bigInv freshKf 5 minScore).kf 2).mLoopScore = 0 := by
  have hne : ¬ (loopGathered bigW bigInv freshKf 5).lKFsSharingWords.isEmpty = true := by
    intro h
    have := (big_gathered 1).2 (Or.inl rfl)
    rw [List.isEmpty_iff.1 h] at this
    simp at this
  rw [DetectLoopCandidates_kf, if_neg hne, loopScored_kf, if_neg, loopGathered_eq,
    foldl_loopVisit_score]
  · rfl
  · rintro ⟨-, h⟩
    rw [big_counter_2, big_min] at h
    omega

/-- C18, as stated, fails: `minCommonWords` is the `float` product `maxCommonWords*0.8f`
truncated to `int`, and `0.8f` is slightly above 4/5.  For `maxCommonWords` 5242881 the
product rounds to 4194305, while the floor of `0.8 * 5242881`, and of `4 * 5242881 / 5`, is
4194304.  In the large-vocabulary example the query shares 5242881 words with keyframe 1 and
4194305 words with keyframe 2: the counter of keyframe 2 is above the floor, yet it is not
above `minCommonWords` and the score of keyframe 2, which is 1, is not stored. -/
theorem minCommonWords_above_floor_at_5242881 :
    minCommonWordsOf 5242881 = 4194305 ∧
    ⌊(4 / 5 : ℚ) * ((5242881 : Int) : ℚ)⌋ = 4194304 ∧
    (5242881 : Int) * 4 / 5 = 4194304 ∧
    loopMaxCommonWords (loopGathered bigW bigInv freshKf 5).kf
      (loopGathered bigW bigInv freshKf 5).lKFsSharingWords = 5242881 ∧
    loopMinCommonWords bigW bigInv freshKf 5 = 4194305 ∧
    2 ∈ (loopGathered bigW bigInv freshKf 5).lKFsSharingWords ∧
    ((loopGathered bigW bigInv freshKf 5).kf 2).mnLoopWords = 4194305 ∧
    ((loopGathered bigW bigInv freshKf 5).kf 2).mnLoopWords
      > ⌊(4 / 5 : ℚ) * ((loopMaxCommonWords (loopGathered bigW bigInv freshKf 5).kf
          (loopGathered bigW bigInv freshKf 5).lKFsSharingWords : Int) : ℚ)⌋ ∧
    bigW.score (bigW.mBowVec 5) (bigW.mBowVec 2) = 1 ∧
    (freshKf 2).mLoopScore = 0 ∧
    ((DetectLoopCandidates bigW bigInv freshKf 5 0).kf 2).mLoopScore = 0 := by
  refine ⟨by decide!, by decide!, by decide!, big_max, big_min,
    (big_gathered 2).2 (Or.inr rfl), big_counter_2, ?_, rfl, rfl, big_score_2 0⟩
  rw [big_counter_2, big_max]
  decide!

/-- C18, amended: in `DetectLoopCandidates`, `maxCommonWords` is the largest shared-word
counter among the gathered candidates and `minCommonWords` is the `float` product
`maxCommonWords*0.8f` truncated to `int`; for `maxCommonWords` up to 5242880 that is the floor
of `0.8 * maxCommonWords`, that is of `4 * maxCommonWords / 5`; a gathered candidate ends the
call with its score against the query stored in its loop scratch when its counter is strictly
greater than `minCommonWords`, and with its stored score untouched otherwise; a candidate
whose counter is `maxCommonWords` passes. -/
theorem loop_common_word_filter (W : World) (inv : InvertedFile) (kf : KFState) (Q : KeyFrame)
    (minScore : ℚ) :
    (∀ k ∈ (loopGathered W inv kf Q).lKFsSharingWords,
      ((loopGathered W inv kf Q).kf k).mnLoopWords
        ≤ loopMaxCommonWords (loopGathered W inv kf Q).kf
            (loopGathered W inv kf Q).lKFsSharingWords) ∧
    ((loopGathered W inv kf Q).lKFsSharingWords ≠ [] →
      ∃ k ∈ (loopGathered W inv kf Q).lKFsSharingWords,
        ((loopGathered W inv kf Q).kf k).mnLoopWords
          = loopMaxCommonWords (loopGathered W inv kf Q).kf
              (loopGathered W inv kf Q).lKFsSharingWords) ∧
    loopMinCommonWords W inv kf Q
      = truncToInt (toFloat (toFloat ((loopMaxCommonWords (loopGathered W inv kf Q).kf
          (loopGathered W inv kf Q).lKFsSharingWords : Int) : ℚ) * f08)) ∧
    (loopMaxCommonWords (loopGathered W inv kf Q).kf
        (loopGathered W inv kf Q).lKFsSharingWords ≤ 5242880 →
      loopMinCommonWords W inv kf Q
        = ⌊(4 / 5 : ℚ) * ((loopMaxCommonWords (loopGathered W inv kf Q).kf
            (loopGathered W inv kf Q).lKFsSharingWords : Int) : ℚ)⌋ ∧
      loopMinCommonWords W inv kf Q
        = loopMaxCommonWords (loopGathered W inv kf Q).kf
            (loopGathered W inv kf Q).lKFsSharingWords * 4 / 5) ∧
    (∀ k ∈ (loopGathered W inv kf Q).lKFsSharingWords,
      (((loopGathered W inv kf Q).kf k).mnLoopWords > loopMinCommonWords W inv kf Q →
        ((DetectLoopCandidates W inv kf Q minScore).kf k).mLoopScore
          = W.score (W.mBowVec Q) (W.mBowVec k)) ∧
      (¬ ((loopGathered W inv kf Q).kf k).mnLoopWords > loopMinCommonWords W inv kf Q →
        ((DetectLoopCandidates W inv kf Q minScore).kf k).mLoopScore = (kf k).mLoopScore)) ∧
    (∀ k ∈ (loopGathered W inv kf Q).lKFsSharingWords,
      ((loopGathered W inv kf Q).kf k).mnLoopWords
          = loopMaxCommonWords (loopGathered W inv kf Q).kf
              (loopGathered W inv kf Q).lKFsSharingWords →
        ((loopGathered W inv kf Q).kf k).mnLoopWords > loopMinCommonWords W inv kf Q) := by
  have hfloor := minCommonWordsOf_eq_floor
    (loopMaxCommonWords_nonneg (loopGathered W inv kf Q).kf
      (loopGathered W inv kf Q).lKFsSharingWords)
  have hpos := loopGathered_words_pos W inv kf Q
  refine ⟨fun k hk => le_loopMaxCommonWords _ _ hk, ?_, rfl, hfloor, ?_, ?_⟩
  · intro hne
    rcases loopMaxCommonWords_attained (loopGathered W inv kf Q).kf
      (loopGathered W inv kf Q).lKFsSharingWords with h | h
    · obtain ⟨k, hk⟩ := List.exists_mem_of_ne_nil _ hne
      have h1 := hpos k hk
      have h2 := le_loopMaxCommonWords (loopGathered W inv kf Q).kf _ hk
      omega
    · exact h
  · intro k hk
    have hne : ¬ (loopGathered W inv kf Q).lKFsSharingWords.isEmpty = true := by
      intro h
      rw [List.isEmpty_iff.1 h] at hk
      simp at hk
    rw [DetectLoopCandidates_kf, if_neg hne, loopScored_kf]
    constructor
    · intro hw
      rw [if_pos ⟨hk, hw⟩]
    · intro hw
      rw [if_neg (fun h => hw h.2), loopGathered_eq, foldl_loopVisit_score]
  · intro k hk hmax
    have h1 := hpos k hk
    unfold loopMinCommonWords
    rw [hmax] at h1 ⊢
    exact minCommonWordsOf_lt h1

/-- Witness for C18: in Scenario A queried with keyframe 20 the largest counter is 5, within
the bound, and `minCommonWords` is 4, the floor of `0.8 * 5`. -/
theorem loop_common_word_filter_witness :
    loopMaxCommonWords (loopGathered scenW scenInv freshKf 20).kf
      (loopGathered scenW scenInv freshKf 20).lKFsSharingWords = 5 ∧
    loopMinCommonWords scenW scenInv freshKf 20 = 4 ∧
    (loopMinCommonWords scenW scenInv freshKf 20
      = ⌊(4 / 5 : ℚ) * ((loopMaxCommonWords (loopGathered scenW scenInv freshKf 20).kf
          (loopGathered scenW scenInv freshKf 20).lKFsSharingWords : Int) : ℚ)⌋ ∧
      loopMinCommonWords scenW scenInv freshKf 20
        = loopMaxCommonWords (loopGathered scenW scenInv freshKf 20).kf
            (loopGathered scenW scenInv freshKf 20).lKFsSharingWords * 4 / 5) :=
  ⟨by decide!, by decide!,
    (loop_common_word_filter scenW scenInv freshKf 20 0).2.2.2.1 (by decide!)⟩

/-! ## Returned loop candidates under fresh tags -/

/-- With fresh tags every returned keyframe was gathered, passed the common-word filter and
scored at least `minScore`. -/
theorem loop_result_gathered_of_fresh (W : World) (inv : InvertedFile) (kf : KFState)
    (Q : KeyFrame) (minScore : ℚ) (hf : ∀ k, (kf k).mnLoopQuery ≠ W.mnId Q) :
    ∀ k ∈ (DetectLoopCandidates W inv kf Q minScore).result,
      k ∈ (loopGathered W inv kf Q).lKFsSharingWords ∧
      ((loopGathered W inv kf Q).kf k).mnLoopWords > loopMinCommonWords W inv kf Q ∧
      W.score (W.mBowVec Q) (W.mBowVec k) ≥ minScore := by
  intro k hk
  rw [mem_DetectLoopCandidates] at hk
  obtain ⟨p, hp, -, hpk⟩ := hk
  rw [loopAccumulated_list, List.mem_map] at hp
  obtain ⟨it, hit, hg⟩ := hp
  rw [loopScored_list, List.mem_map] at hit
  obtain ⟨x, hx, hxi⟩ := hit
  have hx1 := List.mem_filter.1 hx
  have hx2 := of_decide_eq_true hx1.2
  have hrep := loopGroup_best W (loopScored W inv kf Q minScore).kf (W.mnId Q)
    (loopMinCommonWords W inv kf Q) it
  rw [hg, hpk] at hrep
  rcases hrep with h1 | h1
  · have hkx : k = x := by rw [h1, ← hxi]
    rw [hkx]
    exact ⟨hx1.1, hx2.1, hx2.2⟩
  · obtain ⟨-, htag, hwords, hscore⟩ := h1
    have hl := mem_loopGathered_of_tag W inv kf Q minScore hf k htag
    rw [loopScored_words] at hwords
    rw [loopScored_kf, if_pos ⟨hl, hwords⟩] at hscore
    refine ⟨hl, hwords, ?_⟩
    have h3 : it.1 ≥ minScore := by
      rw [← hxi]
      exact hx2.2
    exact le_of_lt (lt_of_le_of_lt h3 hscore)

/-- C19: if no keyframe's loop tag equals the id of `Q` beforehand, every keyframe returned
by `DetectLoopCandidates(Q, minScore)` has a score against `Q` of at least `minScore`, also
when it is the best keyframe of a group headed by another keyframe. -/
theorem loop_result_meets_minScore (W : World) (inv : InvertedFile) (kf : KFState)
    (Q : KeyFrame) (minScore : ℚ) (hf : ∀ k, (kf k).mnLoopQuery ≠ W.mnId Q) :
    ∀ K ∈ (DetectLoopCandidates W inv kf Q minScore).result,
      W.score (W.mBowVec Q) (W.mBowVec K) ≥ minScore :=
  fun K hK => (loop_result_gathered_of_fresh W inv kf Q minScore hf K hK).2.2

/-- Witness for C19: in the shared-representative world queried with keyframe 5 and
`minScore` 1, keyframe 2 is returned as the best keyframe of the group headed by keyframe 4;
its score is 8. -/
theorem loop_result_meets_minScore_witness :
    (∀ k, (freshKf k).mnLoopQuery ≠ shareW.mnId 5) ∧
    (DetectLoopCandidates shareW shareInv freshKf 5 1).result = [2] ∧
    loopGroup shareW (loopScored shareW shareInv freshKf 5 1).kf 5
      (loopMinCommonWords shareW shareInv freshKf 5) (4, 4) = (12, 2) ∧
    shareW.score (shareW.mBowVec 5) (shareW.mBowVec 2) = 8 ∧
    ∀ K ∈ (DetectLoopCandidates shareW shareInv freshKf 5 1).result,
      shareW.score (shareW.mBowVec 5) (shareW.mBowVec K) ≥ 1 :=
  have h : ∀ k, (freshKf k).mnLoopQuery ≠ shareW.mnId 5 := fun _ => by
    simp [freshKf, freshScratch, shareW]
  ⟨h, by decide!, by decide!, by decide!,
    loop_result_meets_minScore shareW shareInv freshKf 5 1 h⟩

/-- C20: if no keyframe's loop tag equals the id of `Q` beforehand, every keyframe returned by
`DetectLoopCandidates(Q, minScore)` occurs in the bucket of a word of `Q`, is not connected
to `Q` and ends the call with a shared-word counter strictly greater than `minCommonWords`;
a keyframe that is in no bucket of a word of `Q` is not returned, whatever its covisibility
with the candidates is. -/
theorem loop_result_sound_of_fresh (W : World) (inv : InvertedFile) (kf : KFState)
    (Q : KeyFrame) (minScore : ℚ) (hf : ∀ k, (kf k).mnLoopQuery ≠ W.mnId Q) :
    (∀ K ∈ (DetectLoopCandidates W inv kf Q minScore).result,
      (∃ w ∈ (W.mBowVec Q).words, K ∈ bucket inv w) ∧
      K ∉ W.GetConnectedKeyFrames Q ∧
      ((DetectLoopCandidates W inv kf Q minScore).kf K).mnLoopWords
        > loopMinCommonWords W inv kf Q) ∧
    (∀ K, (∀ w ∈ (W.mBowVec Q).words, K ∉ bucket inv w) →
      K ∉ (DetectLoopCandidates W inv kf Q minScore).result) := by
  have main : ∀ K ∈ (DetectLoopCandidates W inv kf Q minScore).result,
      (∃ w ∈ (W.mBowVec Q).words, K ∈ bucket inv w) ∧
      K ∉ W.GetConnectedKeyFrames Q ∧
      ((DetectLoopCandidates W inv kf Q minScore).kf K).mnLoopWords
        > loopMinCommonWords W inv kf Q := by
    intro K hK
    obtain ⟨hl, hw, -⟩ := loop_result_gathered_of_fresh W inv kf Q minScore hf K hK
    have hv := (mem_loopGathered_of_fresh W inv kf Q hf K).1 hl
    refine ⟨mem_visited.1 hv.1, hv.2, ?_⟩
    rw [(DetectLoopCandidates_kf_tag_words W inv kf Q minScore K).2]
    exact hw
  refine ⟨main, ?_⟩
  intro K hno hK
  obtain ⟨⟨w, hw, hb⟩, -, -⟩ := main K hK
  exact hno w hw hb

/-- Witness for C20: the stale-tag world with fresh scratch records; keyframe 1 is returned,
its covisible neighbour 2, connected to the query, is not. -/
theorem loop_result_sound_of_fresh_witness :
    (∀ k, (freshKf k).mnLoopQuery ≠ staleW.mnId 5) ∧
    (DetectLoopCandidates staleW idxInv freshKf 5 (1 / 8)).result = [1] ∧
    (∀ K ∈ (DetectLoopCandidates staleW idxInv freshKf 5 (1 / 8)).result,
      (∃ w ∈ (staleW.mBowVec 5).words, K ∈ bucket idxInv w) ∧
      K ∉ staleW.GetConnectedKeyFrames 5 ∧
      ((DetectLoopCandidates staleW idxInv freshKf 5 (1 / 8)).kf K).mnLoopWords
        > loopMinCommonWords staleW idxInv freshKf 5) ∧
    (∀ K, (∀ w ∈ (staleW.mBowVec 5).words, K ∉ bucket idxInv w) →
      K ∉ (DetectLoopCandidates staleW idxInv freshKf 5 (1 / 8)).result) :=
  have h : ∀ k, (freshKf k).mnLoopQuery ≠ staleW.mnId 5 := fun _ => by
    simp [freshKf, freshScratch, staleW]
  ⟨h, by decide!, loop_result_sound_of_fresh staleW idxInv freshKf 5 (1 / 8) h⟩

/-! ## Two runs of `DetectLoopCandidates` from scratch records with fresh tags -/

/-- Two gather states that list the same keyframes, tag the same keyframes with the query
and agree on the counters of the tagged ones. -/
theorem loopVisit_sim (conn : List KeyFrame) (qId : Nat) (g g' : Gather) (x : KeyFrame)
    (hl : g.lKFsSharingWords = g'.lKFsSharingWords)
    (ht : ∀ k, (g.kf k).mnLoopQuery = qId ↔ (g'.kf k).mnLoopQuery = qId)
    (hw : ∀ k, (g.kf k).mnLoopQuery = qId → (g.kf k).mnLoopWords = (g'.kf k).mnLoopWords) :
    (loopVisit conn qId g x).lKFsSharingWords = (loopVisit conn qId g' x).lKFsSharingWords ∧
    (∀ k, ((loopVisit conn qId g x).kf k).mnLoopQuery = qId ↔
      ((loopVisit conn qId g' x).kf k).mnLoopQuery = qId) ∧
    (∀ k, ((loopVisit conn qId g x).kf k).mnLoopQuery = qId →
      ((loopVisit conn qId g x).kf k).mnLoopWords
        = ((loopVisit conn qId g' x).kf k).mnLoopWords) := by
  refine ⟨?_, ?_, ?_⟩
  · rw [loopVisit_list, loopVisit_list, hl]
    by_cases h : (g.kf x).mnLoopQuery = qId
    · have h' := (ht x).1 h
      simp [h, h']
    · have h' : ¬ (g'.kf x).mnLoopQuery = qId := fun e => h ((ht x).2 e)
      simp [h, h']
  · intro k
    rw [loopVisit_tag, loopVisit_tag]
    by_cases hc : k = x ∧ x ∉ conn
    · simp [hc]
    · rw [if_neg hc, if_neg hc]
      exact ht k
  · intro k hk
    rw [loopVisit_words, loopVisit_words]
    rw [loopVisit_tag] at hk
    by_cases hx : k = x
    · subst hx
      rw [if_pos rfl, if_pos rfl]
      by_cases h : (g.kf k).mnLoopQuery = qId
      · have h' := (ht k).1 h
        simp only [h, h', ne_eq, not_true_eq_false, if_false]
        rw [hw k h]
      · have h' : ¬ (g'.kf k).mnLoopQuery = qId := fun e => h ((ht k).2 e)
        simp [h, h']
    · rw [if_neg hx, if_neg hx]
      rw [if_neg (fun hc => hx hc.1)] at hk
      exact hw k hk

theorem foldl_loopVisit_sim (conn : List KeyFrame) (qId : Nat) (vs : List KeyFrame)
    (g g' : Gather) (hl : g.lKFsSharingWords = g'.lKFsSharingWords)
    (ht : ∀ k, (g.kf k).mnLoopQuery = qId ↔ (g'.kf k).mnLoopQuery = qId)
    (hw : ∀ k, (g.kf k).mnLoopQuery = qId → (g.kf k).mnLoopWords = (g'.kf k).mnLoopWords) :
    (vs.foldl (loopVisit conn qId) g).lKFsSharingWords
      = (vs.foldl (loopVisit conn qId) g').lKFsSharingWords ∧
    (∀ k, ((vs.foldl (loopVisit conn qId) g).kf k).mnLoopQuery = qId ↔
      ((vs.foldl (loopVisit conn qId) g').kf k).mnLoopQuery = qId) ∧
    (∀ k, ((vs.foldl (loopVisit conn qId) g).kf k).mnLoopQuery = qId →
      ((vs.foldl (loopVisit conn qId) g).kf k).mnLoopWords
        = ((vs.foldl (loopVisit conn qId) g').kf k).mnLoopWords) := by
  induction vs generalizing g g' with
  | nil => exact ⟨hl, ht, hw⟩
  | cons x vs ih =>
    rw [List.foldl_cons, List.foldl_cons]
    obtain ⟨h1, h2, h3⟩ := loopVisit_sim conn qId g g' x hl ht hw
    exact ih _ _ h1 h2 h3

theorem loopGathered_tag_of_mem (W : World) (inv : InvertedFile) (kf : KFState) (Q : KeyFrame)
    {k : KeyFrame} (hk : k ∈ (loopGathered W inv kf Q).lKFsSharingWords) :
    ((loopGathered W inv kf Q).kf k).mnLoopQuery = W.mnId Q := by
  rw [loopGathered_eq] at hk ⊢
  rw [mem_foldl_loopVisit] at hk
  rcases hk with h | h
  · simp at h
  · rw [foldl_loopVisit_tag, if_pos ⟨h.1, h.2.1⟩]

theorem loopMaxCommonWords_congr (kf1 kf2 : KFState) (l : List KeyFrame)
    (h : ∀ k ∈ l, (kf1 k).mnLoopWords = (kf2 k).mnLoopWords) :
    loopMaxCommonWords kf1 l = loopMaxCommonWords kf2 l := by
  unfold loopMaxCommonWords
  generalize (0 : Int) = m0
  induction l generalizing m0 with
  | nil => rfl
  | cons x xs ih =>
    rw [List.foldl_cons, List.foldl_cons, h x (List.mem_cons_self _ _)]
    exact ih (fun k hk => h k (List.mem_cons_of_mem _ hk)) _

/-- The neighbour loop reads the scratch records only through the test and through the
stored scores of the keyframes that pass it. -/
theorem loopNeighStep_congr (kf1 kf2 : KFState) (qId : Nat) (mcw : Int)
    (hp : ∀ n, ((kf1 n).mnLoopQuery = qId ∧ (kf1 n).mnLoopWords > mcw) ↔
      ((kf2 n).mnLoopQuery = qId ∧ (kf2 n).mnLoopWords > mcw))
    (hs : ∀ n, (kf1 n).mnLoopQuery = qId ∧ (kf1 n).mnLoopWords > mcw →
      (kf1 n).mLoopScore = (kf2 n).mLoopScore) :
    loopNeighStep kf1 qId mcw = loopNeighStep kf2 qId mcw := by
  funext a n
  by_cases h : (kf1 n).mnLoopQuery = qId ∧ (kf1 n).mnLoopWords > mcw
  · rw [loopNeighStep_pos kf1 qId mcw a n h, loopNeighStep_pos kf2 qId mcw a n ((hp n).1 h),
      hs n h]
  · rw [loopNeighStep_neg kf1 qId mcw a n h,
      loopNeighStep_neg kf2 qId mcw a n (fun h2 => h ((hp n).2 h2))]

/-- What two runs from scratch records with fresh tags share after the gather phase. -/
theorem loopGathered_sim (W : World) (inv : InvertedFile) (kf1 kf2 : KFState) (Q : KeyFrame)
    (h1 : ∀ k, (kf1 k).mnLoopQuery ≠ W.mnId Q) (h2 : ∀ k, (kf2 k).mnLoopQuery ≠ W.mnId Q) :
    (loopGathered W inv kf1 Q).lKFsSharingWords = (loopGathered W inv kf2 Q).lKFsSharingWords ∧
    (∀ k, ((loopGathered W inv kf1 Q).kf k).mnLoopQuery = W.mnId Q ↔
      ((loopGathered W inv kf2 Q).kf k).mnLoopQuery = W.mnId Q) ∧
    (∀ k, ((loopGathered W inv kf1 Q).kf k).mnLoopQuery = W.mnId Q →
      ((loopGathered W inv kf1 Q).kf k).mnLoopWords
        = ((loopGathered W inv kf2 Q).kf k).mnLoopWords) := by
  rw [loopGathered_eq, loopGathered_eq]
  apply foldl_loopVisit_sim
  · rfl
  · intro k
    exact ⟨fun h => absurd h (h1 k), fun h => absurd h (h2 k)⟩
  · intro k h
    exact absurd h (h1 k)

/-- C13: for every index, query keyframe `Q` and `minScore`, two scratch states in which no
keyframe's loop tag equals the id of `Q`, however they differ in the stale counters and
scores, make `DetectLoopCandidates(Q, minScore)` return the same vector. -/
theorem loop_ignores_stale_scratch (W : World) (inv : InvertedFile) (kf1 kf2 : KFState)
    (Q : KeyFrame) (minScore : ℚ)
    (h1 : ∀ k, (kf1 k).mnLoopQuery ≠ W.mnId Q) (h2 : ∀ k, (kf2 k).mnLoopQuery ≠ W.mnId Q) :
    (DetectLoopCandidates W inv kf1 Q minScore).result
      = (DetectLoopCandidates W inv kf2 Q minScore).result := by
  obtain ⟨hl, ht, hw⟩ := loopGathered_sim W inv kf1 kf2 Q h1 h2
  -- the common-word threshold
  have hmin : loopMinCommonWords W inv kf1 Q = loopMinCommonWords W inv kf2 Q := by
    unfold loopMinCommonWords
    rw [← hl]
    congr 1
    apply loopMaxCommonWords_congr
    intro k hk
    exact hw k (loopGathered_tag_of_mem W inv kf1 Q hk)
  -- the scored list
  have hsc : (loopScored W inv kf1 Q minScore).lScoreAndMatch
      = (loopScored W inv kf2 Q minScore).lScoreAndMatch := by
    rw [loopScored_list, loopScored_list, ← hl, ← hmin]
    congr 1
    apply List.filter_congr
    intro k hk
    rw [hw k (loopGathered_tag_of_mem W inv kf1 Q hk)]
  -- the neighbour test and the scores it lets through
  have hp : ∀ n, (((loopScored W inv kf1 Q minScore).kf n).mnLoopQuery = W.mnId Q ∧
        ((loopScored W inv kf1 Q minScore).kf n).mnLoopWords > loopMinCommonWords W inv kf1 Q) ↔
      (((loopScored W inv kf2 Q minScore).kf n).mnLoopQuery = W.mnId Q ∧
        ((loopScored W inv kf2 Q minScore).kf n).mnLoopWords
          > loopMinCommonWords W inv kf1 Q) := by
    intro n
    rw [loopScored_tag, loopScored_tag, loopScored_words, loopScored_words]
    constructor
    · rintro ⟨a, b⟩
      exact ⟨(ht n).1 a, by rw [← hw n a]; exact b⟩
    · rintro ⟨a, b⟩
      have a' := (ht n).2 a
      exact ⟨a', by rw [hw n a']; exact b⟩
  have hs : ∀ n, (((loopScored W inv kf1 Q minScore).kf n).mnLoopQuery = W.mnId Q ∧
        ((loopScored W inv kf1 Q minScore).kf n).mnLoopWords > loopMinCommonWords W inv kf1 Q) →
      ((loopScored W inv kf1 Q minScore).kf n).mLoopScore
        = ((loopScored W inv kf2 Q minScore).kf n).mLoopScore := by
    intro n hn
    have hn2 := (hp n).1 hn
    have hl1 := mem_loopGathered_of_tag W inv kf1 Q minScore h1 n hn.1
    have hl2 := mem_loopGathered_of_tag W inv kf2 Q minScore h2 n hn2.1
    have hw1 := hn.2
    have hw2 := hn2.2
    rw [loopScored_words] at hw1 hw2
    rw [hmin] at hw2
    rw [loopScored_kf, if_pos ⟨hl1, hw1⟩, loopScored_kf, if_pos ⟨hl2, hw2⟩]
  have hstep := loopNeighStep_congr (loopScored W inv kf1 Q minScore).kf
    (loopScored W inv kf2 Q minScore).kf (W.mnId Q) (loopMinCommonWords W inv kf1 Q) hp hs
  -- the accumulation loop
  have hacc : loopAccumulated W inv kf1 Q minScore = loopAccumulated W inv kf2 Q minScore := by
    unfold loopAccumulated
    rw [← hsc, ← hmin]
    congr 1
    funext st it
    unfold loopAccStep loopGroup
    rw [hstep]
  rw [DetectLoopCandidates_result, DetectLoopCandidates_result, hl, hsc, hacc]

/-- Witness for C13: the threshold example run from the scratch records as constructed and
from records left by earlier queries (tag 3, counter 17, score 9 everywhere). -/
theorem loop_ignores_stale_scratch_witness :
    (∀ k, (freshKf k).mnLoopQuery ≠ thrW.mnId 5) ∧
    (∀ k, (usedKf k).mnLoopQuery ≠ thrW.mnId 5) ∧
    (DetectLoopCandidates thrW thrInv usedKf 5 (1 / 4)).result = [1, 3] ∧
    (DetectLoopCandidates thrW thrInv freshKf 5 (1 / 4)).result
      = (DetectLoopCandidates thrW thrInv usedKf 5 (1 / 4)).result :=
  have h1 : ∀ k, (freshKf k).mnLoopQuery ≠ thrW.mnId 5 := fun _ => by
    simp [freshKf, freshScratch, thrW]
  have h2 : ∀ k, (usedKf k).mnLoopQuery ≠ thrW.mnId 5 := fun _ => by
    simp [usedKf, thrW]
  ⟨h1, h2, by decide!, loop_ignores_stale_scratch thrW thrInv freshKf usedKf 5 (1 / 4) h1 h2⟩

/-- C12 fails on the code: the scratch records as constructed and the records left by the
query of another frame both have every relocalization tag different from the id of `scenF`,
yet `DetectRelocalizationCandidates(scenF)` returns keyframe 10 from the first and keyframe
12 from the second.  Keyframe 12 is tagged by the gather phase with one shared word, below
`minCommonWords`, so its score is not computed; the neighbour loop, which does not test the
counter, adds its stale score 100 to the group of keyframe 10 and makes it the best
keyframe. -/
theorem reloc_counts_stale_score_of_unscored_neighbour :
    (∀ k, (freshKf k).mnRelocQuery ≠ scenF.mnId) ∧
    (∀ k, (afterEarlierKf k).mnRelocQuery ≠ scenF.mnId) ∧
    (DetectRelocalizationCandidates neighW scenInv freshKf earlierF).kf 10 = afterEarlierKf 10 ∧
    (DetectRelocalizationCandidates neighW scenInv freshKf earlierF).kf 11 = afterEarlierKf 11 ∧
    (DetectRelocalizationCandidates neighW scenInv freshKf earlierF).kf 12 = afterEarlierKf 12 ∧
    ((relocGathered scenInv afterEarlierKf scenF).kf 12).mnRelocQuery = scenF.mnId ∧
    ((relocGathered scenInv afterEarlierKf scenF).kf 12).mnRelocWords = 1 ∧
    relocMinCommonWords scenInv afterEarlierKf scenF = 4 ∧
    (relocScored neighW scenInv afterEarlierKf scenF).lScoreAndMatch = [(5, 10)] ∧
    ((relocScored neighW scenInv afterEarlierKf scenF).kf 12).mRelocScore = 100 ∧
    (relocAccumulated neighW scenInv afterEarlierKf scenF).lAccScoreAndMatch = [(105, 12)] ∧
    (DetectRelocalizationCandidates neighW scenInv freshKf scenF).result = [10] ∧
    (DetectRelocalizationCandidates neighW scenInv afterEarlierKf scenF).result = [12] :=
  ⟨fun _ => by simp [freshKf, freshScratch, scenF],
    fun k => by unfold afterEarlierKf; split_ifs <;> simp [freshScratch, scenF],
    by decide!, by decide!, by decide!, by decide!, by decide!, by decide!, by decide!,
    by decide!, by decide!, by decide!, by decide!⟩

/-! ## The mutex -/

theorem lockedThroughout_bracket (l : List Event) (h : ∀ e ∈ l, e = Event.access) :
    lockedThroughout ([Event.lock] ++ l ++ [Event.unlock]) = true := by
  have h1 : [Event.lock] ++ l ++ [Event.unlock] = Event.lock :: (l ++ [Event.unlock]) := by
    simp
  rw [h1]
  unfold lockedThroughout
  simp only [List.getLast?_append, List.getLast?_singleton, List.dropLast_concat]
  simp only [Option.or, decide_True, Bool.true_and, List.all_eq_true, decide_eq_true_eq]
  exact h

/-- C16 fails on the code: `add` and `erase` construct the `unique_lock` on `mMutex` before
their first access to the buckets and release it on return, whatever the keyframe is, but
`clear` accesses `mvInvertedFile` without acquiring the mutex. -/
theorem clear_accesses_index_without_lock :
    (∀ (W : World) (K : KeyFrame), lockedThroughout (addEvents W K) = true) ∧
    (∀ (W : World) (K : KeyFrame), lockedThroughout (eraseEvents W K) = true) ∧
    lockedThroughout clearEvents = false ∧
    Event.lock ∉ clearEvents := by
  refine ⟨?_, ?_, by decide, by decide⟩
  · intro W K
    apply lockedThroughout_bracket
    intro e he
    rw [List.mem_map] at he
    obtain ⟨_, _, h⟩ := he
    exact h.symm
  · intro W K
    apply lockedThroughout_bracket
    intro e he
    rw [List.mem_map] at he
    obtain ⟨_, _, h⟩ := he
    exact h.symm

end DXSLAM
